import Mathlib

/-!
Verification of the Solar SLR(1) parser generator (`lib/solar.js`, with the
sibling implementations `solar-rip.js` and `src/solar.ts` for the
default-action pass).  The generator pipeline — symbol interning, rule
building, LR(0) automaton construction with kernel-signature deduplication,
NULLABLE/FIRST/FOLLOW fixed points, SLR(1) lookahead assignment, parse-table
construction with precedence-driven conflict resolution, and the runtime
shift-reduce driver — is embedded shallowly below.  JavaScript `Set`s and
`Map`s are modelled as insertion-ordered duplicate-free lists, objects with
numeric keys as key-sorted association lists (matching JS integer-key
iteration order), and machine numbers as `Nat`/`Int`.
-/

namespace Solar

/-- Insert into an insertion-ordered duplicate-free list (JS `Set.add`). -/
def insertNew (xs : List String) (x : String) : List String :=
  if x ∈ xs then xs else xs ++ [x]

/-- Add every element of `ys` to the set `xs` (JS `ys.forEach(y => xs.add(y))`). -/
def addAll (xs ys : List String) : List String :=
  ys.foldl insertNew xs

/-- Association-list lookup (JS `Map.get` / object property read). -/
def alookup {β : Type} : List (String × β) → String → Option β
  | [], _ => none
  | (k, v) :: rest, key => if k = key then some v else alookup rest key

/-- Association-list set: replace in place if present (JS `Map.set`). -/
def aset {β : Type} : List (String × β) → String → β → List (String × β)
  | [], key, v => [(key, v)]
  | (k, w) :: rest, key, v =>
    if k = key then (k, v) :: rest else (k, w) :: aset rest key v

/-- Operator info from the grammar's precedence table
(`_processOperators`: row index + 1 is the precedence level). -/
structure OpInfo where
  precedence : Nat
  assoc : String
deriving DecidableEq, Repr

/-- One grammar rule (class `Rule` of `lib/solar.js`). -/
structure Rule where
  id : Nat
  type : String
  symbols : List String
  precedence : Nat
deriving DecidableEq, Repr

/-- A raw parse-table cell.  `undef` models the JS idiom
`state[id] = undefined` used for the nonassoc poison entry. -/
inductive Cell where
  | goto (s : Nat)
  | shift (s : Nat)
  | reduce (r : Nat)
  | accept
  | undef
deriving DecidableEq, Repr

/-- JS truthiness of a stored cell: arrays are truthy, `undefined` is falsy,
and a goto is a plain number (falsy exactly when 0). -/
def Cell.truthy : Cell → Bool
  | .undef => false
  | .goto s => s ≠ 0
  | _ => true

/-- The result of `_resolveConflict`: either a concrete cell or the
`NONASSOC` sentinel (the number 0 in the source). -/
inductive RAction where
  | act (c : Cell)
  | nonassoc
deriving DecidableEq, Repr

/-- The `solution` object built by `_resolveConflict` (the fields that are
read back by `buildParseTable`). -/
structure Solution where
  action : RAction
  bydefault : Bool
deriving DecidableEq, Repr

/-- `_resolveConflict(rule, op, [REDUCE, rid], which)` from `lib/solar.js`.
`which` is the existing table cell, `rid` the id of the reducing rule. -/
def resolveConflict (rule : Rule) (op : Option OpInfo) (rid : Nat) (which : Cell) :
    Solution :=
  match which with
  | .reduce rid2 =>
    { action := .act (.reduce (if rid2 < rid then rid2 else rid)),
      bydefault := rid2 ≠ rid }
  | w =>
    if rule.precedence = 0 ∨ op.isNone then
      { action := .act w, bydefault := true }
    else
      match op with
      | none => { action := .act w, bydefault := true }
      | some o =>
        if rule.precedence < o.precedence then
          { action := .act w, bydefault := false }
        else if rule.precedence = o.precedence then
          match o.assoc with
          | "right" => { action := .act w, bydefault := false }
          | "left" => { action := .act (.reduce rid), bydefault := false }
          | "nonassoc" => { action := .nonassoc, bydefault := false }
          | _ => { action := .act w, bydefault := false }
        else
          { action := .act (.reduce rid), bydefault := false }

/-- A parse-table row: association list from symbol id to cell, kept sorted
by key, mirroring JS integer-key iteration order on objects. -/
abbrev Row := List (Nat × Cell)

/-- Read a row entry (JS `state[id]`; an absent key reads as `undefined`). -/
def rowGet : Row → Nat → Option Cell
  | [], _ => none
  | (k, c) :: rest, key => if k = key then some c else rowGet rest key

/-- Write a row entry, keeping the row sorted by key. -/
def rowSet : Row → Nat → Cell → Row
  | [], key, c => [(key, c)]
  | (k, c0) :: rest, key, c =>
    if key < k then (key, c) :: (k, c0) :: rest
    else if key = k then (key, c) :: rest
    else (k, c0) :: rowSet rest key c

/-- Static context consulted while building the parse table:
the truthy type names, the operator table, the symbol-id map and the
token-name map of the generator. -/
structure TblCtx where
  types : List String
  operators : List (String × OpInfo)
  symbolIds : List (String × Nat)
  tokenNames : List (Nat × String)
deriving DecidableEq, Repr

/-- Numeric-key lookup in the token-name map. -/
def nlookup {β : Type} : List (Nat × β) → Nat → Option β
  | [], _ => none
  | (k, v) :: rest, key => if k = key then some v else nlookup rest key

/-- The conflict category computed in `buildParseTable` (the chain of
`isEmpty` / `isPassthrough` / `hasPrecedence` / `isReduceReduce` tests). -/
def conflictCategory (ctx : TblCtx) (rule : Rule) (op : Option OpInfo)
    (which : Cell) : String :=
  let isEmpty := rule.symbols.length = 0 ∨
    (rule.symbols.length = 1 ∧ rule.symbols.head? = some "")
  let isPassthrough := rule.symbols.length = 1 ∧
    (rule.symbols.head?.elim false (fun s => s ∈ ctx.types))
  let hasPrecedence := op.isSome ∧ rule.precedence > 0
  let isReduceReduce := match which with | .reduce _ => true | _ => false
  if isEmpty then "empty-optional"
  else if isPassthrough then "passthrough"
  else if hasPrecedence then "precedence"
  else if isReduceReduce then "reduce-reduce"
  else "ambiguous"

/-- A diagnostic record pushed onto `conflictDetails`. -/
structure ConflictRec where
  state : Nat
  lookahead : String
  lookaheadName : String
  rule : Nat
  ruleType : String
  ruleSymbols : String
  shiftTo : Option Nat
  reduceRule : Nat
  resolution : String
  category : String
deriving DecidableEq, Repr

/-- The record built in `buildParseTable` when a bydefault resolution is
categorized `reduce-reduce` or `ambiguous`. -/
def mkConflictRec (ctx : TblCtx) (k : Nat) (stackSymbol : String) (sid : Nat)
    (rule : Rule) (which : Cell) (category : String) : ConflictRec :=
  { state := k
    lookahead := stackSymbol
    lookaheadName := (nlookup ctx.tokenNames sid).getD stackSymbol
    rule := rule.id
    ruleType := rule.type
    ruleSymbols := String.intercalate " " rule.symbols
    shiftTo := match which with | .shift s => some s | _ => none
    reduceRule := rule.id
    resolution := match which with | .shift _ => "shift" | _ => "reduce"
    category := category }

/-- Accumulator threaded through the reduction pass of `buildParseTable`:
the row under construction, the conflict counter, and the detail records. -/
structure TblAcc where
  row : Row
  conflicts : Nat
  details : List ConflictRec
deriving DecidableEq, Repr

/-- Processing of a single `(reduction item, lookahead)` pair in
`buildParseTable` of `lib/solar.js` (the body of the innermost loop):
look up the existing cell, resolve the conflict if one exists, categorize
and count a bydefault resolution, and write the resulting cell back.
When the resolution is bydefault the local `action` variable is left
holding the existing cell, so the existing cell is written back. -/
def processLookahead (ctx : TblCtx) (k : Nat) (rule : Rule)
    (stackSymbol : String) (acc : TblAcc) : TblAcc :=
  match alookup ctx.symbolIds stackSymbol with
  | none => acc
  | some sid =>
    let op := alookup ctx.operators stackSymbol
    match rowGet acc.row sid with
    | some c =>
      if c.truthy then
        let sol := resolveConflict rule op rule.id c
        if sol.bydefault then
          let category := conflictCategory ctx rule op c
          if category = "reduce-reduce" ∨ category = "ambiguous" then
            { row := rowSet acc.row sid c
              conflicts := acc.conflicts + 1
              details := acc.details ++
                [mkConflictRec ctx k stackSymbol sid rule c category] }
          else
            { acc with row := rowSet acc.row sid c }
        else
          match sol.action with
          | .act a => { acc with row := rowSet acc.row sid a }
          | .nonassoc => { acc with row := rowSet acc.row sid .undef }
      else
        { acc with row := rowSet acc.row sid (.reduce rule.id) }
    | none =>
      { acc with row := rowSet acc.row sid (.reduce rule.id) }

/-- JS `lastAction[0] === 2`: the cell is a reduce array. -/
def Cell.isReduceArr : Cell → Bool
  | .reduce _ => true
  | _ => false

/-- `_computeDefaultActions` from `solar-rip.js` / `src/solar.ts`: a state
gets a default action exactly when its row holds exactly one entry and that
entry is a reduce.  `k` is the index of the first state in `states`. -/
def computeDefaultActions : (states : List Row) → (k : Nat := 0) →
    List (Nat × Cell)
  | [], _ => []
  | row :: rest, k =>
    match row with
    | [(_, c)] =>
      if c.isReduceArr then (k, c) :: computeDefaultActions rest (k + 1)
      else computeDefaultActions rest (k + 1)
    | _ => computeDefaultActions rest (k + 1)

/-- The per-cell compression of `_generateTableCode`: shifts become the
target state, reduces the negated rule id, accept 0; falsy cells
(`undefined`, goto 0) are dropped. -/
def optimizeCell : Cell → Option Int
  | .undef => none
  | .goto s => if s = 0 then none else some (s : Int)
  | .shift s => some (s : Int)
  | .reduce r => some (-(r : Int))
  | .accept => some 0

/-- Row compression of `_generateTableCode`. -/
def optimizeRow (row : Row) : List (Nat × Int) :=
  row.foldr (fun (k, c) acc =>
    match optimizeCell c with
    | some v => (k, v) :: acc
    | none => acc) []

/-- The `getToken` closure of `_processGrammarAction` in sexp mode:
`$[$0` followed by `(n − L) || ''` followed by `]`, with `L` the length of
the production's symbol list. -/
def getToken (L : Nat) (n : Int) : String :=
  "$[$0" ++ (if n - (L : Int) = 0 then "" else toString (n - (L : Int))) ++ "]"

/-- Maximal run of decimal digits at the head of the character list. -/
def digitSpan : List Char → List Char × List Char
  | [] => ([], [])
  | c :: rest =>
    if c.isDigit then
      let (d, r) := digitSpan rest
      (c :: d, r)
    else ([], c :: rest)

theorem digitSpan_len (l : List Char) :
    (digitSpan l).1.length + (digitSpan l).2.length = l.length := by
  induction l with
  | nil => simp [digitSpan]
  | cons c rest ih =>
    by_cases h : c.isDigit <;> simp [digitSpan, h] <;> omega

/-- Attempt to match the regex `-?\d+` at the head of the list, returning
the matched characters and the remainder. -/
def matchSignedInt : List Char → Option (List Char × List Char)
  | [] => none
  | c :: rest =>
    if c.isDigit then some (digitSpan (c :: rest))
    else if c = '-' then
      match rest with
      | [] => none
      | d :: _ =>
        if d.isDigit then
          let (ds, r) := digitSpan rest
          some ('-' :: ds, r)
        else none
    else none

theorem digitSpan_snd_le (l : List Char) : (digitSpan l).2.length ≤ l.length := by
  induction l with
  | nil => simp [digitSpan]
  | cons c rest ih =>
    by_cases h : c.isDigit
    · simp only [digitSpan, h, if_pos, List.length_cons]
      rcases hrr : digitSpan rest with ⟨a, b⟩
      rw [hrr] at ih
      simpa using Nat.le_succ_of_le ih
    · simp [digitSpan, h]

theorem digitSpan_cons_digit {c : Char} (rest : List Char) (hd : c.isDigit) :
    digitSpan (c :: rest) = (c :: (digitSpan rest).1, (digitSpan rest).2) := by
  rcases hrr : digitSpan rest with ⟨a, b⟩
  simp [digitSpan, hd, hrr]

theorem matchSignedInt_len {l num r : List Char}
    (h : matchSignedInt l = some (num, r)) : r.length < l.length := by
  match l with
  | [] => simp [matchSignedInt] at h
  | c :: rest =>
    by_cases hd : c.isDigit
    · have h2 : digitSpan (c :: rest) = (num, r) := by
        simpa [matchSignedInt, hd] using h
      rw [digitSpan_cons_digit rest hd] at h2
      have hr : r = (digitSpan rest).2 := (Prod.mk.injEq _ _ _ _ ▸ h2).2.symm
      have hle := digitSpan_snd_le rest
      rw [hr]
      simp only [List.length_cons]
      omega
    · by_cases hm : c = '-'
      · match rest with
        | [] => simp [matchSignedInt, hd, hm] at h
        | d :: rest2 =>
          by_cases hd2 : d.isDigit
          · have h2 : ('-' :: (digitSpan (d :: rest2)).1, (digitSpan (d :: rest2)).2)
                = (num, r) := by
              rcases hds : digitSpan (d :: rest2) with ⟨a, b⟩
              simpa [matchSignedInt, hd, hm, hd2, hds] using h
            have hr : r = (digitSpan (d :: rest2)).2 :=
              (Prod.mk.injEq _ _ _ _ ▸ h2).2.symm
            rw [digitSpan_cons_digit rest2 hd2] at hr
            have hle := digitSpan_snd_le rest2
            rw [hr]
            simp only [List.length_cons]
            omega
          · simp [matchSignedInt, hd, hm, hd2] at h
      · simp [matchSignedInt, hd, hm] at h

/-- Numeric value of a matched `-?\d+` token (JS `parseInt(n, 10)`). -/
def numVal (num : List Char) : Int :=
  match num with
  | '-' :: ds => -(ds.foldl (fun acc c => acc * 10 + (c.toNat - '0'.toNat)) 0 : Int)
  | ds => (ds.foldl (fun acc c => acc * 10 + (c.toNat - '0'.toNat)) 0 : Int)

/-- One left-to-right scan of the regex `/(?<!\$)\$(-?\d+)/`: does the
string contain a `$n` reference?  The flag records whether the previous
character was `$` (the lookbehind). -/
def hasDollarRefAux : Bool → List Char → Bool
  | _, [] => false
  | prevD, c :: rest =>
    if c = '$' ∧ ¬prevD ∧ (matchSignedInt rest).isSome then true
    else hasDollarRefAux (c = '$') rest

/-- `regex.test(action)` for `/(?<!\$)\$(-?\d+)/gm`. -/
def hasDollarRef (s : String) : Bool :=
  hasDollarRefAux false s.data

/-- `action.replace(/(?<!\$)\$(-?\d+)/gm, getToken)`: replace each `$n`
reference (not preceded by `$`) by the `getToken` rendering, all other
characters copied verbatim.  The fuel bounds the scan steps; each step
consumes at least one character, so `l.length` steps always complete the
scan (out of fuel, the remainder is returned unprocessed). -/
def replDollarF (L : Nat) : Nat → Bool → List Char → List Char
  | 0, _, l => l
  | _ + 1, _, [] => []
  | fuel + 1, prevD, c :: rest =>
    if c = '$' ∧ ¬prevD then
      match matchSignedInt rest with
      | some (num, r) => (getToken L (numVal num)).data ++ replDollarF L fuel false r
      | none => c :: replDollarF L fuel true rest
    else c :: replDollarF L fuel (c = '$') rest

/-- The `$n`-reference replacement on a string. -/
def replaceDollarRefs (L : Nat) (s : String) : String :=
  ⟨replDollarF L s.data.length false s.data⟩

/-- `action.replace(/(-?\d+)/g, getToken)`: replace each bare signed
integer by the `getToken` rendering (fuelled like `replDollarF`). -/
def replBareF (L : Nat) : Nat → List Char → List Char
  | 0, l => l
  | _ + 1, [] => []
  | fuel + 1, c :: rest =>
    match matchSignedInt (c :: rest) with
    | some (num, r) => (getToken L (numVal num)).data ++ replBareF L fuel r
    | none => c :: replBareF L fuel rest

/-- The bare-integer replacement on a string. -/
def replaceBareInts (L : Nat) (s : String) : String :=
  ⟨replBareF L s.data.length s.data⟩

/-- `String.prototype.trim`: strip whitespace from both ends. -/
def trimChars (l : List Char) : List Char :=
  ((l.dropWhile Char.isWhitespace).reverse.dropWhile Char.isWhitespace).reverse

/-- Trim of a string. -/
def trimStr (s : String) : String := ⟨trimChars s.data⟩

/-- An action template as seen by `_processGrammarAction`: a string, a
number, `undefined`, or any other JS value. -/
inductive ActTpl where
  | str (s : String)
  | num (n : Int)
  | absent
  | other
deriving DecidableEq, Repr

/-- `_processGrammarAction` in sexp mode (`lib/solar.js`): strings are
rewritten with the `$n` regex when one matches, with the bare-integer regex
otherwise, and the result trimmed; numbers go through `action || 1`;
`undefined` behaves like 1; anything else yields `null`. -/
def processGrammarActionSexp (action : ActTpl) (L : Nat) : String :=
  match action with
  | .str s =>
    let body :=
      if hasDollarRef s then replaceDollarRefs L s
      else replaceBareInts L s
    "return " ++ trimStr body ++ ";"
  | .num n => "return " ++ getToken L (if n = 0 then 1 else n) ++ ";"
  | .absent => "return " ++ getToken L 1 ++ ";"
  | .other => "return null;"

theorem digitSpan_append (l : List Char) :
    (digitSpan l).1 ++ (digitSpan l).2 = l := by
  induction l with
  | nil => simp [digitSpan]
  | cons c rest ih =>
    by_cases h : c.isDigit
    · rw [digitSpan_cons_digit rest h]
      simpa using ih
    · simp [digitSpan, h]

theorem matchSignedInt_recover {l num r : List Char}
    (h : matchSignedInt l = some (num, r)) : num ++ r = l := by
  match l with
  | [] => simp [matchSignedInt] at h
  | c :: rest =>
    by_cases hd : c.isDigit
    · have h2 : digitSpan (c :: rest) = (num, r) := by
        simpa [matchSignedInt, hd] using h
      have := digitSpan_append (c :: rest)
      rw [h2] at this
      exact this
    · by_cases hm : c = '-'
      · match rest with
        | [] => simp [matchSignedInt, hd, hm] at h
        | d :: rest2 =>
          by_cases hd2 : d.isDigit
          · have h2 : ('-' :: (digitSpan (d :: rest2)).1, (digitSpan (d :: rest2)).2)
                = (num, r) := by
              rcases hds : digitSpan (d :: rest2) with ⟨a, b⟩
              simpa [matchSignedInt, hd, hm, hd2, hds] using h
            have hnum : num = '-' :: (digitSpan (d :: rest2)).1 :=
              ((Prod.mk.injEq _ _ _ _).mp h2).1.symm
            have hr : r = (digitSpan (d :: rest2)).2 :=
              ((Prod.mk.injEq _ _ _ _).mp h2).2.symm
            rw [hnum, hr, hm]
            rw [List.cons_append, digitSpan_append]
          · simp [matchSignedInt, hd, hm, hd2] at h
      · simp [matchSignedInt, hd, hm] at h

/-- A segment of an action template: a literal character or a matched
numeric reference (the numeral's characters, sign included). -/
inductive Seg where
  | lit (c : Char)
  | ref (num : List Char)
deriving DecidableEq, Repr

/-- Segmentation of a template along the `/(?<!\$)\$(-?\d+)/` matches:
the same scan as `replDollarF`, recording each match as a `ref` and every
other character as a literal. -/
def dollarSegsF : Nat → Bool → List Char → List Seg × List Char
  | 0, _, l => ([], l)
  | _ + 1, _, [] => ([], [])
  | fuel + 1, prevD, c :: rest =>
    if c = '$' ∧ ¬prevD then
      match matchSignedInt rest with
      | some (num, r) =>
        let p := dollarSegsF fuel false r
        (.ref num :: p.1, p.2)
      | none =>
        let p := dollarSegsF fuel true rest
        (.lit c :: p.1, p.2)
    else
      let p := dollarSegsF fuel (c = '$') rest
      (.lit c :: p.1, p.2)

/-- Reassemble the original text of a `$n` segmentation. -/
def segsOrig : List Seg → List Char
  | [] => []
  | .lit c :: rest => c :: segsOrig rest
  | .ref num :: rest => '$' :: num ++ segsOrig rest

/-- Render a segmentation with every reference replaced by its `getToken`
rewriting and every literal kept verbatim. -/
def segsRepl (L : Nat) : List Seg → List Char
  | [] => []
  | .lit c :: rest => c :: segsRepl L rest
  | .ref num :: rest => (getToken L (numVal num)).data ++ segsRepl L rest

theorem dollarSegsF_orig (fuel : Nat) :
    ∀ (prevD : Bool) (l : List Char),
      segsOrig (dollarSegsF fuel prevD l).1 ++ (dollarSegsF fuel prevD l).2 = l := by
  induction fuel with
  | zero => intro prevD l; simp [dollarSegsF, segsOrig]
  | succ fuel ih =>
    intro prevD l
    match l with
    | [] => simp [dollarSegsF, segsOrig]
    | c :: rest =>
      simp only [dollarSegsF]
      by_cases hc : c = '$' ∧ ¬prevD
      · rw [if_pos hc]
        match hm : matchSignedInt rest with
        | some (num, r) =>
          simp only [segsOrig]
          have hx := ih false r
          have hrec : num ++ r = rest := matchSignedInt_recover hm
          rw [hc.1, List.append_assoc, hx, List.cons_append, hrec]
        | none =>
          simp only [segsOrig]
          rw [List.cons_append]
          exact congrArg (List.cons c) (ih true rest)
      · rw [if_neg hc]
        simp only [segsOrig]
        rw [List.cons_append]
        exact congrArg (List.cons c) (ih (c = '$') rest)

theorem dollarSegsF_repl (L : Nat) (fuel : Nat) :
    ∀ (prevD : Bool) (l : List Char),
      replDollarF L fuel prevD l
        = segsRepl L (dollarSegsF fuel prevD l).1 ++ (dollarSegsF fuel prevD l).2 := by
  induction fuel with
  | zero => intro prevD l; simp [dollarSegsF, replDollarF, segsRepl]
  | succ fuel ih =>
    intro prevD l
    match l with
    | [] => simp [dollarSegsF, replDollarF, segsRepl]
    | c :: rest =>
      simp only [dollarSegsF, replDollarF]
      by_cases hc : c = '$' ∧ ¬prevD
      · rw [if_pos hc, if_pos hc]
        match hm : matchSignedInt rest with
        | some (num, r) =>
          simp only [segsRepl]
          rw [List.append_assoc, ih false r]
        | none =>
          simp only [segsRepl]
          rw [List.cons_append]
          exact congrArg (List.cons c) (ih true rest)
      · rw [if_neg hc, if_neg hc]
        simp only [segsRepl]
        rw [List.cons_append]
        exact congrArg (List.cons c) (ih (c = '$') rest)

theorem dollarSegsF_complete (fuel : Nat) :
    ∀ (prevD : Bool) (l : List Char), l.length ≤ fuel →
      (dollarSegsF fuel prevD l).2 = [] := by
  induction fuel with
  | zero =>
    intro prevD l h
    match l with
    | [] => rfl
    | c :: rest => simp at h
  | succ fuel ih =>
    intro prevD l h
    match l with
    | [] => rfl
    | c :: rest =>
      simp only [dollarSegsF]
      by_cases hc : c = '$' ∧ ¬prevD
      · rw [if_pos hc]
        match hm : matchSignedInt rest with
        | some (num, r) =>
          have hlen := matchSignedInt_len hm
          simp only []
          exact ih false r (by simp only [List.length_cons] at h; omega)
        | none =>
          exact ih true rest (by simp only [List.length_cons] at h; omega)
      · rw [if_neg hc]
        exact ih (c = '$') rest (by simp only [List.length_cons] at h; omega)

/-- Segmentation of a template along the `/(-?\d+)/` matches. -/
def bareSegsF : Nat → List Char → List Seg × List Char
  | 0, l => ([], l)
  | _ + 1, [] => ([], [])
  | fuel + 1, c :: rest =>
    match matchSignedInt (c :: rest) with
    | some (num, r) =>
      let p := bareSegsF fuel r
      (.ref num :: p.1, p.2)
    | none =>
      let p := bareSegsF fuel rest
      (.lit c :: p.1, p.2)

/-- Reassemble the original text of a bare-integer segmentation. -/
def segsOrigB : List Seg → List Char
  | [] => []
  | .lit c :: rest => c :: segsOrigB rest
  | .ref num :: rest => num ++ segsOrigB rest

theorem bareSegsF_orig (fuel : Nat) :
    ∀ (l : List Char),
      segsOrigB (bareSegsF fuel l).1 ++ (bareSegsF fuel l).2 = l := by
  induction fuel with
  | zero => intro l; simp [bareSegsF, segsOrigB]
  | succ fuel ih =>
    intro l
    match l with
    | [] => simp [bareSegsF, segsOrigB]
    | c :: rest =>
      simp only [bareSegsF]
      match hm : matchSignedInt (c :: rest) with
      | some (num, r) =>
        simp only [segsOrigB]
        rw [List.append_assoc, ih r, matchSignedInt_recover hm]
      | none =>
        simp only [segsOrigB]
        rw [List.cons_append]
        exact congrArg (List.cons c) (ih rest)

theorem bareSegsF_repl (L : Nat) (fuel : Nat) :
    ∀ (l : List Char),
      replBareF L fuel l
        = segsRepl L (bareSegsF fuel l).1 ++ (bareSegsF fuel l).2 := by
  induction fuel with
  | zero => intro l; simp [bareSegsF, replBareF, segsRepl]
  | succ fuel ih =>
    intro l
    match l with
    | [] => simp [bareSegsF, replBareF, segsRepl]
    | c :: rest =>
      simp only [bareSegsF, replBareF]
      match hm : matchSignedInt (c :: rest) with
      | some (num, r) =>
        simp only [segsRepl]
        rw [List.append_assoc, ih r]
      | none =>
        simp only [segsRepl]
        rw [List.cons_append]
        exact congrArg (List.cons c) (ih rest)

theorem bareSegsF_complete (fuel : Nat) :
    ∀ (l : List Char), l.length ≤ fuel →
      (bareSegsF fuel l).2 = [] := by
  induction fuel with
  | zero =>
    intro l h
    match l with
    | [] => rfl
    | c :: rest => simp at h
  | succ fuel ih =>
    intro l h
    match l with
    | [] => rfl
    | c :: rest =>
      simp only [bareSegsF]
      match hm : matchSignedInt (c :: rest) with
      | some (num, r) =>
        have hlen := matchSignedInt_len hm
        exact ih r (by simp only [List.length_cons] at h hlen; omega)
      | none =>
        exact ih rest (by simp only [List.length_cons] at h; omega)

/-- The `$n` segmentation of a string. -/
def dollarSegs (s : String) : List Seg := (dollarSegsF s.data.length false s.data).1

/-- The bare-integer segmentation of a string. -/
def bareSegs (s : String) : List Seg := (bareSegsF s.data.length s.data).1


/-- One production alternative as accepted by `_parseHandle` (array form):
a space-separated pattern, an action template, and an optional
`{prec: token}` option (modelled as the token name). -/
structure Handle where
  pattern : String
  action : ActTpl := .absent
  prec : Option String := none
deriving Repr

/-- An in-memory grammar object (sexp mode: the `grammar` map, the
`operators` rows, and the optional `start`). -/
structure GrammarIn where
  grammar : List (String × List Handle)
  operators : List (String × List String) := []
  start : Option String := none
deriving Repr

/-- `_processOperators`: row `i` (0-based) gives its tokens precedence
`i + 1` with the row's associativity. -/
def processOperators (ops : List (String × List String)) : List (String × OpInfo) :=
  (List.range ops.length).foldl (fun acc i =>
    match ops.get? i with
    | none => acc
    | some (assoc, toks) =>
      toks.foldl (fun acc t => aset acc t ⟨i + 1, assoc⟩) acc) []

/-- Split a trimmed character list into maximal whitespace-free words. -/
def wordsAux : List Char → List Char → List (List Char)
  | [], acc => if acc.isEmpty then [] else [acc.reverse]
  | c :: rest, acc =>
    if c.isWhitespace then
      if acc.isEmpty then wordsAux rest [] else acc.reverse :: wordsAux rest []
    else wordsAux rest (c :: acc)

/-- `handle[0].trim().split(/\s+/)`: the empty pattern yields `[""]`. -/
def splitWs (s : String) : List String :=
  let t := trimChars s.data
  if t.isEmpty then [""]
  else (wordsAux t []).map (fun w => (⟨w⟩ : String))

/-- First character class of an inline alias (`[a-zA-Z_]`). -/
def isAliasStart (c : Char) : Bool := c.isAlpha || c = '_'

/-- Body character class of an inline alias (`[a-zA-Z0-9_-]`). -/
def isAliasChar (c : Char) : Bool := c.isAlphanum || c = '_' || c = '-'

/-- Maximal run of alias-body characters. -/
def aliasSpan : List Char → List Char × List Char
  | [] => ([], [])
  | c :: rest =>
    if isAliasChar c then
      let (d, r) := aliasSpan rest
      (c :: d, r)
    else ([], c :: rest)

theorem aliasSpan_snd_le (l : List Char) : (aliasSpan l).2.length ≤ l.length := by
  induction l with
  | nil => simp [aliasSpan]
  | cons c rest ih =>
    by_cases h : isAliasChar c
    · simp only [aliasSpan, h, if_pos, List.length_cons]
      rcases hrr : aliasSpan rest with ⟨a, b⟩
      rw [hrr] at ih
      simpa using Nat.le_succ_of_le ih
    · simp [aliasSpan, h]

theorem aliasSpan_tail_lt {l r2 : List Char} (h : (aliasSpan l).2 = ']' :: r2) :
    r2.length < l.length := by
  have hle := aliasSpan_snd_le l
  rw [h] at hle
  simp only [List.length_cons] at hle
  omega

/-- `e.replace(/\[[a-zA-Z_][a-zA-Z0-9_-]*\]/g, '')`: strip inline alias
suffixes from a pattern token (fuelled; each step consumes at least one
character, so `l.length` steps complete the scan). -/
def aliasStripF : Nat → List Char → List Char
  | 0, l => l
  | _ + 1, [] => []
  | fuel + 1, c :: rest =>
    if c = '[' then
      match rest with
      | [] => [c]
      | c2 :: rest2 =>
        if isAliasStart c2 then
          match (aliasSpan rest2).2 with
          | ']' :: r2 => aliasStripF fuel r2
          | _ => c :: aliasStripF fuel (c2 :: rest2)
        else c :: aliasStripF fuel (c2 :: rest2)
    else c :: aliasStripF fuel rest

/-- Strip all inline aliases from a symbol name. -/
def stripAlias (s : String) : String := ⟨aliasStripF s.data.length s.data⟩

/-- Right-to-left scan of `_assignPrecedence`: the first RHS token that is
an operator and not (yet) a known type gives the rule its precedence. -/
def precScan (operators : List (String × OpInfo)) (seenTypes : List String) :
    List String → Nat
  | [] => 0
  | syms =>
    match syms.reverse.find? (fun t =>
        (alookup operators t).isSome && ¬ seenTypes.contains t) with
    | some t => ((alookup operators t).map (·.precedence)).getD 0
    | none => 0

/-- `_assignPrecedence`: an explicit `{prec}` option naming a known operator
wins; otherwise the right-to-left RHS scan. -/
def assignPrecedence (operators : List (String × OpInfo))
    (seenTypes : List String) (symbols : List String) (precOpt : Option String) : Nat :=
  match precOpt.bind (alookup operators) with
  | some o => o.precedence
  | none => precScan operators seenTypes symbols

/-- The symbol-interning state of `_buildRules`: the name → id map and the
next fresh id (ids 0, 1, 2 are pre-seeded). -/
structure SymTab where
  symbolIds : List (String × Nat)
  nextId : Nat
deriving Repr

/-- `addSymbol` of `_buildRules`: the empty name and already-interned names
are skipped, fresh names get the next id. -/
def addSymbol (st : SymTab) (name : String) : SymTab :=
  if name = "" then st
  else
    match alookup st.symbolIds name with
    | some _ => st
    | none =>
      { symbolIds := st.symbolIds ++ [(name, st.nextId)], nextId := st.nextId + 1 }

/-- Output of `_buildRules` plus `_augmentGrammar`: everything the later
phases read. -/
structure GenCtx where
  rules : List Rule
  typeNames : List String
  start : String
  operators : List (String × OpInfo)
  symbolIds : List (String × Nat)
  tokenNames : List (Nat × String)
  ruleTable : List (Nat × Nat)
deriving Repr

/-- The rules of a nonterminal in creation order (`type.rules`). -/
def typeRules (ctx : GenCtx) (name : String) : List Rule :=
  ctx.rules.filter (fun r => r.type = name)

/-- JS truthiness of `this.types[name]` in the phases after augmentation. -/
def isType (ctx : GenCtx) (name : String) : Bool :=
  ctx.typeNames.contains name

/-- State threaded through the `_buildRules` loop. -/
structure BuildAcc where
  symtab : SymTab
  rules : List Rule
  ruleTable : List (Nat × Nat)
  seenTypes : List String
deriving Repr

/-- Process one handle of nonterminal `ty` (the inner loop of
`_buildRules`): split and alias-strip the pattern, intern the symbols,
create the rule with its precedence, and extend the rule table. -/
def buildHandle (operators : List (String × OpInfo)) (ty : String)
    (h : Handle) (acc : BuildAcc) : BuildAcc :=
  let symbols := (splitWs h.pattern).map stripAlias
  let symtab := symbols.foldl addSymbol acc.symtab
  let rule : Rule :=
    { id := acc.rules.length + 1
      type := ty
      symbols := symbols
      precedence := assignPrecedence operators acc.seenTypes symbols h.prec }
  { acc with
    symtab := symtab
    rules := acc.rules ++ [rule]
    ruleTable := acc.ruleTable ++
      [((alookup symtab.symbolIds ty).getD 0,
        if symbols.head? = some "" then 0 else symbols.length)] }

/-- The `_buildRules` loop over the grammar map. -/
def buildRules (operators : List (String × OpInfo))
    (g : List (String × List Handle)) : BuildAcc :=
  g.foldl (fun acc (ty, handles) =>
    let acc := { acc with
      symtab := addSymbol acc.symtab ty
      seenTypes := acc.seenTypes ++ [ty] }
    handles.foldl (fun acc h => buildHandle operators ty h acc) acc)
    { symtab := { symbolIds := [("$accept", 0), ("$end", 1), ("error", 2)], nextId := 3 }
      rules := []
      ruleTable := [(0, 0)]
      seenTypes := [] }

/-- `_buildTokenMappings`: every interned symbol with id ≥ 2 that is not a
nonterminal gets a token name. -/
def buildTokenMappings (symbolIds : List (String × Nat)) (typeNames : List String) :
    List (Nat × String) :=
  symbolIds.foldl (fun acc (name, id) =>
    if id ≥ 2 ∧ ¬ typeNames.contains name then acc ++ [(id, name)] else acc) []

/-- `processGrammar` (`_processOperators`, `_buildRules`, `_augmentGrammar`):
returns `none` when the generator would throw (no rules, or undefined start
symbol).  The synthesized accept rule `$accept → start $end` is appended
with id 0, and `$accept` becomes the last type. -/
def processGrammar (g : GrammarIn) : Option GenCtx :=
  let operators := processOperators g.operators
  let acc := buildRules operators g.grammar
  if acc.rules.isEmpty then none
  else
    let start := g.start.getD (acc.rules.head?.elim "" (·.type))
    let userTypes := (g.grammar.map (·.1)).filter (fun t => t ≠ "")
    if ¬ userTypes.contains start then none
    else
      let acceptRule : Rule :=
        { id := 0, type := "$accept", symbols := [start, "$end"], precedence := 0 }
      let typeNames := userTypes ++ ["$accept"]
      some
        { rules := acc.rules ++ [acceptRule]
          typeNames := typeNames
          start := start
          operators := operators
          symbolIds := acc.symtab.symbolIds
          tokenNames := buildTokenMappings acc.symtab.symbolIds typeNames
          ruleTable := acc.ruleTable }

/-- An LR(0) item (class `Item`): a rule, a dot position, and the lookahead
set filled in by `_assignItemLookaheads`. -/
structure Item where
  rule : Rule
  dot : Nat
  lookaheads : List String := []
deriving DecidableEq, Repr

/-- `item.nextSymbol`, with `""` standing for both the empty symbol and the
out-of-range `undefined` (both falsy in every use in the source). -/
def Item.next (it : Item) : String :=
  it.rule.symbols.getD it.dot ""

/-- The item core `(rule.id, dot)` used for closure deduplication. -/
def Item.core (it : Item) : Nat × Nat :=
  (it.rule.id, it.dot)

/-- An automaton state (class `State`). -/
structure St where
  id : Nat := 0
  signature : String := ""
  items : List Item := []
  transitions : List (String × Nat) := []
  reductions : List Item := []
  hasShifts : Bool := false
  hasConflicts : Bool := false
deriving DecidableEq, Repr

/-- Accumulator of `_closure`: the closure set under construction and the
seen item cores. -/
structure ClosAcc where
  items : List Item := []
  reductions : List Item := []
  hasShifts : Bool := false
  hasConflicts : Bool := false
  cores : List (Nat × Nat) := []
deriving DecidableEq, Repr

/-- Processing of a single worklist item inside `_closure`: skip seen
cores, otherwise add the item and either record a reduction, record a
shift, or predict through the nonterminal at the dot. -/
def closureStepOne (ctx : GenCtx) (p : ClosAcc × List Item) (item : Item) :
    ClosAcc × List Item :=
  let (acc, nxt) := p
  if item.core ∈ acc.cores then (acc, nxt)
  else
    let acc := { acc with
      items := acc.items ++ [item]
      cores := acc.cores ++ [item.core] }
    let ns := item.next
    if ns = "" then
      let reds := acc.reductions ++ [item]
      ({ acc with
          reductions := reds
          hasConflicts := decide (reds.length > 1) || acc.hasShifts }, nxt)
    else if ¬ isType ctx ns then
      ({ acc with
          hasShifts := true
          hasConflicts := decide (acc.reductions.length > 0) }, nxt)
    else
      let preds := (typeRules ctx ns).filterMap (fun r =>
        let ni : Item := { rule := r, dot := 0 }
        if ni.core ∈ acc.cores then none else some ni)
      (acc, nxt ++ preds)

/-- One worklist round of `_closure`: process every working item, adding
reduction/shift flags and predicting through nonterminals; returns the new
accumulator and the next round's items. -/
def closureRound (ctx : GenCtx) (acc : ClosAcc) (working : List Item) :
    ClosAcc × List Item :=
  working.foldl (closureStepOne ctx) (acc, [])

/-- The `_closure` worklist, fuelled: each round processes the pending
items until none remain. -/
def closureLoop (ctx : GenCtx) : Nat → ClosAcc → List Item → ClosAcc
  | 0, acc, _ => acc
  | fuel + 1, acc, working =>
    if working.isEmpty then acc
    else
      let (acc2, nxt) := closureRound ctx acc working
      closureLoop ctx fuel acc2 nxt

/-- `_closure(itemSet)` packaged as a `St`. -/
def closure (ctx : GenCtx) (cfuel : Nat) (items : List Item) : St :=
  let acc := closureLoop ctx cfuel {} items
  { items := acc.items
    reductions := acc.reductions
    hasShifts := acc.hasShifts
    hasConflicts := acc.hasConflicts }

/-- The advanced items of `_goto(itemSet, symbol)` (before closure). -/
def gotoItems (items : List Item) (symbol : String) : List Item :=
  items.filterMap (fun it =>
    if it.next = symbol then some { rule := it.rule, dot := it.dot + 1 } else none)

/-- The comparator of `_insertStateWithItems`'s kernel sort:
`(a[0] − b[0]) || (a[1] − b[1])` as a non-strict lexicographic order. -/
def pairLe (a b : Nat × Nat) : Bool :=
  a.1 < b.1 ∨ (a.1 = b.1 ∧ a.2 ≤ b.2)

/-- Ordered insertion for the kernel sort. -/
def insertPair (x : Nat × Nat) : List (Nat × Nat) → List (Nat × Nat)
  | [] => [x]
  | y :: rest => if pairLe x y then x :: y :: rest else y :: insertPair x rest

/-- Sort the kernel pairs ascending (the comparator is total and equal
elements are identical pairs, so any correct sort yields the array
`sort` produces). -/
def sortPairs (l : List (Nat × Nat)) : List (Nat × Nat) :=
  l.foldr insertPair []

/-- The kernel signature of `_insertStateWithItems`: the sorted
`(rule.id, dot+1)` pairs rendered `id.dot` and joined with bars. -/
def kernelSig (items : List Item) : String :=
  let kernel := sortPairs (items.map (fun it => (it.rule.id, it.dot + 1)))
  String.intercalate "|" (kernel.map (fun p => toString p.1 ++ "." ++ toString p.2))

/-- Replace the element at index `i`. -/
def updAt {α : Type} : List α → Nat → (α → α) → List α
  | [], _, _ => []
  | x :: rest, 0, f => f x :: rest
  | x :: rest, i + 1, f => x :: updAt rest i f

/-- The growing automaton: the dense state list and the kernel-signature
registry (`stateMap`). -/
structure AutoState where
  states : List St
  stateMap : List (String × Nat)
deriving Repr

/-- The unregistered-signature path of `_insertStateWithItems`: close the
goto set, register it under a fresh dense id, record the transition and
append the new state. -/
def insertStateGoto (ctx : GenCtx) (cfuel : Nat) (symbol sig : String)
    (m : Nat) (src : St) (a : AutoState) : AutoState :=
  let gi := gotoItems src.items symbol
  if gi.isEmpty then a
  else
    let st := closure ctx cfuel gi
    let nid := a.states.length
    let st := { st with id := nid, signature := sig }
    { states := (updAt a.states m (fun s =>
        { s with transitions := aset s.transitions symbol nid })) ++ [st]
      stateMap := a.stateMap ++ [(sig, nid)] }

/-- `_insertStateWithItems`: compute the successor kernel signature; if it
is registered, only record the transition; otherwise take the
`insertStateGoto` path. -/
def insertStateWithItems (ctx : GenCtx) (cfuel : Nat) (symbol : String)
    (items : List Item) (m : Nat) (a : AutoState) : AutoState :=
  if items.isEmpty then a
  else
    match alookup a.stateMap (kernelSig items) with
    | some existing =>
      { a with states := updAt a.states m (fun st =>
          { st with transitions := aset st.transitions symbol existing }) }
    | none =>
      match a.states.get? m with
      | none => a
      | some src => insertStateGoto ctx cfuel symbol (kernelSig items) m src a

/-- Group a state's items by their next symbol, skipping the empty symbol
and `$end` (the `symbolItems` map of `buildLRAutomaton`). -/
def groupBySymbol (items : List Item) : List (String × List Item) :=
  items.foldl (fun acc it =>
    let ns := it.next
    if ns ≠ "" ∧ ns ≠ "$end" then
      match alookup acc ns with
      | some l => aset acc ns (l ++ [it])
      | none => acc ++ [(ns, [it])]
    else acc) []

/-- The marked-state worklist of `buildLRAutomaton`, fuelled. -/
def automatonLoop (ctx : GenCtx) (cfuel : Nat) : Nat → AutoState → Nat → AutoState
  | 0, a, _ => a
  | fuel + 1, a, marked =>
    match a.states.get? marked with
    | none => a
    | some st =>
      let groups := groupBySymbol st.items
      let a2 := groups.foldl
        (fun a (g : String × List Item) =>
          insertStateWithItems ctx cfuel g.1 g.2 marked a) a
      automatonLoop ctx cfuel fuel a2 (marked + 1)

/-- `buildLRAutomaton`: state 0 is the closure of the accept item, with the
accept item's own core as its signature. -/
def buildLRAutomaton (ctx : GenCtx) (cfuel afuel : Nat) : AutoState :=
  match ctx.rules.getLast? with
  | none => { states := [], stateMap := [] }
  | some acceptRule =>
    let acceptItem : Item := { rule := acceptRule, dot := 0 }
    let first := closure ctx cfuel [acceptItem]
    let sig := toString acceptRule.id ++ "." ++ toString (0 : Nat)
    let first := { first with id := 0, signature := sig }
    automatonLoop ctx cfuel afuel { states := [first], stateMap := [(sig, 0)] } 0

/-- Nullable flags: one per rule (aligned with `ctx.rules`) and one per
type name. -/
structure NullSt where
  ruleN : List Bool
  typeN : List (String × Bool)
deriving DecidableEq, Repr

/-- `_isNullable` on a single symbol: the empty symbol is nullable, a type
is nullable when flagged, a terminal never. -/
def isNullableSym (typeN : List (String × Bool)) (s : String) : Bool :=
  if s = "" then true else (alookup typeN s).getD false

/-- `_isNullable` on a sequence. -/
def isNullableSeq (typeN : List (String × Bool)) (syms : List String) : Bool :=
  syms.all (isNullableSym typeN)

/-- One pass of `_computeNullableSets`: rules first (reading only type
flags), then types (reading the updated rule flags). -/
def nullablePass (ctx : GenCtx) (st : NullSt) : NullSt × Bool :=
  let rn := List.zipWith (fun (r : Rule) (b : Bool) =>
    b || isNullableSeq st.typeN r.symbols) ctx.rules st.ruleN
  let rz := ctx.rules.zip rn
  let tn := st.typeN.map (fun (tb : String × Bool) =>
    (tb.1, tb.2 || rz.any (fun rb => rb.1.type = tb.1 && rb.2)))
  (⟨rn, tn⟩, decide (rn ≠ st.ruleN) || decide (tn ≠ st.typeN))

/-- The `while (changed)` loop of `_computeNullableSets`, fuelled. -/
def nullableLoop (ctx : GenCtx) : Nat → NullSt → NullSt
  | 0, st => st
  | fuel + 1, st =>
    let (st2, ch) := nullablePass ctx st
    if ch then nullableLoop ctx fuel st2 else st2

/-- Initial nullable state: everything false. -/
def nullableInit (ctx : GenCtx) : NullSt :=
  ⟨ctx.rules.map (fun _ => false), ctx.typeNames.map (fun t => (t, false))⟩

/-- FIRST sets: one per rule (aligned with `ctx.rules`) and one per type. -/
structure FirstSt where
  ruleF : List (List String)
  typeF : List (String × List String)
deriving DecidableEq, Repr

/-- `_computeFirstOfSequence`: accumulate FIRST through the sequence,
stopping after the first non-nullable symbol; a type contributes its FIRST
set, any other symbol contributes itself. -/
def computeFirstSeqGo (ctx : GenCtx) (ns : NullSt)
    (tf : List (String × List String)) : List String → List String → List String
  | acc, [] => acc
  | acc, s :: rest =>
    let acc := if isType ctx s then addAll acc ((alookup tf s).getD [])
      else insertNew acc s
    if isNullableSym ns.typeN s then computeFirstSeqGo ctx ns tf acc rest else acc

/-- `_computeFirst` on a symbol sequence. -/
def computeFirstSeq (ctx : GenCtx) (ns : NullSt)
    (tf : List (String × List String)) (syms : List String) : List String :=
  computeFirstSeqGo ctx ns tf [] syms

/-- One pass of `_computeFirsts`: every rule's FIRST is recomputed from
the current type FIRSTs, then every type's FIRST is recomputed as the union
of its rules' fresh FIRSTs; the change flag compares set sizes. -/
def firstPass (ctx : GenCtx) (ns : NullSt) (st : FirstSt) : FirstSt × Bool :=
  let rf := List.zipWith (fun (r : Rule) (_old : List String) =>
    computeFirstSeq ctx ns st.typeF r.symbols) ctx.rules st.ruleF
  let ch1 := (List.zipWith (fun (old new : List String) =>
    decide (new.length > old.length)) st.ruleF rf).any id
  let rz := ctx.rules.zip rf
  let tf := st.typeF.map (fun (tl : String × List String) =>
    (tl.1, (rz.filter (fun rb => rb.1.type = tl.1)).foldl
      (fun acc rb => addAll acc rb.2) []))
  let ch2 := (List.zipWith (fun (old new : String × List String) =>
    decide (new.2.length > old.2.length)) st.typeF tf).any id
  (⟨rf, tf⟩, ch1 || ch2)

/-- The `while (changed)` loop of `_computeFirsts`, fuelled. -/
def firstLoop (ctx : GenCtx) (ns : NullSt) : Nat → FirstSt → FirstSt
  | 0, st => st
  | fuel + 1, st =>
    let (st2, ch) := firstPass ctx ns st
    if ch then firstLoop ctx ns fuel st2 else st2

/-- Initial FIRST state: everything empty. -/
def firstInit (ctx : GenCtx) : FirstSt :=
  ⟨ctx.rules.map (fun _ => []), ctx.typeNames.map (fun t => (t, []))⟩

/-- FOLLOW sets, keyed by type name. -/
abbrev FollowSt := List (String × List String)

/-- Add a batch of symbols to one FOLLOW set. -/
def fAdd (fw : FollowSt) (key : String) (xs : List String) : FollowSt :=
  aset fw key (addAll ((alookup fw key).getD []) xs)

/-- Processing of position `i` of one rule inside `_computeFollowSets`:
for a nonterminal `X` at `i`, the last position adds FOLLOW(LHS), any other
position adds FIRST(β) and, when β is nullable, FOLLOW(LHS); the change
flag compares the set size around the position. -/
def followStep (ctx : GenCtx) (ns : NullSt) (tf : List (String × List String))
    (rule : Rule) (i : Nat) (p : FollowSt × Bool) : FollowSt × Bool :=
  let (fw, ch) := p
  match rule.symbols.get? i with
  | none => (fw, ch)
  | some symbol =>
    if isType ctx symbol then
      let oldSize := ((alookup fw symbol).getD []).length
      let fw2 :=
        if i = rule.symbols.length - 1 then
          fAdd fw symbol ((alookup fw rule.type).getD [])
        else
          let beta := rule.symbols.drop (i + 1)
          let firstSet := computeFirstSeq ctx ns tf beta
          let fwa := fAdd fw symbol firstSet
          if isNullableSeq ns.typeN beta then
            fAdd fwa symbol ((alookup fwa rule.type).getD [])
          else fwa
      (fw2, ch || decide (((alookup fw2 symbol).getD []).length > oldSize))
    else (fw, ch)

/-- One pass of `_computeFollowSets`: every rule, every position, fully
sequential. -/
def followPass (ctx : GenCtx) (ns : NullSt) (tf : List (String × List String))
    (fw : FollowSt) : FollowSt × Bool :=
  ctx.rules.foldl (fun p rule =>
    (List.range rule.symbols.length).foldl
      (fun p i => followStep ctx ns tf rule i p) p) (fw, false)

/-- The `while (changed)` loop of `_computeFollowSets`, fuelled. -/
def followLoop (ctx : GenCtx) (ns : NullSt) (tf : List (String × List String)) :
    Nat → FollowSt → FollowSt
  | 0, fw => fw
  | fuel + 1, fw =>
    let (fw2, ch) := followPass ctx ns tf fw
    if ch then followLoop ctx ns tf fuel fw2 else fw2

/-- Initial FOLLOW state: `_augmentGrammar` has seeded
FOLLOW(start) = `{$end}`; every other type starts empty. -/
def followInit (ctx : GenCtx) : FollowSt :=
  ctx.typeNames.map (fun t => (t, if t = ctx.start then ["$end"] else []))

/-- `_assignItemLookaheads`: each reduction item's lookahead set becomes
FOLLOW of its rule's LHS. -/
def assignItemLookaheads (fw : FollowSt) (states : List St) : List St :=
  states.map (fun st =>
    { st with reductions := st.reductions.map (fun it =>
        match alookup fw it.rule.type with
        | some fo => { it with lookaheads := fo }
        | none => it) })

/-- The table-construction context extracted from a generator context. -/
def tblCtxOf (ctx : GenCtx) : TblCtx :=
  { types := ctx.typeNames
    operators := ctx.operators
    symbolIds := ctx.symbolIds
    tokenNames := ctx.tokenNames }

/-- Build one parse-table row (`buildParseTable` body for state `k`):
goto/shift cells from the transitions, the accept cell under `$end` when
the accept item is present, then the reduction pass. -/
def buildRow (ctx : GenCtx) (k : Nat) (st : St) (conflicts : Nat)
    (details : List ConflictRec) : Row × Nat × List ConflictRec :=
  let row : Row := st.transitions.foldl (fun row (tr : String × Nat) =>
    match alookup ctx.symbolIds tr.1 with
    | none => row
    | some sid => rowSet row sid (if isType ctx tr.1 then .goto tr.2 else .shift tr.2)) []
  let row := st.items.foldl (fun row it =>
    if it.next = "$end" then
      match alookup ctx.symbolIds "$end" with
      | some sid => rowSet row sid .accept
      | none => row
    else row) row
  let out := st.reductions.foldl (fun acc it =>
    it.lookaheads.foldl (fun acc la => processLookahead (tblCtxOf ctx) k it.rule la acc) acc)
    (⟨row, conflicts, details⟩ : TblAcc)
  (out.row, out.conflicts, out.details)

/-- `buildParseTable` over all states, threading the conflict counter and
the detail records. -/
def buildParseTable (ctx : GenCtx) (states : List St) :
    List Row × Nat × List ConflictRec :=
  states.foldl (fun (acc : List Row × Nat × List ConflictRec) st =>
    let (row, c2, d2) := buildRow ctx acc.1.length st acc.2.1 acc.2.2
    (acc.1 ++ [row], c2, d2)) ([], 0, [])

/-- Everything the generator produces that the claims talk about. -/
structure GenOut where
  ctx : GenCtx
  states : List St
  nulls : NullSt
  firsts : FirstSt
  follows : FollowSt
  table : List Row
  conflicts : Nat
  details : List ConflictRec
  defaults : List (Nat × Cell)
  optimized : List (List (Nat × Int))
deriving Repr

/-- The full generator pipeline (`new Generator(grammar)` followed by
`_generateTableCode` and, from the sibling implementations,
`_computeDefaultActions`), with a common fuel for the worklists and
fixed-point loops. -/
def generate (g : GrammarIn) (fuel : Nat) : Option GenOut :=
  match processGrammar g with
  | none => none
  | some ctx =>
    let auto := buildLRAutomaton ctx fuel fuel
    let ns := nullableLoop ctx fuel (nullableInit ctx)
    let fs := firstLoop ctx ns fuel (firstInit ctx)
    let fw := followLoop ctx ns fs.typeF fuel (followInit ctx)
    let states := assignItemLookaheads fw auto.states
    let (table, conflicts, details) := buildParseTable ctx states
    some
      { ctx := ctx
        states := states
        nulls := ns
        firsts := fs
        follows := fw
        table := table
        conflicts := conflicts
        details := details
        defaults := computeDefaultActions table
        optimized := table.map optimizeRow }

/-- Outcome of a run of the emitted driver. -/
inductive Outcome (V : Type) where
  | accepted (v : Option V)
  | error
  | fuelOut
deriving DecidableEq, Repr

/-- The `parse` loop of the emitted parser (`lib/solar.js`), over the
optimized numeric table: positive entries shift, negative entries reduce,
zero accepts, a missing entry raises a parse error.  The embedding keeps
the interleaved state/symbol stack and the value stack and abstracts the
semantic actions as `acts`; location bookkeeping, which never affects the
outcome, is omitted.  A missing goto after a reduce (the JS code would push
`undefined` and fail on the next lookup) is reported as an error
directly. -/
def parseLoop {V : Type} (tbl : List (List (Nat × Int))) (rt : List (Nat × Nat))
    (acts : Nat → List (Option V) → Option V) :
    Nat → List Nat → List (Option V) → List (Nat × V) →
    Option (Nat × Option V) → Outcome V
  | 0, _, _, _, _ => .fuelOut
  | fuel + 1, stk, vals, toks, pending =>
    let state := stk.headD 0
    let step : Nat × Option V × List (Nat × V) :=
      match pending with
      | some (s, t) => (s, t, toks)
      | none =>
        match toks with
        | (s, t) :: rest => (s, some t, rest)
        | [] => (1, none, [])
    let sym := step.1
    let text := step.2.1
    let toks2 := step.2.2
    match (tbl.get? state).bind (fun row => nlookup row sym) with
    | none => .error
    | some a =>
      if a > 0 then
        parseLoop tbl rt acts fuel (a.toNat :: sym :: stk) (text :: vals) toks2 none
      else if a < 0 then
        let r := (-a).toNat
        let lhs := ((rt.get? r).getD (0, 0)).1
        let len := ((rt.get? r).getD (0, 0)).2
        let yv0 : Option V := if len = 0 then none else ((vals.get? (len - 1)).getD none)
        let yv := match acts r vals with
          | some v => some v
          | none => yv0
        let stk2 := if len = 0 then stk else stk.drop (2 * len)
        let vals2 := if len = 0 then vals else vals.drop len
        match (tbl.get? (stk2.headD 0)).bind (fun row => nlookup row lhs) with
        | some gt =>
          if gt ≥ 0 then
            parseLoop tbl rt acts fuel (gt.toNat :: lhs :: stk2) (yv :: vals2) toks2
              (some (sym, text))
          else .error
        | none => .error
      else .accepted (vals.headD none)

/-- Run the driver from the initial configuration: state stack `[0]`,
value stack `[null]`, no pending token. -/
def runParse {V : Type} (tbl : List (List (Nat × Int))) (rt : List (Nat × Nat))
    (acts : Nat → List (Option V) → Option V) (fuel : Nat) (toks : List (Nat × V)) :
    Outcome V :=
  parseLoop tbl rt acts fuel [0] [none] toks none

/-- Shorthand for an action-less handle. -/
def mkHandle (p : String) : Handle := { pattern := p }

/-- A grammar with a reduce-reduce conflict in which the later-discovered
reduction has the smaller rule id: `S → B | A`, `A → c`, `B → c`.  Rule 4
(`B → c`) enters the conflicted state's reduction list before rule 3
(`A → c`). -/
def gC1 : GrammarIn :=
  { grammar := [("S", [mkHandle "B", mkHandle "A"]),
                ("A", [mkHandle "c"]), ("B", [mkHandle "c"])] }

/-- A grammar with a pure-reduce state holding two lookaheads:
`S → A c | A d`, `A → b`; the state reducing `A → b` acts on both `c` and
`d` with the same rule. -/
def gC2 : GrammarIn :=
  { grammar := [("S", [mkHandle "A c", mkHandle "A d"]), ("A", [mkHandle "b"])] }

/-- Scenario D of the specification: a nonassoc operator at equal
precedence: `E → NUMBER | E == E` with `==` declared nonassoc. -/
def gD : GrammarIn :=
  { grammar := [("E", [mkHandle "NUMBER", mkHandle "E == E"])]
    operators := [("nonassoc", ["=="])] }

/-! ### Helper lemmas on rows and association lists -/

theorem rowGet_rowSet_self (row : Row) (k : Nat) (c : Cell) :
    rowGet (rowSet row k c) k = some c := by
  induction row with
  | nil => simp [rowSet, rowGet]
  | cons hd rest ih =>
    obtain ⟨k0, c0⟩ := hd
    by_cases h1 : k < k0
    · simp [rowSet, h1, rowGet]
    · by_cases h2 : k = k0
      · simp [rowSet, h1, h2, rowGet]
      · simp only [rowSet, if_neg h1, if_neg h2, rowGet]
        rw [if_neg (by omega)]
        exact ih

theorem rowGet_rowSet_other (row : Row) (k j : Nat) (c : Cell) (h : j ≠ k) :
    rowGet (rowSet row k c) j = rowGet row j := by
  induction row with
  | nil =>
    simp only [rowSet, rowGet]
    rw [if_neg (by omega)]
  | cons hd rest ih =>
    obtain ⟨k0, c0⟩ := hd
    by_cases h1 : k < k0
    · simp only [rowSet, if_pos h1, rowGet]
      rw [if_neg (by omega)]
    · by_cases h2 : k = k0
      · simp only [rowSet, if_neg h1, if_pos h2, rowGet]
        rw [if_neg (by omega), if_neg (by omega)]
      · simp only [rowSet, if_neg h1, if_neg h2, rowGet]
        by_cases h3 : k0 = j
        · rw [if_pos h3, if_pos h3]
        · rw [if_neg h3, if_neg h3]
          exact ih

/-- Keys present in a row. -/
def rowKeys (row : Row) : List Nat := row.map Prod.fst

theorem rowGet_eq_none_of_not_mem {row : Row} {k : Nat}
    (h : k ∉ rowKeys row) : rowGet row k = none := by
  induction row with
  | nil => simp [rowGet]
  | cons hd rest ih =>
    obtain ⟨k0, c0⟩ := hd
    simp only [rowKeys, List.map_cons, List.mem_cons] at h
    push_neg at h
    simp only [rowGet]
    rw [if_neg (Ne.symm h.1)]
    exact ih (by simpa [rowKeys] using h.2)

theorem nlookup_eq_none_of_not_mem {β : Type} {l : List (Nat × β)} {k : Nat}
    (h : k ∉ l.map Prod.fst) : nlookup l k = none := by
  induction l with
  | nil => simp [nlookup]
  | cons hd rest ih =>
    obtain ⟨k0, v0⟩ := hd
    simp only [List.map_cons, List.mem_cons] at h
    push_neg at h
    simp only [nlookup]
    rw [if_neg (Ne.symm h.1)]
    exact ih h.2

theorem optimizeRow_keys_sub (row : Row) :
    (optimizeRow row).map Prod.fst ⊆ rowKeys row := by
  induction row with
  | nil => simp [optimizeRow]
  | cons hd rest ih =>
    obtain ⟨k0, c0⟩ := hd
    simp only [optimizeRow, List.foldr_cons, rowKeys, List.map_cons]
    match h : optimizeCell c0 with
    | some v =>
      simp only [h, List.map_cons]
      intro x hx
      rcases List.mem_cons.mp hx with h1 | h2
      · exact List.mem_cons.mpr (Or.inl h1)
      · exact List.mem_cons.mpr (Or.inr (ih h2))
    | none =>
      simp only [h]
      intro x hx
      exact List.mem_cons.mpr (Or.inr (ih hx))

/-- On a row with distinct keys, the optimized row's lookup is the raw
lookup pushed through the cell compression. -/
theorem nlookup_optimizeRow {row : Row} (hnd : (rowKeys row).Nodup) (k : Nat) :
    nlookup (optimizeRow row) k = (rowGet row k).bind optimizeCell := by
  induction row with
  | nil => simp [optimizeRow, nlookup, rowGet]
  | cons hd rest ih =>
    obtain ⟨k0, c0⟩ := hd
    simp only [rowKeys, List.map_cons, List.nodup_cons] at hnd
    have ihr := ih hnd.2
    by_cases hk : k0 = k
    · subst hk
      have hnone : nlookup (optimizeRow rest) k0 = none :=
        nlookup_eq_none_of_not_mem (fun hmem => hnd.1 (optimizeRow_keys_sub rest hmem))
      simp only [optimizeRow, List.foldr_cons, rowGet, if_pos rfl]
      match h : optimizeCell c0 with
      | some v => simp [nlookup, h]
      | none => simpa [h] using hnone
    · simp only [optimizeRow, List.foldr_cons, rowGet, if_neg hk]
      match h : optimizeCell c0 with
      | some v => simpa [nlookup, h, hk] using ihr
      | none => simpa [h] using ihr

theorem rowKeys_rowSet (row : Row) (k : Nat) (c : Cell) :
    rowKeys (rowSet row k c) = rowKeys row ∨
    ∃ l1 l2, rowKeys row = l1 ++ l2 ∧ rowKeys (rowSet row k c) = l1 ++ k :: l2 := by
  induction row with
  | nil => exact Or.inr ⟨[], [], by simp [rowKeys], by simp [rowSet, rowKeys]⟩
  | cons hd rest ih =>
    obtain ⟨k0, c0⟩ := hd
    by_cases h1 : k < k0
    · exact Or.inr ⟨[], k0 :: rowKeys rest, by simp [rowKeys],
        by simp [rowSet, h1, rowKeys]⟩
    · by_cases h2 : k = k0
      · exact Or.inl (by simp [rowSet, h1, h2, rowKeys])
      · rcases ih with h | ⟨l1, l2, e1, e2⟩
        · exact Or.inl (by simp [rowSet, h1, h2, rowKeys, rowKeys] at h ⊢; exact h)
        · refine Or.inr ⟨k0 :: l1, l2, ?_, ?_⟩
          · simp [rowKeys] at e1 ⊢
            exact e1
          · simp [rowSet, h1, h2, rowKeys] at e2 ⊢
            exact e2

theorem cda_keys_ge (states : List Row) (k0 j : Nat) (c : Cell)
    (h : nlookup (computeDefaultActions states k0) j = some c) : k0 ≤ j := by
  induction states generalizing k0 with
  | nil => simp [computeDefaultActions, nlookup] at h
  | cons row rest ih =>
    match row with
    | [] =>
      simp only [computeDefaultActions] at h
      exact Nat.le_of_succ_le (ih (k0 + 1) h)
    | [(sid, c0)] =>
      simp only [computeDefaultActions] at h
      by_cases hr : c0.isReduceArr
      · rw [if_pos hr] at h
        simp only [nlookup] at h
        by_cases hk : k0 = j
        · omega
        · rw [if_neg hk] at h
          exact Nat.le_of_succ_le (ih (k0 + 1) h)
      · rw [if_neg hr] at h
        exact Nat.le_of_succ_le (ih (k0 + 1) h)
    | a :: b :: t =>
      simp only [computeDefaultActions] at h
      exact Nat.le_of_succ_le (ih (k0 + 1) h)

theorem cda_lookup_iff (states : List Row) (k0 k : Nat) (c : Cell) :
    nlookup (computeDefaultActions states k0) (k0 + k) = some c ↔
      (∃ sid, states.get? k = some [(sid, c)] ∧ c.isReduceArr = true) := by
  induction states generalizing k0 k with
  | nil => simp [computeDefaultActions, nlookup]
  | cons row rest ih =>
    cases k with
    | zero =>
      constructor
      · intro h
        match row with
        | [] =>
          simp only [computeDefaultActions] at h
          have := cda_keys_ge rest (k0 + 1) k0 c (by simpa using h)
          omega
        | [(sid, c0)] =>
          simp only [computeDefaultActions] at h
          by_cases hr : c0.isReduceArr
          · rw [if_pos hr] at h
            simp only [nlookup, Nat.add_zero, if_pos rfl] at h
            cases h
            exact ⟨sid, by simp, hr⟩
          · rw [if_neg hr] at h
            have := cda_keys_ge rest (k0 + 1) (k0 + 0) c h
            omega
        | a :: b :: t =>
          simp only [computeDefaultActions] at h
          have := cda_keys_ge rest (k0 + 1) (k0 + 0) c h
          omega
      · rintro ⟨sid, hrow, hred⟩
        simp only [List.get?_cons_zero, Option.some.injEq] at hrow
        subst hrow
        simp [computeDefaultActions, hred, nlookup]
    | succ kk =>
      have hshift : k0 + (kk + 1) = (k0 + 1) + kk := by omega
      have hget : (row :: rest).get? (kk + 1) = rest.get? kk := rfl
      rw [hget]
      match row with
      | [] =>
        simp only [computeDefaultActions]
        rw [hshift]
        exact ih (k0 + 1) kk
      | [(sid, c0)] =>
        simp only [computeDefaultActions]
        by_cases hr : c0.isReduceArr
        · rw [if_pos hr]
          simp only [nlookup]
          rw [if_neg (by omega : ¬ k0 = k0 + (kk + 1))]
          rw [hshift]
          exact ih (k0 + 1) kk
        · rw [if_neg hr]
          rw [hshift]
          exact ih (k0 + 1) kk
      | a :: b :: t =>
        simp only [computeDefaultActions]
        rw [hshift]
        exact ih (k0 + 1) kk

theorem rc_shift_prec0 (rule : Rule) (op : Option OpInfo) (rid s : Nat)
    (h : rule.precedence = 0 ∨ op = none) :
    resolveConflict rule op rid (Cell.shift s) =
      ⟨RAction.act (Cell.shift s), true⟩ := by
  rcases h with h | h <;> simp [resolveConflict, h]

theorem rc_shift_lt (rule : Rule) (o : OpInfo) (rid s : Nat)
    (h0 : rule.precedence ≠ 0) (hlt : rule.precedence < o.precedence) :
    resolveConflict rule (some o) rid (Cell.shift s) =
      ⟨RAction.act (Cell.shift s), false⟩ := by
  simp only [resolveConflict]
  rw [if_neg (by simp [h0]), if_pos hlt]

theorem rc_shift_gt (rule : Rule) (o : OpInfo) (rid s : Nat)
    (h0 : rule.precedence ≠ 0) (hgt : rule.precedence > o.precedence) :
    resolveConflict rule (some o) rid (Cell.shift s) =
      ⟨RAction.act (Cell.reduce rid), false⟩ := by
  simp only [resolveConflict]
  rw [if_neg (by simp [h0]), if_neg (by omega), if_neg (by omega)]

theorem rc_shift_eq (rule : Rule) (o : OpInfo) (rid s : Nat)
    (h0 : rule.precedence ≠ 0) (heq : rule.precedence = o.precedence) :
    resolveConflict rule (some o) rid (Cell.shift s) =
      (if o.assoc = "right" then ⟨RAction.act (Cell.shift s), false⟩
       else if o.assoc = "left" then ⟨RAction.act (Cell.reduce rid), false⟩
       else if o.assoc = "nonassoc" then ⟨RAction.nonassoc, false⟩
       else ⟨RAction.act (Cell.shift s), false⟩) := by
  simp only [resolveConflict]
  rw [if_neg (by simp [h0]), if_neg (by omega), if_pos heq]
  split
  next h => simp [h]
  next h => simp [h]
  next h => simp [h]
  next c1 c2 c3 =>
    rw [if_neg c1, if_neg c2, if_neg c3]

/-- The row after one reduction/lookahead processing step, when an existing
truthy cell is found: the bydefault branch rewrites the existing cell, a
clean resolution writes the resolver's action, `NONASSOC` writes the
`undefined` poison. -/
theorem processLookahead_row_eq (ctx : TblCtx) (k : Nat) (rule : Rule)
    (la : String) (sid : Nat) (acc : TblAcc) (c : Cell)
    (hsid : alookup ctx.symbolIds la = some sid)
    (hrow : rowGet acc.row sid = some c) (htr : c.truthy = true) :
    (processLookahead ctx k rule la acc).row =
      (if (resolveConflict rule (alookup ctx.operators la) rule.id c).bydefault then
        rowSet acc.row sid c
       else match (resolveConflict rule (alookup ctx.operators la) rule.id c).action with
            | .act a => rowSet acc.row sid a
            | .nonassoc => rowSet acc.row sid .undef) := by
  simp only [processLookahead, hsid, hrow, htr]
  by_cases hb : (resolveConflict rule (alookup ctx.operators la) rule.id c).bydefault
  · simp only [hb, if_true]
    split <;> rfl
  · simp only [hb, Bool.false_eq_true, if_false]
    cases hact : (resolveConflict rule (alookup ctx.operators la) rule.id c).action with
    | act a => rfl
    | nonassoc => rfl

/-! ### C2: default actions -/

/-- C2 (amended): after the parse table is built, a state has a recorded
default action iff its row holds exactly one entry and that entry is a
reduce, and the recorded default is that reduction.  A row with more than
one entry — even when every entry reduces one same rule — gets no default
(`_computeDefaultActions` requires `actionCount === 1`). -/
theorem c2_default_action_iff (states : List Row) (k : Nat) (c : Cell) :
    nlookup (computeDefaultActions states) k = some c ↔
      (∃ sid, states.get? k = some [(sid, c)] ∧ c.isReduceArr = true) := by
  simpa using cda_lookup_iff states 0 k c

/-- C2 counterexample: on `gC2`, the state reducing `A → b` (state 3) has
a row of two entries, both reduces of the same rule 3 — every action entry
is a reduce of one same rule — yet no default action is recorded for it;
the recorded defaults belong to the two single-entry states only. -/
theorem c2_counterexample :
    ((generate gC2 50).map (fun o => o.table.get? 3))
      = some (some [(5, Cell.reduce 3), (6, Cell.reduce 3)])
    ∧ ((generate gC2 50).map (fun o => nlookup o.defaults 3)) = some none
    ∧ ((generate gC2 50).map (fun o => o.defaults))
      = some [(4, Cell.reduce 1), (5, Cell.reduce 2)] :=
  ⟨rfl, rfl, rfl⟩

/-! ### C1: reduce-reduce resolution -/

/-- C1 (amended): when a reduce candidate for rule `rule` meets an existing
reduce of rule `r2` on a terminal, `_resolveConflict` proposes the reduce
of the lower-id rule and marks the resolution bydefault exactly when the
two ids differ; but `buildParseTable` discards the proposed action for
bydefault resolutions, so the resulting table entry stays the existing
reduce of `r2` (the first-processed rule), which need not be the lower
id. -/
theorem c1_reduce_reduce_keeps_existing (ctx : TblCtx) (k : Nat) (rule : Rule)
    (la : String) (sid : Nat) (acc : TblAcc) (r2 : Nat)
    (hsid : alookup ctx.symbolIds la = some sid)
    (hrow : rowGet acc.row sid = some (Cell.reduce r2)) :
    (resolveConflict rule (alookup ctx.operators la) rule.id (Cell.reduce r2)).action
        = RAction.act (Cell.reduce (min r2 rule.id))
    ∧ (resolveConflict rule (alookup ctx.operators la) rule.id (Cell.reduce r2)).bydefault
        = decide (r2 ≠ rule.id)
    ∧ rowGet (processLookahead ctx k rule la acc).row sid = some (Cell.reduce r2) := by
  refine ⟨?_, rfl, ?_⟩
  · by_cases h : r2 < rule.id
    · simp [resolveConflict, h, Nat.min_eq_left (Nat.le_of_lt h)]
    · simp [resolveConflict, h, Nat.min_eq_right (Nat.le_of_not_lt h)]
  · simp only [processLookahead, hsid, hrow]
    by_cases hb : r2 = rule.id
    · subst hb
      simp [resolveConflict, rowGet_rowSet_self, Cell.truthy]
    · simp [resolveConflict, Cell.truthy, hb]
      split <;> simp [rowGet_rowSet_self]

/-- Witness for C1: a concrete conflicted cell (the state-4 `$end` cell of
`gC1`, existing entry `reduce 4`, candidate rule 3). -/
theorem c1_witness :
    (resolveConflict ⟨3, "A", ["c"], 0⟩
        (alookup (⟨["S", "A", "B", "$accept"], [],
          [("$accept", 0), ("$end", 1), ("error", 2), ("S", 3), ("B", 4), ("A", 5), ("c", 6)],
          []⟩ : TblCtx).operators "$end") (3 : Nat) (Cell.reduce 4)).action
      = RAction.act (Cell.reduce (min 4 3))
    ∧ (resolveConflict ⟨3, "A", ["c"], 0⟩
        (alookup (⟨["S", "A", "B", "$accept"], [],
          [("$accept", 0), ("$end", 1), ("error", 2), ("S", 3), ("B", 4), ("A", 5), ("c", 6)],
          []⟩ : TblCtx).operators "$end") (3 : Nat) (Cell.reduce 4)).bydefault
      = decide ((4 : Nat) ≠ 3)
    ∧ rowGet (processLookahead
        ⟨["S", "A", "B", "$accept"], [],
          [("$accept", 0), ("$end", 1), ("error", 2), ("S", 3), ("B", 4), ("A", 5), ("c", 6)],
          []⟩ 4 ⟨3, "A", ["c"], 0⟩ "$end" ⟨[(1, Cell.reduce 4)], 0, []⟩).row 1
      = some (Cell.reduce 4) :=
  c1_reduce_reduce_keeps_existing _ 4 ⟨3, "A", ["c"], 0⟩ "$end" 1
    ⟨[(1, Cell.reduce 4)], 0, []⟩ 4 rfl rfl

/-- C1 counterexample: on `gC1`, state 4 holds reduction items for rules 4
and 3 (in that discovery order), both with lookahead `$end`, yet the final
table entry is the reduce of rule 4 — not the lower id 3 — while exactly
one reduce-reduce conflict is recorded. -/
theorem c1_counterexample :
    ((generate gC1 50).map (fun o =>
       (o.states.get? 4).map (fun st =>
         st.reductions.map (fun it => (it.rule.id, it.lookaheads)))))
      = some (some [(4, ["$end"]), (3, ["$end"])])
    ∧ ((generate gC1 50).map (fun o => o.table.get? 4))
      = some (some [(1, Cell.reduce 4)])
    ∧ ((generate gC1 50).map (fun o => (o.conflicts, o.details.map (fun d => d.category))))
      = some (1, ["reduce-reduce"])
    ∧ Cell.reduce 4 ≠ Cell.reduce (min 4 3) :=
  ⟨rfl, rfl, rfl, by decide⟩

/-! ### C3: shift/reduce resolution -/

/-- C3: when a reduce candidate for rule `rule` meets an existing shift on
terminal `la` during table construction: with zero rule precedence or no
operator entry the shift is kept and the resolution is marked bydefault;
a lower rule precedence keeps the shift; a higher one installs the reduce;
at equal precedence the associativity decides — `right` keeps the shift,
`left` installs the reduce, `nonassoc` poisons the cell (and the optimized
table has no entry for the terminal), and any other associativity keeps
the shift. -/
theorem c3_shift_reduce_resolution (ctx : TblCtx) (k : Nat) (rule : Rule)
    (la : String) (sid : Nat) (acc : TblAcc) (s : Nat)
    (hsid : alookup ctx.symbolIds la = some sid)
    (hrow : rowGet acc.row sid = some (Cell.shift s)) :
    ((rule.precedence = 0 ∨ alookup ctx.operators la = none) →
        rowGet (processLookahead ctx k rule la acc).row sid = some (Cell.shift s)
        ∧ (resolveConflict rule (alookup ctx.operators la) rule.id (Cell.shift s)).bydefault
            = true)
    ∧ (∀ o, alookup ctx.operators la = some o → rule.precedence ≠ 0 →
        ((rule.precedence < o.precedence →
          rowGet (processLookahead ctx k rule la acc).row sid = some (Cell.shift s))
        ∧ (rule.precedence > o.precedence →
          rowGet (processLookahead ctx k rule la acc).row sid = some (Cell.reduce rule.id))
        ∧ (rule.precedence = o.precedence → o.assoc = "right" →
          rowGet (processLookahead ctx k rule la acc).row sid = some (Cell.shift s))
        ∧ (rule.precedence = o.precedence → o.assoc = "left" →
          rowGet (processLookahead ctx k rule la acc).row sid = some (Cell.reduce rule.id))
        ∧ (rule.precedence = o.precedence → o.assoc = "nonassoc" →
          rowGet (processLookahead ctx k rule la acc).row sid = some Cell.undef
          ∧ ((rowKeys (processLookahead ctx k rule la acc).row).Nodup →
             nlookup (optimizeRow (processLookahead ctx k rule la acc).row) sid = none))
        ∧ (rule.precedence = o.precedence → o.assoc ≠ "right" → o.assoc ≠ "left" →
            o.assoc ≠ "nonassoc" →
          rowGet (processLookahead ctx k rule la acc).row sid = some (Cell.shift s)))) := by
  have hmaster := processLookahead_row_eq ctx k rule la sid acc (Cell.shift s) hsid hrow rfl
  constructor
  · intro hc
    rw [rc_shift_prec0 rule _ rule.id s hc] at hmaster
    simp only [if_pos] at hmaster
    exact ⟨by rw [hmaster]; exact rowGet_rowSet_self _ _ _,
           by rw [rc_shift_prec0 rule _ rule.id s hc]⟩
  · intro o ho hp0
    refine ⟨?_, ?_, ?_, ?_, ?_, ?_⟩
    · intro hlt
      rw [ho, rc_shift_lt rule o rule.id s hp0 hlt] at hmaster
      simp only [Bool.false_eq_true, if_false] at hmaster
      rw [hmaster]
      exact rowGet_rowSet_self _ _ _
    · intro hgt
      rw [ho, rc_shift_gt rule o rule.id s hp0 hgt] at hmaster
      simp only [Bool.false_eq_true, if_false] at hmaster
      rw [hmaster]
      exact rowGet_rowSet_self _ _ _
    · intro heq hassoc
      rw [ho, rc_shift_eq rule o rule.id s hp0 heq, hassoc] at hmaster
      simp only [if_pos] at hmaster
      simp only [Bool.false_eq_true, if_false] at hmaster
      rw [hmaster]
      exact rowGet_rowSet_self _ _ _
    · intro heq hassoc
      rw [ho, rc_shift_eq rule o rule.id s hp0 heq, hassoc] at hmaster
      simp only [reduceIte, Bool.false_eq_true, if_false] at hmaster
      rw [hmaster]
      exact rowGet_rowSet_self _ _ _
    · intro heq hassoc
      rw [ho, rc_shift_eq rule o rule.id s hp0 heq, hassoc] at hmaster
      simp only [reduceIte, Bool.false_eq_true, if_false] at hmaster
      have hres : rowGet (processLookahead ctx k rule la acc).row sid = some Cell.undef := by
        rw [hmaster]
        exact rowGet_rowSet_self _ _ _
      refine ⟨hres, fun hnd => ?_⟩
      rw [nlookup_optimizeRow hnd, hres]
      rfl
    · intro heq h1 h2 h3
      rw [ho, rc_shift_eq rule o rule.id s hp0 heq] at hmaster
      rw [if_neg h1, if_neg h2, if_neg h3] at hmaster
      simp only [Bool.false_eq_true, if_false] at hmaster
      rw [hmaster]
      exact rowGet_rowSet_self _ _ _

/-- Table context used by the C3 witness: four operators with the four
associativity behaviours. -/
def c3ctx : TblCtx :=
  ⟨[], [("+", ⟨1, "left"⟩), ("^", ⟨2, "right"⟩), ("==", ⟨1, "nonassoc"⟩), ("@", ⟨1, "bogus"⟩)],
    [("+", 5), ("^", 6), ("==", 7), ("@", 8), ("t", 9)], []⟩

/-- Accumulator used by the C3 witness: a shift on every terminal. -/
def c3acc : TblAcc :=
  ⟨[(5, Cell.shift 3), (6, Cell.shift 3), (7, Cell.shift 3), (8, Cell.shift 3),
    (9, Cell.shift 3)], 0, []⟩

/-- Witness for C3: all seven branches at concrete cells. -/
theorem c3_witness :
    rowGet (processLookahead c3ctx 0 ⟨2, "E", ["a"], 0⟩ "t" c3acc).row 9
        = some (Cell.shift 3)
    ∧ rowGet (processLookahead c3ctx 0 ⟨2, "E", ["a"], 1⟩ "^" c3acc).row 6
        = some (Cell.shift 3)
    ∧ rowGet (processLookahead c3ctx 0 ⟨2, "E", ["a"], 2⟩ "+" c3acc).row 5
        = some (Cell.reduce 2)
    ∧ rowGet (processLookahead c3ctx 0 ⟨2, "E", ["a"], 2⟩ "^" c3acc).row 6
        = some (Cell.shift 3)
    ∧ rowGet (processLookahead c3ctx 0 ⟨2, "E", ["a"], 1⟩ "+" c3acc).row 5
        = some (Cell.reduce 2)
    ∧ rowGet (processLookahead c3ctx 0 ⟨2, "E", ["a"], 1⟩ "==" c3acc).row 7
        = some Cell.undef
    ∧ nlookup (optimizeRow (processLookahead c3ctx 0 ⟨2, "E", ["a"], 1⟩ "==" c3acc).row) 7
        = none
    ∧ rowGet (processLookahead c3ctx 0 ⟨2, "E", ["a"], 1⟩ "@" c3acc).row 8
        = some (Cell.shift 3) := by
  have h6 := ((c3_shift_reduce_resolution c3ctx 0 ⟨2, "E", ["a"], 1⟩ "==" 7 c3acc 3
      rfl rfl).2 ⟨1, "nonassoc"⟩ rfl (by decide)).2.2.2.2.1 rfl rfl
  exact ⟨(c3_shift_reduce_resolution c3ctx 0 ⟨2, "E", ["a"], 0⟩ "t" 9 c3acc 3
            rfl rfl).1 (Or.inr rfl) |>.1,
         ((c3_shift_reduce_resolution c3ctx 0 ⟨2, "E", ["a"], 1⟩ "^" 6 c3acc 3
            rfl rfl).2 ⟨2, "right"⟩ rfl (by decide)).1 (by decide),
         ((c3_shift_reduce_resolution c3ctx 0 ⟨2, "E", ["a"], 2⟩ "+" 5 c3acc 3
            rfl rfl).2 ⟨1, "left"⟩ rfl (by decide)).2.1 (by decide),
         ((c3_shift_reduce_resolution c3ctx 0 ⟨2, "E", ["a"], 2⟩ "^" 6 c3acc 3
            rfl rfl).2 ⟨2, "right"⟩ rfl (by decide)).2.2.1 rfl rfl,
         ((c3_shift_reduce_resolution c3ctx 0 ⟨2, "E", ["a"], 1⟩ "+" 5 c3acc 3
            rfl rfl).2 ⟨1, "left"⟩ rfl (by decide)).2.2.2.1 rfl rfl,
         h6.1,
         h6.2 (by decide),
         ((c3_shift_reduce_resolution c3ctx 0 ⟨2, "E", ["a"], 1⟩ "@" 8 c3acc 3
            rfl rfl).2 ⟨1, "bogus"⟩ rfl (by decide)).2.2.2.2.2 rfl
            (by decide) (by decide) (by decide)⟩

/-! ### C6: conflict counting and recording -/

theorem conflictCategory_mem (ctx : TblCtx) (rule : Rule) (op : Option OpInfo) (c : Cell) :
    conflictCategory ctx rule op c
      ∈ ["empty-optional", "passthrough", "precedence", "reduce-reduce", "ambiguous"] := by
  simp only [conflictCategory]
  split
  · simp
  · split
    · simp
    · split
      · simp
      · split <;> simp

/-- C6: conflict resolution is total (every case of `processLookahead`
returns normally — the embedding is a total function), and among bydefault
resolutions exactly those categorized `reduce-reduce` or `ambiguous`
increment the conflict counter and append one detail record (state,
lookahead name, rule, chosen action), while the categories
`empty-optional`, `passthrough` and `precedence` (the only other
possibilities, by `conflictCategory_mem`) leave the counter and the record
list unchanged, as do clean resolutions and conflict-free cells. -/
theorem c6_conflict_recording (ctx : TblCtx) (k : Nat) (rule : Rule)
    (la : String) (sid : Nat) (acc : TblAcc)
    (hsid : alookup ctx.symbolIds la = some sid) :
    (∀ c, rowGet acc.row sid = some c → c.truthy = true →
      (resolveConflict rule (alookup ctx.operators la) rule.id c).bydefault = true →
        ((conflictCategory ctx rule (alookup ctx.operators la) c = "reduce-reduce"
            ∨ conflictCategory ctx rule (alookup ctx.operators la) c = "ambiguous") →
            (processLookahead ctx k rule la acc).conflicts = acc.conflicts + 1
            ∧ (processLookahead ctx k rule la acc).details = acc.details ++
                [mkConflictRec ctx k la sid rule c
                  (conflictCategory ctx rule (alookup ctx.operators la) c)])
        ∧ (¬ (conflictCategory ctx rule (alookup ctx.operators la) c = "reduce-reduce"
            ∨ conflictCategory ctx rule (alookup ctx.operators la) c = "ambiguous") →
            (processLookahead ctx k rule la acc).conflicts = acc.conflicts
            ∧ (processLookahead ctx k rule la acc).details = acc.details))
    ∧ (∀ c, rowGet acc.row sid = some c → c.truthy = true →
      (resolveConflict rule (alookup ctx.operators la) rule.id c).bydefault = false →
        (processLookahead ctx k rule la acc).conflicts = acc.conflicts
        ∧ (processLookahead ctx k rule la acc).details = acc.details)
    ∧ ((rowGet acc.row sid = none ∨ rowGet acc.row sid = some Cell.undef) →
        (processLookahead ctx k rule la acc).conflicts = acc.conflicts
        ∧ (processLookahead ctx k rule la acc).details = acc.details) := by
  refine ⟨?_, ?_, ?_⟩
  · intro c hc htr hbd
    simp only [processLookahead, hsid, hc, htr, hbd, if_true]
    constructor
    · intro hcat
      rw [if_pos hcat]
      exact ⟨rfl, rfl⟩
    · intro hcat
      rw [if_neg hcat]
      exact ⟨rfl, rfl⟩
  · intro c hc htr hbd
    simp only [processLookahead, hsid, hc, htr, hbd, Bool.false_eq_true, if_false]
    cases hact : (resolveConflict rule (alookup ctx.operators la) rule.id c).action with
    | act a => exact ⟨rfl, rfl⟩
    | nonassoc => exact ⟨rfl, rfl⟩
  · intro hc
    rcases hc with hc | hc
    · simp only [processLookahead, hsid, hc]
      exact ⟨trivial, trivial⟩
    · simp only [processLookahead, hsid, hc, Cell.truthy, Bool.false_eq_true, if_false]
      exact ⟨trivial, trivial⟩

/-- Table context of the C6 witness: one nonterminal `P`, one operator. -/
def c6ctx : TblCtx :=
  ⟨["P"], [("+", ⟨1, "left"⟩)], [("t", 5), ("+", 6)], [(5, "t")]⟩

/-- Witness for C6: a counted reduce-reduce, a counted ambiguous
shift/reduce, a silent empty-optional, a silent passthrough, a silent
precedence-categorized reduce-reduce, a clean resolution, and a
conflict-free cell. -/
theorem c6_witness :
    ((processLookahead c6ctx 0 ⟨3, "A", ["x"], 0⟩ "t" ⟨[(5, Cell.reduce 2)], 7, []⟩).conflicts = 8
      ∧ (processLookahead c6ctx 0 ⟨3, "A", ["x"], 0⟩ "t" ⟨[(5, Cell.reduce 2)], 7, []⟩).details
        = [mkConflictRec c6ctx 0 "t" 5 ⟨3, "A", ["x"], 0⟩ (Cell.reduce 2) "reduce-reduce"])
    ∧ ((processLookahead c6ctx 0 ⟨3, "A", ["x"], 0⟩ "t" ⟨[(5, Cell.shift 1)], 7, []⟩).conflicts = 8
      ∧ (processLookahead c6ctx 0 ⟨3, "A", ["x"], 0⟩ "t" ⟨[(5, Cell.shift 1)], 7, []⟩).details
        = [mkConflictRec c6ctx 0 "t" 5 ⟨3, "A", ["x"], 0⟩ (Cell.shift 1) "ambiguous"])
    ∧ (processLookahead c6ctx 0 ⟨3, "A", [""], 0⟩ "t" ⟨[(5, Cell.shift 1)], 7, []⟩).conflicts = 7
    ∧ (processLookahead c6ctx 0 ⟨3, "A", ["P"], 0⟩ "t" ⟨[(5, Cell.shift 1)], 7, []⟩).conflicts = 7
    ∧ (processLookahead c6ctx 0 ⟨3, "A", ["x"], 2⟩ "+" ⟨[(6, Cell.reduce 2)], 7, []⟩).conflicts = 7
    ∧ (processLookahead c6ctx 0 ⟨3, "A", ["x"], 1⟩ "+" ⟨[(6, Cell.shift 1)], 7, []⟩).conflicts = 7
    ∧ (processLookahead c6ctx 0 ⟨3, "A", ["x"], 0⟩ "t" ⟨[], 7, []⟩).conflicts = 7 := by
  refine ⟨⟨?_, ?_⟩, ⟨?_, ?_⟩, ?_, ?_, ?_, ?_, ?_⟩
  · exact ((c6_conflict_recording c6ctx 0 ⟨3, "A", ["x"], 0⟩ "t" 5
      ⟨[(5, Cell.reduce 2)], 7, []⟩ rfl).1 (Cell.reduce 2) rfl rfl (by decide)).1
      (by decide) |>.1
  · exact ((c6_conflict_recording c6ctx 0 ⟨3, "A", ["x"], 0⟩ "t" 5
      ⟨[(5, Cell.reduce 2)], 7, []⟩ rfl).1 (Cell.reduce 2) rfl rfl (by decide)).1
      (by decide) |>.2
  · exact ((c6_conflict_recording c6ctx 0 ⟨3, "A", ["x"], 0⟩ "t" 5
      ⟨[(5, Cell.shift 1)], 7, []⟩ rfl).1 (Cell.shift 1) rfl rfl (by decide)).1
      (by decide) |>.1
  · exact ((c6_conflict_recording c6ctx 0 ⟨3, "A", ["x"], 0⟩ "t" 5
      ⟨[(5, Cell.shift 1)], 7, []⟩ rfl).1 (Cell.shift 1) rfl rfl (by decide)).1
      (by decide) |>.2
  · exact ((c6_conflict_recording c6ctx 0 ⟨3, "A", [""], 0⟩ "t" 5
      ⟨[(5, Cell.shift 1)], 7, []⟩ rfl).1 (Cell.shift 1) rfl rfl (by decide)).2
      (by decide) |>.1
  · exact ((c6_conflict_recording c6ctx 0 ⟨3, "A", ["P"], 0⟩ "t" 5
      ⟨[(5, Cell.shift 1)], 7, []⟩ rfl).1 (Cell.shift 1) rfl rfl (by decide)).2
      (by decide) |>.1
  · exact ((c6_conflict_recording c6ctx 0 ⟨3, "A", ["x"], 2⟩ "+" 6
      ⟨[(6, Cell.reduce 2)], 7, []⟩ rfl).1 (Cell.reduce 2) rfl rfl (by decide)).2
      (by decide) |>.1
  · exact ((c6_conflict_recording c6ctx 0 ⟨3, "A", ["x"], 1⟩ "+" 6
      ⟨[(6, Cell.shift 1)], 7, []⟩ rfl).2.1 (Cell.shift 1) rfl rfl (by decide)).1
  · exact ((c6_conflict_recording c6ctx 0 ⟨3, "A", ["x"], 0⟩ "t" 5
      ⟨[], 7, []⟩ rfl).2.2 (Or.inl rfl)).1

/-! ### C5: nonassoc produces a runtime parse error -/

/-- C5: a shift/reduce conflict at equal nonzero precedence on a nonassoc
terminal leaves the raw cell poisoned (`undefined`) and the optimized
action row without any entry for that terminal; and whenever the driver
reaches a state whose row has no entry for the pending lookahead, the
parse loop raises a parse error instead of shifting, reducing or
accepting. -/
theorem c5_nonassoc_runtime_error :
    (∀ (ctx : TblCtx) (k : Nat) (rule : Rule) (la : String) (sid : Nat)
        (acc : TblAcc) (s : Nat) (o : OpInfo),
      alookup ctx.symbolIds la = some sid →
      rowGet acc.row sid = some (Cell.shift s) →
      alookup ctx.operators la = some o →
      rule.precedence ≠ 0 → rule.precedence = o.precedence → o.assoc = "nonassoc" →
        rowGet (processLookahead ctx k rule la acc).row sid = some Cell.undef
        ∧ ((rowKeys (processLookahead ctx k rule la acc).row).Nodup →
            nlookup (optimizeRow (processLookahead ctx k rule la acc).row) sid = none))
    ∧ (∀ (V : Type) (tbl : List (List (Nat × Int))) (rt : List (Nat × Nat))
        (acts : Nat → List (Option V) → Option V) (fuel : Nat) (stk : List Nat)
        (vals : List (Option V)) (toks : List (Nat × V)) (sym : Nat) (text : Option V),
      (tbl.get? (stk.headD 0)).bind (fun row => nlookup row sym) = none →
      parseLoop tbl rt acts (fuel + 1) stk vals toks (some (sym, text)) = Outcome.error) := by
  constructor
  · intro ctx k rule la sid acc s o hsid hrow ho hp0 heq hassoc
    have hmaster := processLookahead_row_eq ctx k rule la sid acc (Cell.shift s) hsid hrow rfl
    rw [ho, rc_shift_eq rule o rule.id s hp0 heq, hassoc] at hmaster
    simp only [reduceIte, Bool.false_eq_true, if_false] at hmaster
    have hres : rowGet (processLookahead ctx k rule la acc).row sid = some Cell.undef := by
      rw [hmaster]
      exact rowGet_rowSet_self _ _ _
    refine ⟨hres, fun hnd => ?_⟩
    rw [nlookup_optimizeRow hnd, hres]
    rfl
  · intro V tbl rt acts fuel stk vals toks sym text h
    simp only [parseLoop, h]

/-- The table context of `gD` as `buildParseTable` sees it. -/
def c5ctx : TblCtx :=
  ⟨["E", "$accept"], [("==", ⟨1, "nonassoc"⟩)],
    [("$accept", 0), ("$end", 1), ("error", 2), ("E", 3), ("NUMBER", 4), ("==", 5)],
    [(2, "error"), (4, "NUMBER"), (5, "==")]⟩

/-- The state-4 accumulator of `gD` just before the `==` lookahead of rule
2 is processed: the `$end` reduce is installed, the shift on `==` (id 5)
still present. -/
def c5acc : TblAcc := ⟨[(1, Cell.reduce 2), (5, Cell.shift 3)], 0, []⟩

/-- Witness for C5: on scenario D (`gD`: `E → NUMBER | E == E`, `==`
nonassoc), the conflicted cell is poisoned and dropped from the optimized
table, and the generated parser errors on `NUMBER == NUMBER == NUMBER`,
both at the exact failing driver configuration and on the full run. -/
theorem c5_witness :
    rowGet (processLookahead c5ctx 4 ⟨2, "E", ["E", "==", "E"], 1⟩ "==" c5acc).row 5
        = some Cell.undef
    ∧ nlookup (optimizeRow
        (processLookahead c5ctx 4 ⟨2, "E", ["E", "==", "E"], 1⟩ "==" c5acc).row) 5 = none
    ∧ parseLoop (V := String)
        [[(3, 1), (4, 2)], [(1, 0), (5, 3)], [(1, -1), (5, -1)], [(3, 4), (4, 2)], [(1, -2)]]
        [(0, 0), (3, 1), (3, 3)] (fun _ _ => none) 51
        [4, 3, 3, 5, 1, 3, 0] [some "2", some "==", some "1", none]
        [(4, "3")] (some (5, some "==")) = Outcome.error
    ∧ ((generate gD 50).map (fun o => o.optimized.get? 4)) = some (some [(1, -2)])
    ∧ ((generate gD 50).map (fun o => (o.table.get? 4).map (fun row => rowGet row 5)))
        = some (some (some Cell.undef))
    ∧ ((generate gD 50).map (fun o =>
        runParse (V := String) o.optimized o.ctx.ruleTable (fun _ _ => none) 100
          [(4, "1"), (5, "=="), (4, "2"), (5, "=="), (4, "3")]))
        = some Outcome.error := by
  have ha := c5_nonassoc_runtime_error.1 c5ctx 4 ⟨2, "E", ["E", "==", "E"], 1⟩ "==" 5
    c5acc 3 ⟨1, "nonassoc"⟩ rfl rfl rfl (by decide) rfl rfl
  exact ⟨ha.1, ha.2 (by decide),
    c5_nonassoc_runtime_error.2 String _ _ _ 50 _ _ _ 5 (some "==") rfl,
    rfl, rfl, rfl⟩

/-! ### C4: sexp-mode action compilation -/

/-- C4 (amended): in sexp mode over a production of RHS length `L`, an
absent action, the integer 1, and also the integer 0 (via `action || 1`)
compile to the pass-through of position 1; any other integer `n` compiles
to `return` of the position-`n` reference; a string with at least one `$n`
reference has exactly those references replaced (the segmentation
reassembles to the original string, so all other characters — bare digits
included — are kept) and the result is trimmed of surrounding whitespace
before being wrapped; a string without `$n` references has every bare
signed integer replaced the same way, also trimmed; any other template
type compiles to `return null;`. -/
theorem c4_sexp_action_compilation (L : Nat) (s : String) (n : Int) :
    (processGrammarActionSexp .absent L = "return " ++ getToken L 1 ++ ";")
    ∧ (processGrammarActionSexp (.num 0) L = "return " ++ getToken L 1 ++ ";")
    ∧ (n ≠ 0 → processGrammarActionSexp (.num n) L = "return " ++ getToken L n ++ ";")
    ∧ (hasDollarRef s = true →
        processGrammarActionSexp (.str s) L
          = "return " ++ trimStr ⟨segsRepl L (dollarSegs s)⟩ ++ ";"
        ∧ segsOrig (dollarSegs s) = s.data)
    ∧ (hasDollarRef s = false →
        processGrammarActionSexp (.str s) L
          = "return " ++ trimStr ⟨segsRepl L (bareSegs s)⟩ ++ ";"
        ∧ segsOrigB (bareSegs s) = s.data)
    ∧ (processGrammarActionSexp .other L = "return null;") := by
  refine ⟨rfl, ?_, ?_, ?_, ?_, rfl⟩
  · rfl
  · intro hn
    simp [processGrammarActionSexp, hn]
  · intro hd
    have hc := dollarSegsF_complete s.data.length false s.data (Nat.le_refl _)
    constructor
    · have hrepl : replaceDollarRefs L s = ⟨segsRepl L (dollarSegs s)⟩ := by
        unfold replaceDollarRefs
        rw [dollarSegsF_repl L s.data.length false s.data, hc]
        simp [dollarSegs]
      simp only [processGrammarActionSexp, hd, if_pos, hrepl]
    · have ho := dollarSegsF_orig s.data.length false s.data
      rw [hc] at ho
      simpa [dollarSegs] using ho
  · intro hd
    have hc := bareSegsF_complete s.data.length s.data (Nat.le_refl _)
    constructor
    · have hrepl : replaceBareInts L s = ⟨segsRepl L (bareSegs s)⟩ := by
        unfold replaceBareInts
        rw [bareSegsF_repl L s.data.length s.data, hc]
        simp [bareSegs]
      simp only [processGrammarActionSexp, hd, Bool.false_eq_true, if_false, hrepl]
    · have ho := bareSegsF_orig s.data.length s.data
      rw [hc] at ho
      simpa [bareSegs] using ho

/-- Witness for C4 at concrete templates: the integer 2 over length 3, a
`$n` template, a bare-integer template, plus the fully evaluated
renderings. -/
theorem c4_witness :
    (processGrammarActionSexp (.num 2) 3 = "return " ++ getToken 3 2 ++ ";")
    ∧ (processGrammarActionSexp (.str "v + $1 - $2") 3
        = "return " ++ trimStr ⟨segsRepl 3 (dollarSegs "v + $1 - $2")⟩ ++ ";"
      ∧ segsOrig (dollarSegs "v + $1 - $2") = ("v + $1 - $2" : String).data)
    ∧ (processGrammarActionSexp (.str "x 1 -2") 3
        = "return " ++ trimStr ⟨segsRepl 3 (bareSegs "x 1 -2")⟩ ++ ";"
      ∧ segsOrigB (bareSegs "x 1 -2") = ("x 1 -2" : String).data)
    ∧ processGrammarActionSexp (.str "v + $1 - $2") 3 = "return v + $[$0-2] - $[$0-1];"
    ∧ processGrammarActionSexp (.str "x 1 -2") 3 = "return x $[$0-2] $[$0-5];" :=
  ⟨(c4_sexp_action_compilation 3 "v + $1 - $2" 2).2.2.1 (by decide),
   (c4_sexp_action_compilation 3 "v + $1 - $2" 2).2.2.2.1 rfl,
   (c4_sexp_action_compilation 3 "x 1 -2" 2).2.2.2.2.1 rfl,
   rfl, rfl⟩

/-- C4 counterexample: the integer 0 does not compile to the position-0
reference (the code maps it through `action || 1` to position 1), and the
string rewriting is trimmed, so surrounding whitespace is not preserved
verbatim. -/
theorem c4_counterexample :
    processGrammarActionSexp (.num 0) 2 = "return $[$0-1];"
    ∧ "return $[$0-1];" ≠ "return $[$0-2];"
    ∧ processGrammarActionSexp (.str "$1 ") 1 = "return $[$0];"
    ∧ "return $[$0];" ≠ "return $[$0] ;" :=
  ⟨rfl, by decide, rfl, by decide⟩

/-! ### C8: kernel-signature state deduplication -/

theorem updAt_length {α : Type} (l : List α) (i : Nat) (f : α → α) :
    (updAt l i f).length = l.length := by
  induction l generalizing i with
  | nil => rfl
  | cons x rest ih =>
    cases i with
    | zero => rfl
    | succ i => simp [updAt, ih]

theorem get_updAt_eq {α : Type} (l : List α) (i j : Nat) (f : α → α) :
    (updAt l i f).get? j = if i = j then (l.get? j).map f else l.get? j := by
  induction l generalizing i j with
  | nil => simp [updAt]
  | cons x rest ih =>
    cases i with
    | zero =>
      cases j with
      | zero => simp [updAt]
      | succ j => simp [updAt]
    | succ i =>
      cases j with
      | zero => simp [updAt]
      | succ j =>
        simp only [updAt, List.get?_cons_succ]
        rw [ih]
        by_cases h : i = j
        · simp [h]
        · simp [h, fun hh => h (Nat.succ_injective hh)]

theorem alookup_append_single {β : Type} (xs : List (String × β)) (k key : String)
    (v : β) :
    alookup (xs ++ [(k, v)]) key =
      (match alookup xs key with
       | some w => some w
       | none => if k = key then some v else none) := by
  induction xs with
  | nil => simp [alookup]
  | cons hd rest ih =>
    obtain ⟨k0, v0⟩ := hd
    simp only [List.cons_append, alookup]
    by_cases hk : k0 = key
    · rw [if_pos hk, if_pos hk]
    · rw [if_neg hk, if_neg hk]
      exact ih

theorem insertState_eq_reg (ctx : GenCtx) (cfuel : Nat) (symbol : String)
    (items : List Item) (m : Nat) (a : AutoState) (e : Nat)
    (hemp : items.isEmpty = false)
    (hreg : alookup a.stateMap (kernelSig items) = some e) :
    insertStateWithItems ctx cfuel symbol items m a =
      { a with states := updAt a.states m (fun st =>
          { st with transitions := aset st.transitions symbol e }) } := by
  simp only [insertStateWithItems]
  rw [if_neg (by simp [hemp]), hreg]

theorem insertState_eq_new (ctx : GenCtx) (cfuel : Nat) (symbol : String)
    (items : List Item) (m : Nat) (a : AutoState) (src : St)
    (hemp : items.isEmpty = false)
    (hreg : alookup a.stateMap (kernelSig items) = none)
    (hsrc : a.states.get? m = some src) :
    insertStateWithItems ctx cfuel symbol items m a =
      insertStateGoto ctx cfuel symbol (kernelSig items) m src a := by
  simp only [insertStateWithItems]
  rw [if_neg (by simp [hemp]), hreg, hsrc]

theorem insertState_eq_nosrc (ctx : GenCtx) (cfuel : Nat) (symbol : String)
    (items : List Item) (m : Nat) (a : AutoState)
    (hemp : items.isEmpty = false)
    (hreg : alookup a.stateMap (kernelSig items) = none)
    (hsrc : a.states.get? m = none) :
    insertStateWithItems ctx cfuel symbol items m a = a := by
  simp only [insertStateWithItems]
  rw [if_neg (by simp [hemp]), hreg, hsrc]

theorem insertState_eq_empty (ctx : GenCtx) (cfuel : Nat) (symbol : String)
    (items : List Item) (m : Nat) (a : AutoState)
    (hemp : items.isEmpty = true) :
    insertStateWithItems ctx cfuel symbol items m a = a := by
  simp only [insertStateWithItems]
  rw [if_pos hemp]

/-- The state-list invariant of the automaton builder: ids are dense
indices and the signature registry maps exactly the present signatures to
their indices. -/
def AutoInv (a : AutoState) : Prop :=
  (∀ i st, a.states.get? i = some st → st.id = i)
  ∧ (∀ i st, a.states.get? i = some st → alookup a.stateMap st.signature = some i)
  ∧ (∀ sig i, alookup a.stateMap sig = some i →
      ∃ st, a.states.get? i = some st ∧ st.signature = sig)

theorem insertStateGoto_inv (ctx : GenCtx) (cfuel : Nat) (symbol sig : String)
    (m : Nat) (src : St) (a : AutoState) (hinv : AutoInv a)
    (hreg : alookup a.stateMap sig = none) :
    AutoInv (insertStateGoto ctx cfuel symbol sig m src a) := by
  obtain ⟨h1, h2, h3⟩ := hinv
  simp only [insertStateGoto]
  by_cases hgi : (gotoItems src.items symbol).isEmpty
  · rw [if_pos hgi]
    exact ⟨h1, h2, h3⟩
  · rw [if_neg hgi]
    set f : St → St := fun s =>
      { s with transitions := aset s.transitions symbol a.states.length } with hf
    set stNew : St := { Solar.closure ctx cfuel (gotoItems src.items symbol) with
      id := a.states.length, signature := sig } with hstNew
    have hulen : (updAt a.states m f).length = a.states.length := updAt_length _ _ _
    have hgetlt : ∀ i st, i < a.states.length →
        (updAt a.states m f ++ [stNew]).get? i = some st →
        ∃ st0, a.states.get? i = some st0 ∧ st.id = st0.id
          ∧ st.signature = st0.signature := by
      intro i st hi hget
      rw [List.get?_append (by omega)] at hget
      rw [get_updAt_eq] at hget
      by_cases hm : m = i
      · rw [if_pos hm] at hget
        match hg : a.states.get? i with
        | some st0 =>
          rw [hg] at hget
          simp only [Option.map_some'] at hget
          cases hget
          exact ⟨st0, rfl, rfl, rfl⟩
        | none => rw [hg] at hget; simp at hget
      · rw [if_neg hm] at hget
        exact ⟨st, hget, rfl, rfl⟩
    have hgetlast : (updAt a.states m f ++ [stNew]).get? a.states.length
        = some stNew := by
      rw [List.get?_append_right (by omega)]
      rw [hulen]
      simp
    refine ⟨?_, ?_, ?_⟩
    · intro i st hget
      by_cases hi : i < a.states.length
      · obtain ⟨st0, hg0, hid, -⟩ := hgetlt i st hi hget
        rw [hid]
        exact h1 i st0 hg0
      · have hi2 : i = a.states.length := by
          have hlt := (List.get?_eq_some.mp hget).1
          simp only [List.length_append, hulen, List.length_cons,
            List.length_nil] at hlt
          omega
        subst hi2
        rw [hgetlast] at hget
        cases hget
        rfl
    · intro i st hget
      by_cases hi : i < a.states.length
      · obtain ⟨st0, hg0, -, hsig⟩ := hgetlt i st hi hget
        rw [hsig, alookup_append_single]
        rw [h2 i st0 hg0]
      · have hi2 : i = a.states.length := by
          have hlt := (List.get?_eq_some.mp hget).1
          simp only [List.length_append, hulen, List.length_cons,
            List.length_nil] at hlt
          omega
        subst hi2
        rw [hgetlast] at hget
        cases hget
        rw [alookup_append_single]
        have hsigeq : stNew.signature = sig := rfl
        rw [hsigeq, hreg]
        simp
    · intro sig2 i hl
      rw [alookup_append_single] at hl
      match hold : alookup a.stateMap sig2 with
      | some j =>
        rw [hold] at hl
        simp only [Option.some.injEq] at hl
        subst hl
        obtain ⟨st0, hg0, hsig0⟩ := h3 sig2 j hold
        have hj : j < a.states.length := (List.get?_eq_some.mp hg0).1
        by_cases hm : m = j
        · refine ⟨f st0, ?_, hsig0⟩
          rw [List.get?_append (by omega), get_updAt_eq, if_pos hm, hg0]
          rfl
        · refine ⟨st0, ?_, hsig0⟩
          rw [List.get?_append (by omega), get_updAt_eq, if_neg hm]
          exact hg0
      | none =>
        rw [hold] at hl
        by_cases hk : sig = sig2
        · rw [if_pos hk] at hl
          simp only [Option.some.injEq] at hl
          subst hl
          exact ⟨stNew, hgetlast, hk⟩
        · rw [if_neg hk] at hl
          simp at hl

theorem autoInv_updAt (a : AutoState) (m : Nat) (f : St → St)
    (hid : ∀ st, (f st).id = st.id) (hsig : ∀ st, (f st).signature = st.signature)
    (hinv : AutoInv a) : AutoInv { a with states := updAt a.states m f } := by
  obtain ⟨h1, h2, h3⟩ := hinv
  refine ⟨?_, ?_, ?_⟩
  · intro i st hget
    simp only at hget
    rw [get_updAt_eq] at hget
    by_cases hm : m = i
    · rw [if_pos hm] at hget
      match hg : a.states.get? i with
      | some st0 =>
        rw [hg] at hget
        simp only [Option.map_some'] at hget
        cases hget
        rw [hid st0]
        exact h1 i st0 hg
      | none => rw [hg] at hget; simp at hget
    · rw [if_neg hm] at hget
      exact h1 i st hget
  · intro i st hget
    simp only at hget
    rw [get_updAt_eq] at hget
    by_cases hm : m = i
    · rw [if_pos hm] at hget
      match hg : a.states.get? i with
      | some st0 =>
        rw [hg] at hget
        simp only [Option.map_some'] at hget
        cases hget
        rw [hsig st0]
        exact h2 i st0 hg
      | none => rw [hg] at hget; simp at hget
    · rw [if_neg hm] at hget
      exact h2 i st hget
  · intro sig i hl
    obtain ⟨st, hget, hsigeq⟩ := h3 sig i hl
    by_cases hm : m = i
    · refine ⟨f st, ?_, by rw [hsig st]; exact hsigeq⟩
      simp only
      rw [get_updAt_eq, if_pos hm, hget]
      rfl
    · refine ⟨st, ?_, hsigeq⟩
      simp only
      rw [get_updAt_eq, if_neg hm]
      exact hget

theorem insertState_inv (ctx : GenCtx) (cfuel : Nat) (symbol : String)
    (items : List Item) (m : Nat) (a : AutoState) (hinv : AutoInv a) :
    AutoInv (insertStateWithItems ctx cfuel symbol items m a) := by
  by_cases hemp : items.isEmpty
  · rw [insertState_eq_empty ctx cfuel symbol items m a hemp]
    exact hinv
  · have hemp2 : items.isEmpty = false := by simpa using hemp
    match hreg : alookup a.stateMap (kernelSig items) with
    | some e =>
      rw [insertState_eq_reg ctx cfuel symbol items m a e hemp2 hreg]
      exact autoInv_updAt a m _ (fun st => rfl) (fun st => rfl) hinv
    | none =>
      match hsrc : a.states.get? m with
      | none =>
        rw [insertState_eq_nosrc ctx cfuel symbol items m a hemp2 hreg hsrc]
        exact hinv
      | some src =>
        rw [insertState_eq_new ctx cfuel symbol items m a src hemp2 hreg hsrc]
        exact insertStateGoto_inv ctx cfuel symbol (kernelSig items) m src a hinv hreg

theorem foldInsert_inv (ctx : GenCtx) (cfuel m : Nat)
    (groups : List (String × List Item)) :
    ∀ (a : AutoState), AutoInv a →
      AutoInv (groups.foldl
        (fun a (g : String × List Item) =>
          insertStateWithItems ctx cfuel g.1 g.2 m a) a) := by
  induction groups with
  | nil => intro a h; exact h
  | cons g rest ih =>
    intro a h
    exact ih _ (insertState_inv ctx cfuel g.1 g.2 m a h)

theorem automatonLoop_inv (ctx : GenCtx) (cfuel : Nat) :
    ∀ (fuel : Nat) (a : AutoState) (marked : Nat), AutoInv a →
      AutoInv (automatonLoop ctx cfuel fuel a marked) := by
  intro fuel
  induction fuel with
  | zero => intro a marked h; exact h
  | succ fuel ih =>
    intro a marked h
    simp only [automatonLoop]
    match hm : a.states.get? marked with
    | none => exact h
    | some st =>
      exact ih _ (marked + 1) (foldInsert_inv ctx cfuel marked (groupBySymbol st.items) a h)

theorem buildLRAutomaton_inv (ctx : GenCtx) (cfuel afuel : Nat) :
    AutoInv (buildLRAutomaton ctx cfuel afuel) := by
  simp only [buildLRAutomaton]
  match hlast : ctx.rules.getLast? with
  | none =>
    refine ⟨?_, ?_, ?_⟩
    · intro i st hget; simp at hget
    · intro i st hget; simp at hget
    · intro sig i hl; simp [alookup] at hl
  | some acceptRule =>
    apply automatonLoop_inv
    refine ⟨?_, ?_, ?_⟩
    · intro i st hget
      match i with
      | 0 => cases hget; rfl
      | _ + 1 => simp at hget
    · intro i st hget
      match i with
      | 0 =>
        cases hget
        simp [alookup]
      | _ + 1 => simp at hget
    · intro sig i hl
      simp only [alookup] at hl
      by_cases hk : toString acceptRule.id ++ "." ++ toString (0 : Nat) = sig
      · rw [if_pos hk] at hl
        simp only [Option.some.injEq] at hl
        subst hl
        exact ⟨_, rfl, hk⟩
      · rw [if_neg hk] at hl
        simp [alookup] at hl

/-- The generator context of `gD` (scenario D), used by concrete
witnesses. -/
def ctxD : GenCtx :=
  match processGrammar gD with
  | some c => c
  | none => ⟨[], [], "", [], [], [], []⟩

/-- C8: state deduplication is total — whenever the successor kernel
signature of a transition is already registered, the transition is set to
the existing state's id and no new state is created (state list and
registry unchanged apart from that one transition); consequently any two
states of the built LR(0) automaton with equal kernel signatures are the
same state, and every state's id is its dense index. -/
theorem c8_state_dedup_total :
    (∀ (ctx : GenCtx) (cfuel : Nat) (symbol : String) (items : List Item)
        (m : Nat) (a : AutoState) (e : Nat),
      items.isEmpty = false →
      alookup a.stateMap (kernelSig items) = some e →
        insertStateWithItems ctx cfuel symbol items m a =
          { a with states := updAt a.states m (fun st =>
              { st with transitions := aset st.transitions symbol e }) }
        ∧ (insertStateWithItems ctx cfuel symbol items m a).states.length
            = a.states.length
        ∧ (insertStateWithItems ctx cfuel symbol items m a).stateMap = a.stateMap)
    ∧ (∀ (ctx : GenCtx) (cfuel afuel i j : Nat) (si sj : St),
        (buildLRAutomaton ctx cfuel afuel).states.get? i = some si →
        (buildLRAutomaton ctx cfuel afuel).states.get? j = some sj →
        si.signature = sj.signature → i = j)
    ∧ (∀ (ctx : GenCtx) (cfuel afuel i : Nat) (si : St),
        (buildLRAutomaton ctx cfuel afuel).states.get? i = some si → si.id = i) := by
  refine ⟨?_, ?_, ?_⟩
  · intro ctx cfuel symbol items m a e hemp hreg
    have heq := insertState_eq_reg ctx cfuel symbol items m a e hemp hreg
    refine ⟨heq, ?_, ?_⟩
    · rw [heq]
      exact updAt_length _ _ _
    · rw [heq]
  · intro ctx cfuel afuel i j si sj hi hj hsig
    obtain ⟨h1, h2, h3⟩ := buildLRAutomaton_inv ctx cfuel afuel
    have hi2 := h2 i si hi
    have hj2 := h2 j sj hj
    rw [hsig] at hi2
    exact Option.some.inj (hi2.symm.trans hj2)
  · intro ctx cfuel afuel i si hi
    exact (buildLRAutomaton_inv ctx cfuel afuel).1 i si hi

/-- Witness for C8: a registered-signature insertion on a concrete
one-state automaton only records the transition, and the `gD` automaton's
state 3 has id 3 and distinct signatures. -/
theorem c8_witness :
    (insertStateWithItems ctxD 50 "c" [⟨⟨3, "A", ["c"], 0⟩, 0, []⟩] 0
        ⟨[⟨0, "3.1", [], [], [], false, false⟩], [("3.1", 0)]⟩ =
      { states := [⟨0, "3.1", [], [("c", 0)], [], false, false⟩],
        stateMap := [("3.1", 0)] })
    ∧ ((buildLRAutomaton ctxD 50 50).states.getD 3 {}).id = 3
    ∧ (3 : Nat) = 3 := by
  refine ⟨?_, ?_, ?_⟩
  · have h := (c8_state_dedup_total.1 ctxD 50 "c" [⟨⟨3, "A", ["c"], 0⟩, 0, []⟩] 0
      ⟨[⟨0, "3.1", [], [], [], false, false⟩], [("3.1", 0)]⟩ 0 rfl rfl).1
    exact h
  · exact c8_state_dedup_total.2.2 ctxD 50 50 3 ((buildLRAutomaton ctxD 50 50).states.getD 3 {})
      (by rfl)
  · exact c8_state_dedup_total.2.1 ctxD 50 50 3 3
      ((buildLRAutomaton ctxD 50 50).states.getD 3 {})
      ((buildLRAutomaton ctxD 50 50).states.getD 3 {}) (by rfl) (by rfl) rfl

/-! ### C10: no reduce of the synthesized accept rule -/

/-- Item sanity: its rule belongs to the grammar and an accept-rule item
never has its dot past position 1. -/
def ItemOK (ctx : GenCtx) (it : Item) : Prop :=
  it.rule ∈ ctx.rules ∧ (it.rule.id = 0 → it.dot ≤ 1)

def AccOK (ctx : GenCtx) (acc : ClosAcc) : Prop :=
  (∀ it, it ∈ acc.items → ItemOK ctx it)
  ∧ (∀ it, it ∈ acc.reductions → ItemOK ctx it ∧ it.next = "")

def StOK (ctx : GenCtx) (st : St) : Prop :=
  (∀ it, it ∈ st.items → ItemOK ctx it)
  ∧ (∀ it, it ∈ st.reductions → ItemOK ctx it ∧ it.next = "")

theorem closureStepOne_ok (ctx : GenCtx) (p : ClosAcc × List Item) (item : Item)
    (hacc : AccOK ctx p.1) (hnxt : ∀ it, it ∈ p.2 → ItemOK ctx it)
    (hit : ItemOK ctx item) :
    AccOK ctx (closureStepOne ctx p item).1
    ∧ (∀ it, it ∈ (closureStepOne ctx p item).2 → ItemOK ctx it) := by
  obtain ⟨acc, nxt⟩ := p
  obtain ⟨ha1, ha2⟩ := hacc
  simp only [closureStepOne]
  by_cases hcore : item.core ∈ acc.cores
  · rw [if_pos hcore]
    exact ⟨⟨ha1, ha2⟩, hnxt⟩
  · rw [if_neg hcore]
    by_cases hns : item.next = ""
    · rw [if_pos hns]
      refine ⟨⟨?_, ?_⟩, hnxt⟩
      · intro it hmem
        simp only [List.mem_append, List.mem_singleton] at hmem
        rcases hmem with h | h
        · exact ha1 it h
        · subst h; exact hit
      · intro it hmem
        simp only [List.mem_append, List.mem_singleton] at hmem
        rcases hmem with h | h
        · exact ha2 it h
        · subst h; exact ⟨hit, hns⟩
    · rw [if_neg hns]
      by_cases ht : ¬ isType ctx item.next
      · rw [if_pos ht]
        refine ⟨⟨?_, ha2⟩, hnxt⟩
        intro it hmem
        simp only [List.mem_append, List.mem_singleton] at hmem
        rcases hmem with h | h
        · exact ha1 it h
        · subst h; exact hit
      · rw [if_neg ht]
        refine ⟨⟨?_, ha2⟩, ?_⟩
        · intro it hmem
          simp only [List.mem_append, List.mem_singleton] at hmem
          rcases hmem with h | h
          · exact ha1 it h
          · subst h; exact hit
        · intro it hmem
          simp only [List.mem_append] at hmem
          rcases hmem with h | h
          · exact hnxt it h
          · obtain ⟨r, hr, hmk⟩ := List.mem_filterMap.mp h
            split at hmk
            · simp at hmk
            · simp only [Option.some.injEq] at hmk
              subst hmk
              refine ⟨?_, fun _ => Nat.zero_le 1⟩
              exact List.mem_of_mem_filter hr

theorem closureFold_ok (ctx : GenCtx) (working : List Item) :
    ∀ (p : ClosAcc × List Item),
      AccOK ctx p.1 → (∀ it, it ∈ p.2 → ItemOK ctx it) →
      (∀ it, it ∈ working → ItemOK ctx it) →
      AccOK ctx (working.foldl (closureStepOne ctx) p).1
      ∧ (∀ it, it ∈ (working.foldl (closureStepOne ctx) p).2 → ItemOK ctx it) := by
  induction working with
  | nil => intro p h1 h2 _; exact ⟨h1, h2⟩
  | cons x rest ih =>
    intro p h1 h2 hw
    have hx := hw x (List.mem_cons_self x rest)
    have hstep := closureStepOne_ok ctx p x h1 h2 hx
    exact ih (closureStepOne ctx p x) hstep.1 hstep.2
      (fun it hit => hw it (List.mem_cons_of_mem x hit))

theorem closureLoop_ok (ctx : GenCtx) :
    ∀ (fuel : Nat) (acc : ClosAcc) (working : List Item),
      AccOK ctx acc → (∀ it, it ∈ working → ItemOK ctx it) →
      AccOK ctx (closureLoop ctx fuel acc working) := by
  intro fuel
  induction fuel with
  | zero => intro acc working h _; exact h
  | succ fuel ih =>
    intro acc working hacc hw
    simp only [closureLoop]
    by_cases he : working.isEmpty
    · rw [if_pos he]; exact hacc
    · rw [if_neg he]
      have hfold := closureFold_ok ctx working (acc, []) hacc (by simp) hw
      exact ih _ _ hfold.1 hfold.2

theorem closure_ok (ctx : GenCtx) (cfuel : Nat) (items : List Item)
    (h : ∀ it, it ∈ items → ItemOK ctx it) :
    StOK ctx (closure ctx cfuel items) := by
  have hemp : AccOK ctx ({} : ClosAcc) := by
    constructor
    · intro it h2
      simp at h2
    · intro it h2
      simp at h2
  have hcl := closureLoop_ok ctx cfuel {} items hemp h
  exact ⟨hcl.1, hcl.2⟩

theorem gotoItems_ok (ctx : GenCtx) (src : List Item) (symbol : String)
    (hyp0 : ∀ r, r ∈ ctx.rules → r.id = 0 → r.symbols = [ctx.start, "$end"])
    (hsym2 : symbol ≠ "$end")
    (hsrc : ∀ it, it ∈ src → ItemOK ctx it) :
    ∀ it, it ∈ gotoItems src symbol → ItemOK ctx it := by
  intro it hmem
  simp only [gotoItems, List.mem_filterMap] at hmem
  obtain ⟨it0, h0, hmk⟩ := hmem
  split at hmk
  · simp only [Option.some.injEq] at hmk
    subst hmk
    obtain ⟨hr, hd⟩ := hsrc it0 h0
    refine ⟨hr, fun h00 => ?_⟩
    have hd1 := hd h00
    have hsy := hyp0 it0.rule hr h00
    rcases Nat.lt_or_ge it0.dot 1 with h1 | h1
    · simp only []
      omega
    · have hdot : it0.dot = 1 := by omega
      exfalso
      have : it0.next = "$end" := by
        simp only [Item.next, hsy, hdot]
        rfl
      rename_i hnext
      rw [hnext] at this
      exact hsym2 this
  · simp at hmk

theorem groupBySymbol_keys (items : List Item) :
    ∀ p, p ∈ groupBySymbol items → p.1 ≠ "" ∧ p.1 ≠ "$end" := by
  have hgen : ∀ (l : List Item) (acc : List (String × List Item)),
      (∀ p, p ∈ acc → p.1 ≠ "" ∧ p.1 ≠ "$end") →
      ∀ p, p ∈ l.foldl (fun acc it =>
        let ns := it.next
        if ns ≠ "" ∧ ns ≠ "$end" then
          match alookup acc ns with
          | some l2 => aset acc ns (l2 ++ [it])
          | none => acc ++ [(ns, [it])]
        else acc) acc → p.1 ≠ "" ∧ p.1 ≠ "$end" := by
    intro l
    induction l with
    | nil => intro acc h p hp; exact h p hp
    | cons x rest ih =>
      intro acc h p hp
      refine ih _ ?_ p hp
      show ∀ q, q ∈ (if x.next ≠ "" ∧ x.next ≠ "$end" then
          match alookup acc x.next with
          | some l2 => aset acc x.next (l2 ++ [x])
          | none => acc ++ [(x.next, [x])]
        else acc) → q.1 ≠ "" ∧ q.1 ≠ "$end"
      by_cases hg : x.next ≠ "" ∧ x.next ≠ "$end"
      · rw [if_pos hg]
        match halk : alookup acc x.next with
        | some l2 =>
          intro q hq
          have : ∀ (ac : List (String × List Item)) (key : String) (v : List Item),
              (∀ p2, p2 ∈ ac → p2.1 ≠ "" ∧ p2.1 ≠ "$end") →
              key ≠ "" → key ≠ "$end" →
              ∀ p2, p2 ∈ aset ac key v → p2.1 ≠ "" ∧ p2.1 ≠ "$end" := by
            intro ac
            induction ac with
            | nil =>
              intro key v _ hk1 hk2 p2 hp2
              simp only [aset, List.mem_singleton] at hp2
              subst hp2
              exact ⟨hk1, hk2⟩
            | cons y ys ih2 =>
              intro key v hy hk1 hk2 p2 hp2
              obtain ⟨ky, vy⟩ := y
              simp only [aset] at hp2
              by_cases hkk : ky = key
              · rw [if_pos hkk] at hp2
                rcases List.mem_cons.mp hp2 with h2 | h2
                · subst h2; exact ⟨hk1 ∘ (hkk ▸ id), hk2 ∘ (hkk ▸ id)⟩
                · exact hy _ (List.mem_cons_of_mem _ h2)
              · rw [if_neg hkk] at hp2
                rcases List.mem_cons.mp hp2 with h2 | h2
                · subst h2
                  exact hy (ky, vy) (List.mem_cons_self _ _)
                · exact ih2 key v (fun p3 hp3 => hy p3 (List.mem_cons_of_mem _ hp3))
                    hk1 hk2 p2 h2
          exact this acc x.next (l2 ++ [x]) h hg.1 hg.2 q hq
        | none =>
          intro q hq
          rcases List.mem_append.mp hq with h2 | h2
          · exact h q h2
          · simp only [List.mem_singleton] at h2
            subst h2
            exact hg
      · rw [if_neg hg]
        exact h
  intro p hp
  exact hgen items [] (by intro p2 hp2; simp at hp2) p hp

theorem mem_updAt {α : Type} {l : List α} {i : Nat} {f : α → α} {x : α}
    (h : x ∈ updAt l i f) : x ∈ l ∨ ∃ y, y ∈ l ∧ x = f y := by
  induction l generalizing i with
  | nil => simp [updAt] at h
  | cons y rest ih =>
    cases i with
    | zero =>
      rcases List.mem_cons.mp h with h2 | h2
      · exact Or.inr ⟨y, List.mem_cons_self _ _, h2⟩
      · exact Or.inl (List.mem_cons_of_mem _ h2)
    | succ i =>
      rcases List.mem_cons.mp h with h2 | h2
      · exact Or.inl (h2 ▸ List.mem_cons_self _ _)
      · rcases ih h2 with h3 | ⟨z, hz, he⟩
        · exact Or.inl (List.mem_cons_of_mem _ h3)
        · exact Or.inr ⟨z, List.mem_cons_of_mem _ hz, he⟩

/-- All states of an automaton accumulator are sane. -/
def AutoOK (ctx : GenCtx) (a : AutoState) : Prop :=
  ∀ st, st ∈ a.states → StOK ctx st

theorem stOK_transitions (ctx : GenCtx) (s : St) (tr : List (String × Nat))
    (h : StOK ctx s) : StOK ctx { s with transitions := tr } :=
  ⟨h.1, h.2⟩

theorem insertStateGoto_ok (ctx : GenCtx) (cfuel : Nat) (symbol sig : String)
    (m : Nat) (src : St) (a : AutoState)
    (hyp0 : ∀ r, r ∈ ctx.rules → r.id = 0 → r.symbols = [ctx.start, "$end"])
    (hsym2 : symbol ≠ "$end")
    (hsrc : StOK ctx src)
    (h : AutoOK ctx a) : AutoOK ctx (insertStateGoto ctx cfuel symbol sig m src a) := by
  simp only [insertStateGoto]
  by_cases hgi : (gotoItems src.items symbol).isEmpty
  · rw [if_pos hgi]; exact h
  · rw [if_neg hgi]
    intro st hmem
    simp only [List.mem_append, List.mem_singleton] at hmem
    rcases hmem with h2 | h2
    · rcases mem_updAt h2 with h3 | ⟨y, hy, he⟩
      · exact h st h3
      · exact he ▸ stOK_transitions ctx y _ (h y hy)
    · subst h2
      have hgok := gotoItems_ok ctx src.items symbol hyp0 hsym2 hsrc.1
      have := closure_ok ctx cfuel (gotoItems src.items symbol) hgok
      exact ⟨this.1, this.2⟩

theorem insertState_ok (ctx : GenCtx) (cfuel : Nat) (symbol : String)
    (items : List Item) (m : Nat) (a : AutoState)
    (hyp0 : ∀ r, r ∈ ctx.rules → r.id = 0 → r.symbols = [ctx.start, "$end"])
    (hsym2 : symbol ≠ "$end")
    (h : AutoOK ctx a) : AutoOK ctx (insertStateWithItems ctx cfuel symbol items m a) := by
  simp only [insertStateWithItems]
  by_cases hemp : items.isEmpty
  · rw [if_pos hemp]; exact h
  · rw [if_neg hemp]
    match hreg : alookup a.stateMap (kernelSig items) with
    | some e =>
      intro st hmem
      rcases mem_updAt hmem with h3 | ⟨y, hy, he⟩
      · exact h st h3
      · exact he ▸ stOK_transitions ctx y _ (h y hy)
    | none =>
      match hsrc : a.states.get? m with
      | none => exact h
      | some src =>
        exact insertStateGoto_ok ctx cfuel symbol (kernelSig items) m src a
          hyp0 hsym2 (h src (List.get?_mem hsrc)) h

theorem foldInsert_ok (ctx : GenCtx) (cfuel m : Nat)
    (hyp0 : ∀ r, r ∈ ctx.rules → r.id = 0 → r.symbols = [ctx.start, "$end"])
    (groups : List (String × List Item))
    (hg : ∀ p, p ∈ groups → p.1 ≠ "$end")
    (a : AutoState) (h : AutoOK ctx a) :
    AutoOK ctx (groups.foldl
      (fun a (g : String × List Item) => insertStateWithItems ctx cfuel g.1 g.2 m a) a) := by
  induction groups generalizing a with
  | nil => exact h
  | cons g rest ih =>
    exact ih (fun p hp => hg p (List.mem_cons_of_mem _ hp)) _
      (insertState_ok ctx cfuel g.1 g.2 m a hyp0
        (hg g (List.mem_cons_self _ _)) h)

theorem automatonLoop_ok (ctx : GenCtx) (cfuel : Nat)
    (hyp0 : ∀ r, r ∈ ctx.rules → r.id = 0 → r.symbols = [ctx.start, "$end"]) :
    ∀ (fuel : Nat) (a : AutoState) (marked : Nat),
      AutoOK ctx a → AutoOK ctx (automatonLoop ctx cfuel fuel a marked) := by
  intro fuel
  induction fuel with
  | zero => intro a marked h; exact h
  | succ fuel ih =>
    intro a marked h
    simp only [automatonLoop]
    match hget : a.states.get? marked with
    | none => exact h
    | some st =>
      exact ih _ _ (foldInsert_ok ctx cfuel marked hyp0 (groupBySymbol st.items)
        (fun p hp => (groupBySymbol_keys st.items p hp).2) a h)

theorem buildLRAutomaton_ok (ctx : GenCtx) (cfuel afuel : Nat)
    (hyp0 : ∀ r, r ∈ ctx.rules → r.id = 0 → r.symbols = [ctx.start, "$end"]) :
    AutoOK ctx (buildLRAutomaton ctx cfuel afuel) := by
  simp only [buildLRAutomaton]
  match hlast : ctx.rules.getLast? with
  | none =>
    intro st hmem
    simp at hmem
  | some acceptRule =>
    apply automatonLoop_ok ctx cfuel hyp0
    intro st hmem
    simp only [List.mem_singleton] at hmem
    subst hmem
    have hrule : acceptRule ∈ ctx.rules := by
      obtain ⟨hne, he⟩ := List.mem_getLast?_eq_getLast (l := ctx.rules)
        (x := acceptRule) (by rw [hlast]; rfl)
      exact he ▸ List.getLast_mem hne
    have hit : ∀ it, it ∈ [({ rule := acceptRule, dot := 0 } : Item)] → ItemOK ctx it := by
      intro it h2
      simp only [List.mem_singleton] at h2
      subst h2
      exact ⟨hrule, fun _ => Nat.zero_le 1⟩
    have := closure_ok ctx cfuel [{ rule := acceptRule, dot := 0 }] hit
    exact ⟨this.1, this.2⟩

theorem assignItemLookaheads_ok (ctx : GenCtx) (fw : FollowSt) (states : List St)
    (h : ∀ st, st ∈ states → StOK ctx st) :
    ∀ st, st ∈ assignItemLookaheads fw states → StOK ctx st := by
  intro st hmem
  simp only [assignItemLookaheads, List.mem_map] at hmem
  obtain ⟨st0, h0, he⟩ := hmem
  subst he
  obtain ⟨h1, h2⟩ := h st0 h0
  refine ⟨h1, ?_⟩
  intro it hmem2
  simp only [List.mem_map] at hmem2
  obtain ⟨it0, hit0, he2⟩ := hmem2
  obtain ⟨⟨hr, hd⟩, hn⟩ := h2 it0 hit0
  subst he2
  match alookup fw it0.rule.type with
  | some fo => exact ⟨⟨hr, hd⟩, hn⟩
  | none => exact ⟨⟨hr, hd⟩, hn⟩

theorem reduction_id_ne_zero (ctx : GenCtx) (st : St)
    (hyp0 : ∀ r, r ∈ ctx.rules → r.id = 0 → r.symbols = [ctx.start, "$end"])
    (hstart : ctx.start ≠ "")
    (hst : StOK ctx st) :
    ∀ it, it ∈ st.reductions → it.rule.id ≠ 0 := by
  intro it hmem h0
  obtain ⟨⟨hr, hd⟩, hn⟩ := hst.2 it hmem
  have hd1 := hd h0
  have hsy := hyp0 it.rule hr h0
  simp only [Item.next, hsy] at hn
  match hdot : it.dot with
  | 0 => rw [hdot] at hn; exact hstart hn
  | 1 =>
    rw [hdot] at hn
    have hend : ("$end" : String) = "" := hn
    exact absurd hend (by decide)
  | n + 2 => omega

/-- The C10 row invariant: no reduce of the accept rule, and accept cells
only where `Q` grants them. -/
def RowOK (Q : Nat → Prop) (row : Row) : Prop :=
  (∀ sid, rowGet row sid ≠ some (Cell.reduce 0))
  ∧ (∀ sid, rowGet row sid = some Cell.accept → Q sid)

theorem rowOK_rowSet (Q : Nat → Prop) (row : Row) (sid : Nat) (c : Cell)
    (h : RowOK Q row) (h1 : c ≠ Cell.reduce 0) (h2 : c = Cell.accept → Q sid) :
    RowOK Q (rowSet row sid c) := by
  constructor
  · intro j hj
    by_cases hje : j = sid
    · subst hje
      rw [rowGet_rowSet_self] at hj
      exact h1 (Option.some.inj hj)
    · rw [rowGet_rowSet_other row sid j c hje] at hj
      exact h.1 j hj
  · intro j hj
    by_cases hje : j = sid
    · subst hje
      rw [rowGet_rowSet_self] at hj
      exact h2 (Option.some.inj hj)
    · rw [rowGet_rowSet_other row sid j c hje] at hj
      exact h.2 j hj

theorem resolveConflict_act_cases (rule : Rule) (op : Option OpInfo) (rid : Nat)
    (c a : Cell)
    (h : (resolveConflict rule op rid c).action = RAction.act a) :
    a = c ∨ a = Cell.reduce rid := by
  unfold resolveConflict at h
  split at h
  · rename_i rid2
    by_cases hlt : rid2 < rid
    · rw [if_pos hlt] at h
      injection h with h2
      exact Or.inl h2.symm
    · rw [if_neg hlt] at h
      injection h with h2
      exact Or.inr h2.symm
  · rename_i w hnr
    split at h
    · injection h with h2; exact Or.inl h2.symm
    · split at h
      · injection h with h2; exact Or.inl h2.symm
      · split at h
        · injection h with h2; exact Or.inl h2.symm
        · split at h
          · split at h
            · injection h with h2; exact Or.inl h2.symm
            · injection h with h2; exact Or.inr h2.symm
            · injection h
            · injection h with h2; exact Or.inl h2.symm
          · injection h with h2; exact Or.inr h2.symm

theorem processLookahead_ok (ctx : TblCtx) (k : Nat) (rule : Rule)
    (la : String) (acc : TblAcc) (Q : Nat → Prop)
    (hrid : rule.id ≠ 0)
    (h : RowOK Q acc.row) :
    RowOK Q (processLookahead ctx k rule la acc).row := by
  match hsid : alookup ctx.symbolIds la with
  | none => simpa only [processLookahead, hsid] using h
  | some sid =>
    have hred0 : Cell.reduce rule.id ≠ Cell.reduce 0 :=
      fun he => hrid (Cell.reduce.inj he)
    have hredacc : Cell.reduce rule.id = Cell.accept → Q sid :=
      fun he => Cell.noConfusion he
    match hc : rowGet acc.row sid with
    | some c =>
      by_cases htr : c.truthy = true
      · have hkeep := rowOK_rowSet Q acc.row sid c h
          (fun he => h.1 sid (he ▸ hc)) (fun he => h.2 sid (he ▸ hc))
        by_cases hbd : (resolveConflict rule (alookup ctx.operators la) rule.id c).bydefault
            = true
        · simp only [processLookahead, hsid, hc, htr, hbd, if_true]
          split
          · exact hkeep
          · exact hkeep
        · have hbd2 : (resolveConflict rule (alookup ctx.operators la) rule.id c).bydefault
              = false := by
            revert hbd
            cases (resolveConflict rule (alookup ctx.operators la) rule.id c).bydefault <;>
              simp
          simp only [processLookahead, hsid, hc, htr, hbd2, Bool.false_eq_true, if_false,
            if_true]
          match hact : (resolveConflict rule (alookup ctx.operators la) rule.id c).action with
          | RAction.act a =>
            rcases resolveConflict_act_cases rule (alookup ctx.operators la) rule.id c a
                hact with hcase | hcase
            · subst hcase
              exact hkeep
            · subst hcase
              exact rowOK_rowSet Q acc.row sid (Cell.reduce rule.id) h hred0 hredacc
          | RAction.nonassoc =>
            exact rowOK_rowSet Q acc.row sid Cell.undef h
              (fun he => Cell.noConfusion he) (fun he => Cell.noConfusion he)
      · have htr2 : c.truthy = false := by
          revert htr
          cases c.truthy <;> simp
        simp only [processLookahead, hsid, hc, htr2, Bool.false_eq_true, if_false]
        exact rowOK_rowSet Q acc.row sid (Cell.reduce rule.id) h hred0 hredacc
    | none =>
      simp only [processLookahead, hsid, hc]
      exact rowOK_rowSet Q acc.row sid (Cell.reduce rule.id) h hred0 hredacc

theorem foldLA_ok (ctx : TblCtx) (k : Nat) (rule : Rule) (Q : Nat → Prop)
    (hrid : rule.id ≠ 0) (las : List String) :
    ∀ acc : TblAcc, RowOK Q acc.row →
      RowOK Q (las.foldl (fun acc la => processLookahead ctx k rule la acc) acc).row := by
  induction las with
  | nil => intro acc h; exact h
  | cons la rest ih =>
    intro acc h
    exact ih _ (processLookahead_ok ctx k rule la acc Q hrid h)

theorem foldRed_ok (ctx : TblCtx) (k : Nat) (Q : Nat → Prop) (reds : List Item)
    (hrid : ∀ it, it ∈ reds → it.rule.id ≠ 0) :
    ∀ acc : TblAcc, RowOK Q acc.row →
      RowOK Q ((reds.foldl (fun acc it =>
        it.lookaheads.foldl (fun acc la => processLookahead ctx k it.rule la acc) acc)
          acc)).row := by
  induction reds with
  | nil => intro acc h; exact h
  | cons it rest ih =>
    intro acc h
    exact ih (fun j hj => hrid j (List.mem_cons_of_mem _ hj)) _
      (foldLA_ok ctx k it.rule Q (hrid it (List.mem_cons_self _ _)) it.lookaheads acc h)

theorem rowTrans_ok (ctx : GenCtx) (Q : Nat → Prop) (trs : List (String × Nat)) :
    ∀ row, RowOK Q row →
      RowOK Q (trs.foldl (fun row (tr : String × Nat) =>
        match alookup ctx.symbolIds tr.1 with
        | none => row
        | some sid =>
          rowSet row sid (if isType ctx tr.1 then Cell.goto tr.2 else Cell.shift tr.2)) row) := by
  induction trs with
  | nil => intro row h; exact h
  | cons tr rest ih =>
    intro row h
    have hstep : RowOK Q (match alookup ctx.symbolIds tr.1 with
        | none => row
        | some sid =>
          rowSet row sid (if isType ctx tr.1 then Cell.goto tr.2 else Cell.shift tr.2)) := by
      match alookup ctx.symbolIds tr.1 with
      | none => exact h
      | some sid =>
        by_cases hty : isType ctx tr.1
        · rw [if_pos hty]
          exact rowOK_rowSet Q row sid (Cell.goto tr.2) h
            (fun he => Cell.noConfusion he) (fun he => Cell.noConfusion he)
        · rw [if_neg hty]
          exact rowOK_rowSet Q row sid (Cell.shift tr.2) h
            (fun he => Cell.noConfusion he) (fun he => Cell.noConfusion he)
    exact ih _ hstep

theorem rowAccept_ok (ctx : GenCtx) (Q : Nat → Prop) (items : List Item)
    (hQ : ∀ it, it ∈ items → it.next = "$end" →
        ∀ sid, alookup ctx.symbolIds "$end" = some sid → Q sid) :
    ∀ l : List Item, (∀ it, it ∈ l → it ∈ items) → ∀ row, RowOK Q row →
      RowOK Q (l.foldl (fun row it =>
        if it.next = "$end" then
          match alookup ctx.symbolIds "$end" with
          | some sid => rowSet row sid Cell.accept
          | none => row
        else row) row) := by
  intro l
  induction l with
  | nil => intro _ row h; exact h
  | cons it rest ih =>
    intro hsub row h
    have hstep : RowOK Q (if it.next = "$end" then
        match alookup ctx.symbolIds "$end" with
        | some sid => rowSet row sid Cell.accept
        | none => row
      else row) := by
      by_cases hne : it.next = "$end"
      · rw [if_pos hne]
        match hs : alookup ctx.symbolIds "$end" with
        | some sid =>
          exact rowOK_rowSet Q row sid Cell.accept h
            (fun he => Cell.noConfusion he)
            (fun _ => hQ it (hsub it (List.mem_cons_self _ _)) hne sid hs)
        | none => exact h
      · rw [if_neg hne]
        exact h
    exact ih (fun j hj => hsub j (List.mem_cons_of_mem _ hj)) _ hstep

theorem rowOK_nil (Q : Nat → Prop) : RowOK Q [] :=
  ⟨fun _ hj => Option.noConfusion hj, fun _ hj => Option.noConfusion hj⟩

/-- The accept-cell grant for a state: the cell sits under the id of
`$end` and the state holds an item expecting `$end`. -/
def Qof (ctx : GenCtx) (st : St) : Nat → Prop := fun sid =>
  alookup ctx.symbolIds "$end" = some sid ∧ ∃ it, it ∈ st.items ∧ it.next = "$end"

theorem buildRow_ok (ctx : GenCtx) (k : Nat) (st : St) (conflicts : Nat)
    (details : List ConflictRec)
    (hred : ∀ it, it ∈ st.reductions → it.rule.id ≠ 0) :
    RowOK (Qof ctx st) (buildRow ctx k st conflicts details).1 := by
  simp only [buildRow]
  apply foldRed_ok (tblCtxOf ctx) k (Qof ctx st) st.reductions hred
  show RowOK (Qof ctx st) (st.items.foldl _ _)
  apply rowAccept_ok ctx (Qof ctx st) st.items
    (fun it hit hne sid hs => ⟨hs, it, hit, hne⟩) st.items (fun _ hj => hj)
  exact rowTrans_ok ctx (Qof ctx st) st.transitions [] (rowOK_nil _)

theorem bpt_fold_ok (ctx : GenCtx) (states : List St) :
    ∀ (suffix : List St) (acc : List Row × Nat × List ConflictRec),
      (∀ st, st ∈ suffix → ∀ it, it ∈ st.reductions → it.rule.id ≠ 0) →
      (∀ i, states.get? (acc.1.length + i) = suffix.get? i) →
      (∀ i row, acc.1.get? i = some row →
        ∃ st, states.get? i = some st ∧ RowOK (Qof ctx st) row) →
      ∀ i row,
        (suffix.foldl (fun (acc : List Row × Nat × List ConflictRec) st =>
          let (row, c2, d2) := buildRow ctx acc.1.length st acc.2.1 acc.2.2
          (acc.1 ++ [row], c2, d2)) acc).1.get? i = some row →
        ∃ st, states.get? i = some st ∧ RowOK (Qof ctx st) row := by
  intro suffix
  induction suffix with
  | nil => intro acc _ _ hprev i row h; exact hprev i row h
  | cons st rest ih =>
    intro acc hred hrel hprev i row h
    rw [List.foldl_cons] at h
    have h2 : (List.foldl (fun (acc : List Row × Nat × List ConflictRec) st =>
        let (row, c2, d2) := buildRow ctx acc.1.length st acc.2.1 acc.2.2
        (acc.1 ++ [row], c2, d2))
        (acc.1 ++ [(buildRow ctx acc.1.length st acc.2.1 acc.2.2).1],
         (buildRow ctx acc.1.length st acc.2.1 acc.2.2).2.1,
         (buildRow ctx acc.1.length st acc.2.1 acc.2.2).2.2) rest).1.get? i = some row := h
    refine ih _ (fun s hs => hred s (List.mem_cons_of_mem _ hs)) ?_ ?_ i row h2
    · intro j
      have := hrel (j + 1)
      simp only [List.length_append, List.length_singleton]
      rw [show acc.1.length + 1 + j = acc.1.length + (j + 1) by omega]
      exact this
    · intro j rowj hj
      rcases Nat.lt_trichotomy j acc.1.length with hlt | heq | hgt
      · rw [List.get?_append hlt] at hj
        exact hprev j rowj hj
      · subst heq
        rw [List.get?_concat_length] at hj
        have hst : states.get? acc.1.length = some st := by
          have := hrel 0
          simpa using this
        refine ⟨st, hst, ?_⟩
        have hrow := buildRow_ok ctx acc.1.length st acc.2.1 acc.2.2
          (hred st (List.mem_cons_self _ _))
        rw [Option.some.inj hj] at hrow
        exact hrow
      · exfalso
        have hj2 : (acc.1 ++ [(buildRow ctx acc.1.length st acc.2.1 acc.2.2).1]).get? j
            = some rowj := hj
        have hlen : (acc.1 ++ [(buildRow ctx acc.1.length st acc.2.1 acc.2.2).1]).length
            ≤ j := by
          simp only [List.length_append, List.length_singleton]
          omega
        rw [List.get?_eq_none.mpr hlen] at hj2
        exact Option.noConfusion hj2

theorem buildParseTable_ok (ctx : GenCtx) (states : List St)
    (hred : ∀ st, st ∈ states → ∀ it, it ∈ st.reductions → it.rule.id ≠ 0) :
    ∀ i row, (buildParseTable ctx states).1.get? i = some row →
      ∃ st, states.get? i = some st ∧ RowOK (Qof ctx st) row := by
  intro i row h
  refine bpt_fold_ok ctx states states ([], 0, []) hred ?_ ?_ i row h
  · intro j
    simp [List.length_nil]
  · intro j rowj hj
    exact Option.noConfusion hj

theorem alookup_aset_other {β : Type} (l : List (String × β)) (k key : String) (v : β)
    (h : key ≠ k) : alookup (aset l k v) key = alookup l key := by
  induction l with
  | nil =>
    simp only [aset, alookup]
    rw [if_neg (fun he => h he.symm)]
  | cons hd rest ih =>
    obtain ⟨k0, v0⟩ := hd
    simp only [aset]
    by_cases hk : k0 = k
    · rw [if_pos hk]
      simp only [alookup]
      rw [if_neg (fun he => h (hk ▸ he).symm), if_neg (fun he => h (hk ▸ he).symm)]
    · rw [if_neg hk]
      simp only [alookup]
      by_cases hk2 : k0 = key
      · rw [if_pos hk2, if_pos hk2]
      · rw [if_neg hk2, if_neg hk2]
        exact ih

theorem alookup_fAdd_other (fw : FollowSt) (k key : String) (xs : List String)
    (h : key ≠ k) : alookup (fAdd fw k xs) key = alookup fw key :=
  alookup_aset_other fw k key _ h

theorem followStep_acc (ctx : GenCtx) (ns : NullSt) (tf : List (String × List String))
    (rule : Rule) (i : Nat) (p : FollowSt × Bool)
    (hacc : "$accept" ∉ rule.symbols) :
    alookup (followStep ctx ns tf rule i p).1 "$accept" = alookup p.1 "$accept" := by
  obtain ⟨fw, ch⟩ := p
  rcases hget : rule.symbols.get? i with _ | symbol
  · simp only [followStep, hget]
  · have hsym : ("$accept" : String) ≠ symbol :=
      fun he => hacc (he ▸ List.get?_mem hget)
    by_cases hty : isType ctx symbol
    · by_cases hlast : i = rule.symbols.length - 1
      · simp only [followStep, hget, hty, if_true, if_pos hlast]
        exact alookup_fAdd_other fw symbol _ _ hsym
      · by_cases hnul : isNullableSeq ns.typeN (rule.symbols.drop (i + 1)) = true
        · simp only [followStep, hget, hty, if_true, if_neg hlast, hnul]
          rw [alookup_fAdd_other _ _ _ _ hsym, alookup_fAdd_other _ _ _ _ hsym]
        · have hnul2 : isNullableSeq ns.typeN (rule.symbols.drop (i + 1)) = false := by
            revert hnul
            cases isNullableSeq ns.typeN (rule.symbols.drop (i + 1)) <;> simp
          simp only [followStep, hget, hty, if_true, if_neg hlast, hnul2,
            Bool.false_eq_true, if_false]
          exact alookup_fAdd_other fw symbol _ _ hsym
    · have hty2 : isType ctx symbol = false := by
        revert hty
        cases isType ctx symbol <;> simp
      simp only [followStep, hget, hty2, Bool.false_eq_true, if_false]

theorem followPass_acc (ctx : GenCtx) (ns : NullSt) (tf : List (String × List String))
    (fw : FollowSt)
    (hacc : ∀ r, r ∈ ctx.rules → "$accept" ∉ r.symbols) :
    alookup (followPass ctx ns tf fw).1 "$accept" = alookup fw "$accept" := by
  simp only [followPass]
  have hgen : ∀ (l : List Rule), (∀ r, r ∈ l → "$accept" ∉ r.symbols) →
      ∀ (p : FollowSt × Bool),
      alookup (l.foldl (fun p rule =>
        (List.range rule.symbols.length).foldl
          (fun p i => followStep ctx ns tf rule i p) p) p).1 "$accept"
      = alookup p.1 "$accept" := by
    intro l
    induction l with
    | nil => intro _ p; rfl
    | cons r rest ih =>
      intro hl p
      rw [List.foldl_cons, ih (fun r2 h2 => hl r2 (List.mem_cons_of_mem _ h2))]
      have hrange : ∀ (rng : List Nat) (p2 : FollowSt × Bool),
          alookup (rng.foldl (fun p i => followStep ctx ns tf r i p) p2).1 "$accept"
          = alookup p2.1 "$accept" := by
        intro rng
        induction rng with
        | nil => intro p2; rfl
        | cons j rj ihr =>
          intro p2
          rw [List.foldl_cons, ihr]
          exact followStep_acc ctx ns tf r j p2 (hl r (List.mem_cons_self _ _))
      exact hrange _ p
  exact hgen ctx.rules hacc (fw, false)

theorem followLoop_acc (ctx : GenCtx) (ns : NullSt) (tf : List (String × List String))
    (hacc : ∀ r, r ∈ ctx.rules → "$accept" ∉ r.symbols) :
    ∀ (fuel : Nat) (fw : FollowSt),
      alookup (followLoop ctx ns tf fuel fw) "$accept" = alookup fw "$accept" := by
  intro fuel
  induction fuel with
  | zero => intro fw; rfl
  | succ fuel ih =>
    intro fw
    simp only [followLoop]
    by_cases hch : (followPass ctx ns tf fw).2 = true
    · rw [if_pos hch, ih]
      exact followPass_acc ctx ns tf fw hacc
    · rw [if_neg hch]
      exact followPass_acc ctx ns tf fw hacc

theorem alookup_map_mk {β : Type} (l : List String) (f : String → β) (k : String)
    (h : k ∈ l) :
    alookup (l.map (fun t => (t, f t))) k = some (f k) := by
  induction l with
  | nil => exact absurd h (List.not_mem_nil k)
  | cons x rest ih =>
    simp only [List.map_cons, alookup]
    by_cases hx : x = k
    · rw [if_pos hx, hx]
    · rw [if_neg hx]
      exact ih (List.mem_of_ne_of_mem (fun he => hx he.symm) h)

theorem followInit_acc (ctx : GenCtx) (haccT : "$accept" ∈ ctx.typeNames)
    (hsa : ctx.start ≠ "$accept") :
    alookup (followInit ctx) "$accept" = some [] := by
  simp only [followInit]
  rw [alookup_map_mk ctx.typeNames _ "$accept" haccT]
  rw [if_neg (fun he => hsa he.symm)]

theorem next_end_item (ctx : GenCtx) (it : Item)
    (hyp0 : ∀ r, r ∈ ctx.rules → r.id = 0 → r.symbols = [ctx.start, "$end"])
    (hend : ∀ r, r ∈ ctx.rules → "$end" ∈ r.symbols → r.id = 0)
    (hse : ctx.start ≠ "$end")
    (hr : it.rule ∈ ctx.rules) (hn : it.next = "$end") :
    it.rule.id = 0 ∧ it.dot = 1 := by
  have hget : it.rule.symbols.get? it.dot = some "$end" := by
    simp only [Item.next, List.getD] at hn
    match hgo : it.rule.symbols.get? it.dot with
    | none =>
      rw [hgo] at hn
      exact absurd hn (by decide)
    | some s =>
      rw [hgo] at hn
      simp only [Option.getD] at hn
      rw [hn]
  have hmem : "$end" ∈ it.rule.symbols := List.get?_mem hget
  have h0 := hend it.rule hr hmem
  have hsy := hyp0 it.rule hr h0
  refine ⟨h0, ?_⟩
  rw [hsy] at hget
  match hd : it.dot with
  | 0 =>
    rw [hd] at hget
    simp only [List.get?_cons_zero, Option.some.injEq] at hget
    exact absurd hget hse
  | 1 => rfl
  | n + 2 =>
    rw [hd] at hget
    simp only [List.get?_cons_succ, List.get?_cons_succ, List.get?_nil] at hget
    exact Option.noConfusion hget

/-- C10: no parse-table entry is ever a reduce of the synthesized accept
rule (rule id 0).  FOLLOW(`$accept`) is never seeded or grown (its set
stays empty through the whole FOLLOW fixed point), no state has a
reduction item of rule 0 (so no lookahead ever installs such a reduce),
and every accept cell of the table sits under the symbol id of `$end` in
a row whose state holds the item with the dot before `$end` of the accept
rule (`[$accept -> start . $end]`).  The side conditions are facts of the
augmented grammar: rule 0 is `$accept -> start $end`, only rule 0 mentions
`$end`, no rule mentions `$accept`, and the start symbol is a real name
distinct from the synthesized ones. -/
theorem c10_no_accept_reduce (g : GrammarIn) (fuel : Nat) (out : GenOut)
    (hgen : generate g fuel = some out)
    (hyp0 : ∀ r, r ∈ out.ctx.rules → r.id = 0 → r.symbols = [out.ctx.start, "$end"])
    (hstart : out.ctx.start ≠ "")
    (hse : out.ctx.start ≠ "$end")
    (hsa : out.ctx.start ≠ "$accept")
    (hend : ∀ r, r ∈ out.ctx.rules → "$end" ∈ r.symbols → r.id = 0)
    (haccS : ∀ r, r ∈ out.ctx.rules → "$accept" ∉ r.symbols)
    (haccT : "$accept" ∈ out.ctx.typeNames) :
    alookup out.follows "$accept" = some []
    ∧ (∀ st, st ∈ out.states → ∀ it, it ∈ st.reductions → it.rule.id ≠ 0)
    ∧ (∀ i row, out.table.get? i = some row →
        (∀ sid, rowGet row sid ≠ some (Cell.reduce 0))
        ∧ (∀ sid, rowGet row sid = some Cell.accept →
            alookup out.ctx.symbolIds "$end" = some sid
            ∧ ∃ st, out.states.get? i = some st
              ∧ ∃ it, it ∈ st.items ∧ it.next = "$end"
                ∧ it.rule.id = 0 ∧ it.dot = 1)) := by
  match hpg : processGrammar g with
  | none =>
    rw [generate, hpg] at hgen
    exact Option.noConfusion hgen
  | some ctx =>
    simp only [generate, hpg] at hgen
    obtain rfl := Option.some.inj hgen
    have hyp0' : ∀ r, r ∈ ctx.rules → r.id = 0 → r.symbols = [ctx.start, "$end"] := hyp0
    have hstart' : ctx.start ≠ "" := hstart
    have hse' : ctx.start ≠ "$end" := hse
    have hsa' : ctx.start ≠ "$accept" := hsa
    have hend' : ∀ r, r ∈ ctx.rules → "$end" ∈ r.symbols → r.id = 0 := hend
    have haccS' : ∀ r, r ∈ ctx.rules → "$accept" ∉ r.symbols := haccS
    have haccT' : "$accept" ∈ ctx.typeNames := haccT
    have hauto := buildLRAutomaton_ok ctx fuel fuel hyp0'
    have hstates := assignItemLookaheads_ok ctx
      (followLoop ctx (nullableLoop ctx fuel (nullableInit ctx))
        (firstLoop ctx (nullableLoop ctx fuel (nullableInit ctx)) fuel (firstInit ctx)).typeF
        fuel (followInit ctx))
      (buildLRAutomaton ctx fuel fuel).states hauto
    have hred : ∀ st, st ∈ assignItemLookaheads
        (followLoop ctx (nullableLoop ctx fuel (nullableInit ctx))
          (firstLoop ctx (nullableLoop ctx fuel (nullableInit ctx)) fuel (firstInit ctx)).typeF
          fuel (followInit ctx))
        (buildLRAutomaton ctx fuel fuel).states →
        ∀ it, it ∈ st.reductions → it.rule.id ≠ 0 :=
      fun st hmem it hit =>
        reduction_id_ne_zero ctx st hyp0' hstart' (hstates st hmem) it hit
    refine ⟨?_, ?_, ?_⟩
    · exact Eq.trans
        (followLoop_acc ctx (nullableLoop ctx fuel (nullableInit ctx))
          (firstLoop ctx (nullableLoop ctx fuel (nullableInit ctx)) fuel
            (firstInit ctx)).typeF haccS' fuel (followInit ctx))
        (followInit_acc ctx haccT' hsa')
    · exact hred
    · intro i row hrow
      obtain ⟨st, hst, hrok⟩ := buildParseTable_ok ctx
        (assignItemLookaheads
          (followLoop ctx (nullableLoop ctx fuel (nullableInit ctx))
            (firstLoop ctx (nullableLoop ctx fuel (nullableInit ctx)) fuel
              (firstInit ctx)).typeF fuel (followInit ctx))
          (buildLRAutomaton ctx fuel fuel).states) hred i row hrow
      refine ⟨hrok.1, ?_⟩
      intro sid haccCell
      obtain ⟨hsid, it, hit, hne⟩ := hrok.2 sid haccCell
      have hstok := hstates st (List.get?_mem hst)
      obtain ⟨h0, hd1⟩ := next_end_item ctx it hyp0' hend' hse' ((hstok.1 it hit).1) hne
      exact ⟨hsid, st, hst, it, hit, hne, h0, hd1⟩

def genD : GenOut :=
  match generate gD 50 with
  | some o => o
  | none =>
    { ctx := ⟨[], [], "", [], [], [], []⟩, states := [], nulls := ⟨[], []⟩,
      firsts := ⟨[], []⟩, follows := [], table := [], conflicts := 0,
      details := [], defaults := [], optimized := [] }

/-- Witness for C10: the theorem instantiated on the generated output of
scenario D, every side condition checked by evaluation. -/
theorem c10_witness :
    alookup genD.follows "$accept" = some []
    ∧ (∀ st, st ∈ genD.states → ∀ it, it ∈ st.reductions → it.rule.id ≠ 0)
    ∧ (∀ i row, genD.table.get? i = some row →
        (∀ sid, rowGet row sid ≠ some (Cell.reduce 0))
        ∧ (∀ sid, rowGet row sid = some Cell.accept →
            alookup genD.ctx.symbolIds "$end" = some sid
            ∧ ∃ st, genD.states.get? i = some st
              ∧ ∃ it, it ∈ st.items ∧ it.next = "$end"
                ∧ it.rule.id = 0 ∧ it.dot = 1)) :=
  c10_no_accept_reduce gD 50 genD rfl (by decide) (by decide) (by decide) (by decide)
    (by decide) (by decide) (by decide)

/-! ### C7: the FOLLOW fixed point satisfies the SLR closure conditions -/

theorem mem_insertNew_left (s : List String) (y x : String) (h : x ∈ s) :
    x ∈ insertNew s y := by
  simp only [insertNew]
  split
  · exact h
  · exact List.mem_append_left _ h

theorem insertNew_len_ge (s : List String) (y : String) :
    s.length ≤ (insertNew s y).length := by
  simp only [insertNew]
  split
  · exact Nat.le_refl _
  · simp

theorem addAll_len_ge (xs : List String) :
    ∀ s : List String, s.length ≤ (addAll s xs).length := by
  induction xs with
  | nil => intro s; exact Nat.le_refl _
  | cons x rest ih =>
    intro s
    exact Nat.le_trans (insertNew_len_ge s x) (ih (insertNew s x))

theorem mem_addAll_left (xs : List String) :
    ∀ (s : List String) (x : String), x ∈ s → x ∈ addAll s xs := by
  induction xs with
  | nil => intro s x h; exact h
  | cons y rest ih =>
    intro s x h
    exact ih (insertNew s y) x (mem_insertNew_left s y x h)

theorem addAll_eq_of_len_le (xs : List String) :
    ∀ s : List String, (addAll s xs).length ≤ s.length → addAll s xs = s := by
  induction xs with
  | nil => intro s _; rfl
  | cons y rest ih =>
    intro s hlen
    by_cases hy : y ∈ s
    · have hins : insertNew s y = s := by simp [insertNew, hy]
      have : addAll s rest = s := by
        apply ih
        rw [show addAll s (y :: rest) = addAll (insertNew s y) rest from rfl, hins] at hlen
        exact hlen
      rw [show addAll s (y :: rest) = addAll (insertNew s y) rest from rfl, hins]
      exact this
    · exfalso
      have hins : insertNew s y = s ++ [y] := by simp [insertNew, hy]
      have h1 : (addAll (insertNew s y) rest).length ≥ (insertNew s y).length :=
        addAll_len_ge rest (insertNew s y)
      rw [hins] at h1
      simp only [List.length_append, List.length_singleton] at h1
      rw [show addAll s (y :: rest) = addAll (insertNew s y) rest from rfl, hins] at hlen
      omega

theorem mem_of_addAll_eq (xs : List String) :
    ∀ s : List String, addAll s xs = s → ∀ x, x ∈ xs → x ∈ s := by
  induction xs with
  | nil => intro s _ x hx; exact absurd hx (List.not_mem_nil x)
  | cons y rest ih =>
    intro s heq x hx
    have hy : y ∈ s := by
      by_contra hy
      have hins : insertNew s y = s ++ [y] := by simp [insertNew, hy]
      have h1 : (addAll (insertNew s y) rest).length ≥ (insertNew s y).length :=
        addAll_len_ge rest (insertNew s y)
      have h2 : addAll (insertNew s y) rest = s := heq
      rw [h2, hins] at h1
      simp only [List.length_append, List.length_singleton] at h1
      omega
    have hins : insertNew s y = s := by simp [insertNew, hy]
    rcases List.mem_cons.mp hx with h2 | h2
    · exact h2 ▸ hy
    · exact ih s (by rw [show addAll s (y :: rest) = addAll (insertNew s y) rest from rfl,
        hins] at heq; exact heq) x h2

theorem alookup_aset_self {β : Type} (l : List (String × β)) (k : String) (v : β) :
    alookup (aset l k v) k = some v := by
  induction l with
  | nil => simp [aset, alookup]
  | cons hd rest ih =>
    obtain ⟨k0, v0⟩ := hd
    simp only [aset]
    by_cases hk : k0 = k
    · rw [if_pos hk]
      simp [alookup, hk]
    · rw [if_neg hk]
      simp only [alookup]
      rw [if_neg hk]
      exact ih

theorem aset_self {β : Type} (l : List (String × β)) (k : String) (v : β)
    (h : alookup l k = some v) : aset l k v = l := by
  induction l with
  | nil => exact Option.noConfusion h
  | cons hd rest ih =>
    obtain ⟨k0, v0⟩ := hd
    simp only [alookup] at h
    simp only [aset]
    by_cases hk : k0 = k
    · rw [if_pos hk]
      rw [if_pos hk] at h
      rw [Option.some.inj h]
    · rw [if_neg hk]
      rw [if_neg hk] at h
      rw [ih h]

theorem alookup_fAdd_self (fw : FollowSt) (k : String) (xs : List String) :
    alookup (fAdd fw k xs) k = some (addAll ((alookup fw k).getD []) xs) :=
  alookup_aset_self fw k _

theorem fAdd_mono (fw : FollowSt) (key k : String) (xs : List String) (x : String)
    (h : x ∈ (alookup fw k).getD []) :
    x ∈ (alookup (fAdd fw key xs) k).getD [] := by
  by_cases hk : k = key
  · subst hk
    rw [alookup_fAdd_self]
    simp only [Option.getD]
    exact mem_addAll_left xs _ x h
  · rw [alookup_fAdd_other fw key k xs hk]
    exact h

theorem followStep_mono (ctx : GenCtx) (ns : NullSt) (tf : List (String × List String))
    (rule : Rule) (i : Nat) (p : FollowSt × Bool) (k x : String)
    (h : x ∈ (alookup p.1 k).getD []) :
    x ∈ (alookup (followStep ctx ns tf rule i p).1 k).getD [] := by
  obtain ⟨fw, ch⟩ := p
  rcases hget : rule.symbols.get? i with _ | symbol
  · simpa only [followStep, hget] using h
  · by_cases hty : isType ctx symbol
    · by_cases hlast : i = rule.symbols.length - 1
      · simp only [followStep, hget, hty, if_true, if_pos hlast]
        exact fAdd_mono fw symbol k _ x h
      · by_cases hnul : isNullableSeq ns.typeN (rule.symbols.drop (i + 1)) = true
        · simp only [followStep, hget, hty, if_true, if_neg hlast, hnul]
          exact fAdd_mono _ symbol k _ x (fAdd_mono fw symbol k _ x h)
        · have hnul2 : isNullableSeq ns.typeN (rule.symbols.drop (i + 1)) = false := by
            revert hnul
            cases isNullableSeq ns.typeN (rule.symbols.drop (i + 1)) <;> simp
          simp only [followStep, hget, hty, if_true, if_neg hlast, hnul2,
            Bool.false_eq_true, if_false]
          exact fAdd_mono fw symbol k _ x h
    · have hty2 : isType ctx symbol = false := by
        revert hty
        cases isType ctx symbol <;> simp
      simpa only [followStep, hget, hty2, Bool.false_eq_true, if_false] using h

theorem followPass_mono (ctx : GenCtx) (ns : NullSt) (tf : List (String × List String))
    (fw : FollowSt) (k x : String)
    (h : x ∈ (alookup fw k).getD []) :
    x ∈ (alookup (followPass ctx ns tf fw).1 k).getD [] := by
  simp only [followPass]
  have hgen : ∀ (l : List Rule) (p : FollowSt × Bool),
      x ∈ (alookup p.1 k).getD [] →
      x ∈ (alookup (l.foldl (fun p rule =>
        (List.range rule.symbols.length).foldl
          (fun p i => followStep ctx ns tf rule i p) p) p).1 k).getD [] := by
    intro l
    induction l with
    | nil => intro p hp; exact hp
    | cons r rest ih =>
      intro p hp
      rw [List.foldl_cons]
      apply ih
      have hrange : ∀ (rng : List Nat) (p2 : FollowSt × Bool),
          x ∈ (alookup p2.1 k).getD [] →
          x ∈ (alookup (rng.foldl (fun p i => followStep ctx ns tf r i p) p2).1 k).getD [] := by
        intro rng
        induction rng with
        | nil => intro p2 hp2; exact hp2
        | cons j rj ihr =>
          intro p2 hp2
          rw [List.foldl_cons]
          exact ihr _ (followStep_mono ctx ns tf r j p2 k x hp2)
      exact hrange _ p hp
  exact hgen ctx.rules (fw, false) h

theorem followLoop_mono (ctx : GenCtx) (ns : NullSt) (tf : List (String × List String))
    (k x : String) :
    ∀ (fuel : Nat) (fw : FollowSt), x ∈ (alookup fw k).getD [] →
      x ∈ (alookup (followLoop ctx ns tf fuel fw) k).getD [] := by
  intro fuel
  induction fuel with
  | zero => intro fw h; exact h
  | succ fuel ih =>
    intro fw h
    simp only [followLoop]
    by_cases hch : (followPass ctx ns tf fw).2 = true
    · rw [if_pos hch]
      exact ih _ (followPass_mono ctx ns tf fw k x h)
    · rw [if_neg hch]
      exact followPass_mono ctx ns tf fw k x h

/-- The SLR inclusion contributed by position `i` of `rule` once the FOLLOW
state is a fixed point. -/
def StepIncl (ctx : GenCtx) (ns : NullSt) (tf : List (String × List String))
    (fw : FollowSt) (rule : Rule) (i : Nat) : Prop :=
  ∀ X, rule.symbols.get? i = some X → isType ctx X = true →
    ((i = rule.symbols.length - 1 →
        ∀ x, x ∈ (alookup fw rule.type).getD [] → x ∈ (alookup fw X).getD [])
     ∧ (i ≠ rule.symbols.length - 1 →
        (∀ x, x ∈ computeFirstSeq ctx ns tf (rule.symbols.drop (i + 1)) →
            x ∈ (alookup fw X).getD [])
        ∧ (isNullableSeq ns.typeN (rule.symbols.drop (i + 1)) = true →
            ∀ x, x ∈ (alookup fw rule.type).getD [] → x ∈ (alookup fw X).getD [])))

theorem followStep_fix (ctx : GenCtx) (ns : NullSt) (tf : List (String × List String))
    (rule : Rule) (i : Nat) (fw : FollowSt)
    (hkeys : ∀ s, isType ctx s = true → (alookup fw s).isSome = true)
    (hflag : (followStep ctx ns tf rule i (fw, false)).2 = false) :
    (followStep ctx ns tf rule i (fw, false)).1 = fw
    ∧ StepIncl ctx ns tf fw rule i := by
  rcases hget : rule.symbols.get? i with _ | symbol
  · refine ⟨by simp only [followStep, hget], ?_⟩
    intro X hX
    rw [hget] at hX
    exact absurd hX (fun he => Option.noConfusion he)
  · by_cases hty : isType ctx symbol
    · obtain ⟨ov, hov⟩ := Option.isSome_iff_exists.mp (hkeys symbol hty)
      by_cases hlast : i = rule.symbols.length - 1
      · simp only [followStep, hget, hty, if_true, if_pos hlast, hov, Option.getD_some,
          Bool.false_or] at hflag ⊢
        rw [alookup_fAdd_self, hov] at hflag
        simp only [Option.getD_some, decide_eq_false_iff_not, Nat.not_lt] at hflag
        have heq : addAll ov ((alookup fw rule.type).getD []) = ov :=
          addAll_eq_of_len_le _ ov hflag
        have hsub := mem_of_addAll_eq _ ov heq
        have hid : fAdd fw symbol ((alookup fw rule.type).getD []) = fw := by
          simp only [fAdd, hov, Option.getD_some, heq]
          exact aset_self fw symbol ov hov
        refine ⟨hid, ?_⟩
        intro X hX htyX
        rw [hget] at hX
        obtain rfl := Option.some.inj hX
        refine ⟨?_, ?_⟩
        · intro _ x hx
          rw [hov]
          exact hsub x hx
        · intro hne
          exact absurd hlast hne
      · by_cases hnul : isNullableSeq ns.typeN (rule.symbols.drop (i + 1)) = true
        · simp only [followStep, hget, hty, if_true, if_neg hlast, hnul, hov, Option.getD_some,
            Bool.false_or] at hflag ⊢
          rw [alookup_fAdd_self] at hflag
          rw [alookup_fAdd_self, hov] at hflag
          simp only [Option.getD_some, decide_eq_false_iff_not, Nat.not_lt] at hflag
          have h1 : (addAll ov (computeFirstSeq ctx ns tf (rule.symbols.drop (i + 1)))).length
              ≤ ov.length := by
            have := addAll_len_ge
              ((alookup (fAdd fw symbol (computeFirstSeq ctx ns tf
                (rule.symbols.drop (i + 1)))) rule.type).getD [])
              (addAll ov (computeFirstSeq ctx ns tf (rule.symbols.drop (i + 1))))
            omega
          have heq1 : addAll ov (computeFirstSeq ctx ns tf (rule.symbols.drop (i + 1))) = ov :=
            addAll_eq_of_len_le _ ov h1
          have hsub1 := mem_of_addAll_eq _ ov heq1
          have hida : fAdd fw symbol (computeFirstSeq ctx ns tf (rule.symbols.drop (i + 1)))
              = fw := by
            simp only [fAdd, hov, Option.getD_some, heq1]
            exact aset_self fw symbol ov hov
          rw [hida, heq1] at hflag
          have heq2 : addAll ov ((alookup fw rule.type).getD []) = ov :=
            addAll_eq_of_len_le _ ov hflag
          have hsub2 := mem_of_addAll_eq _ ov heq2
          have hid2 : fAdd fw symbol ((alookup fw rule.type).getD []) = fw := by
            simp only [fAdd, hov, Option.getD_some, heq2]
            exact aset_self fw symbol ov hov
          refine ⟨by rw [hida, hid2], ?_⟩
          intro X hX htyX
          rw [hget] at hX
          obtain rfl := Option.some.inj hX
          refine ⟨fun heq => absurd heq hlast, ?_⟩
          intro _
          refine ⟨?_, ?_⟩
          · intro x hx
            rw [hov]
            exact hsub1 x hx
          · intro _ x hx
            rw [hov]
            exact hsub2 x hx
        · have hnul2 : isNullableSeq ns.typeN (rule.symbols.drop (i + 1)) = false := by
            revert hnul
            cases isNullableSeq ns.typeN (rule.symbols.drop (i + 1)) <;> simp
          simp only [followStep, hget, hty, if_true, if_neg hlast, hnul2,
            Bool.false_eq_true, if_false, hov, Option.getD_some, Bool.false_or] at hflag ⊢
          rw [alookup_fAdd_self, hov] at hflag
          simp only [Option.getD_some, decide_eq_false_iff_not, Nat.not_lt] at hflag
          have heq : addAll ov (computeFirstSeq ctx ns tf (rule.symbols.drop (i + 1))) = ov :=
            addAll_eq_of_len_le _ ov hflag
          have hsub := mem_of_addAll_eq _ ov heq
          have hid : fAdd fw symbol (computeFirstSeq ctx ns tf (rule.symbols.drop (i + 1)))
              = fw := by
            simp only [fAdd, hov, Option.getD_some, heq]
            exact aset_self fw symbol ov hov
          refine ⟨hid, ?_⟩
          intro X hX htyX
          rw [hget] at hX
          obtain rfl := Option.some.inj hX
          refine ⟨fun heq2 => absurd heq2 hlast, ?_⟩
          intro _
          refine ⟨?_, ?_⟩
          · intro x hx
            rw [hov]
            exact hsub x hx
          · intro hnc
            rw [hnc] at hnul2
            exact absurd hnul2 (by simp)
    · have hty2 : isType ctx symbol = false := by
        revert hty
        cases isType ctx symbol <;> simp
      refine ⟨by simp only [followStep, hget, hty2, Bool.false_eq_true, if_false], ?_⟩
      intro X hX htyX
      rw [hget] at hX
      obtain rfl := Option.some.inj hX
      rw [htyX] at hty2
      exact absurd hty2 (by simp)

theorem followStep_sticky (ctx : GenCtx) (ns : NullSt) (tf : List (String × List String))
    (rule : Rule) (i : Nat) (fw : FollowSt) :
    (followStep ctx ns tf rule i (fw, true)).2 = true := by
  rcases hget : rule.symbols.get? i with _ | symbol
  · simp only [followStep, hget]
  · by_cases hty : isType ctx symbol
    · simp only [followStep, hget, hty, if_true, Bool.true_or]
    · have hty2 : isType ctx symbol = false := by
        revert hty
        cases isType ctx symbol <;> simp
      simp only [followStep, hget, hty2, Bool.false_eq_true, if_false]

theorem followRange_sticky (ctx : GenCtx) (ns : NullSt) (tf : List (String × List String))
    (rule : Rule) :
    ∀ (rng : List Nat) (p : FollowSt × Bool), p.2 = true →
      (rng.foldl (fun p i => followStep ctx ns tf rule i p) p).2 = true := by
  intro rng
  induction rng with
  | nil => intro p h; exact h
  | cons j rest ih =>
    intro p h
    obtain ⟨fwp, chp⟩ := p
    have h2 : chp = true := h
    subst h2
    rw [List.foldl_cons]
    exact ih _ (followStep_sticky ctx ns tf rule j fwp)

theorem followRange_fix (ctx : GenCtx) (ns : NullSt) (tf : List (String × List String))
    (rule : Rule) :
    ∀ (rng : List Nat) (fw : FollowSt),
      (∀ s, isType ctx s = true → (alookup fw s).isSome = true) →
      (rng.foldl (fun p i => followStep ctx ns tf rule i p) (fw, false)).2 = false →
      (rng.foldl (fun p i => followStep ctx ns tf rule i p) (fw, false)).1 = fw
      ∧ ∀ i, i ∈ rng → StepIncl ctx ns tf fw rule i := by
  intro rng
  induction rng with
  | nil =>
    intro fw _ _
    exact ⟨rfl, fun i hi => absurd hi (List.not_mem_nil i)⟩
  | cons j rest ih =>
    intro fw hkeys hflag
    rw [List.foldl_cons] at hflag
    have hq2 : (followStep ctx ns tf rule j (fw, false)).2 = false := by
      by_contra hq
      have hq3 : (followStep ctx ns tf rule j (fw, false)).2 = true := by
        revert hq
        cases (followStep ctx ns tf rule j (fw, false)).2 <;> simp
      have := followRange_sticky ctx ns tf rule rest
        (followStep ctx ns tf rule j (fw, false)) hq3
      rw [this] at hflag
      exact Bool.noConfusion hflag
    obtain ⟨hid, hincl⟩ := followStep_fix ctx ns tf rule j fw hkeys hq2
    have hq4 : followStep ctx ns tf rule j (fw, false) = (fw, false) := by
      rw [Prod.ext_iff]
      exact ⟨hid, hq2⟩
    rw [hq4] at hflag
    obtain ⟨hid2, hincl2⟩ := ih fw hkeys hflag
    refine ⟨?_, ?_⟩
    · rw [List.foldl_cons, hq4]
      exact hid2
    · intro i hi
      rcases List.mem_cons.mp hi with h2 | h2
      · exact h2 ▸ hincl
      · exact hincl2 i h2

theorem followRules_fix (ctx : GenCtx) (ns : NullSt) (tf : List (String × List String)) :
    ∀ (l : List Rule) (fw : FollowSt),
      (∀ s, isType ctx s = true → (alookup fw s).isSome = true) →
      (l.foldl (fun p rule =>
        (List.range rule.symbols.length).foldl
          (fun p i => followStep ctx ns tf rule i p) p) (fw, false)).2 = false →
      (l.foldl (fun p rule =>
        (List.range rule.symbols.length).foldl
          (fun p i => followStep ctx ns tf rule i p) p) (fw, false)).1 = fw
      ∧ ∀ rule, rule ∈ l → ∀ i, i ∈ List.range rule.symbols.length →
          StepIncl ctx ns tf fw rule i := by
  intro l
  induction l with
  | nil =>
    intro fw _ _
    exact ⟨rfl, fun r hr => absurd hr (List.not_mem_nil r)⟩
  | cons r rest ih =>
    intro fw hkeys hflag
    rw [List.foldl_cons] at hflag
    have hq2 : ((List.range r.symbols.length).foldl
        (fun p i => followStep ctx ns tf r i p) (fw, false)).2 = false := by
      by_contra hq
      have hq3 : ((List.range r.symbols.length).foldl
          (fun p i => followStep ctx ns tf r i p) (fw, false)).2 = true := by
        revert hq
        cases ((List.range r.symbols.length).foldl
          (fun p i => followStep ctx ns tf r i p) (fw, false)).2 <;> simp
      have hst : ∀ (l2 : List Rule) (p : FollowSt × Bool), p.2 = true →
          (l2.foldl (fun p rule =>
            (List.range rule.symbols.length).foldl
              (fun p i => followStep ctx ns tf rule i p) p) p).2 = true := by
        intro l2
        induction l2 with
        | nil => intro p h; exact h
        | cons r2 rest2 ih2 =>
          intro p h
          rw [List.foldl_cons]
          exact ih2 _ (followRange_sticky ctx ns tf r2 _ p h)
      have := hst rest _ hq3
      rw [this] at hflag
      exact Bool.noConfusion hflag
    obtain ⟨hid, hincl⟩ := followRange_fix ctx ns tf r
      (List.range r.symbols.length) fw hkeys hq2
    have hq4 : (List.range r.symbols.length).foldl
        (fun p i => followStep ctx ns tf r i p) (fw, false) = (fw, false) := by
      rw [Prod.ext_iff]
      exact ⟨hid, hq2⟩
    rw [hq4] at hflag
    obtain ⟨hid2, hincl2⟩ := ih fw hkeys hflag
    refine ⟨?_, ?_⟩
    · rw [List.foldl_cons, hq4]
      exact hid2
    · intro rule hr i hi
      rcases List.mem_cons.mp hr with h2 | h2
      · exact h2 ▸ hincl i (h2 ▸ hi)
      · exact hincl2 rule h2 i hi

theorem followPass_fix (ctx : GenCtx) (ns : NullSt) (tf : List (String × List String))
    (fw : FollowSt)
    (hkeys : ∀ s, isType ctx s = true → (alookup fw s).isSome = true)
    (hflag : (followPass ctx ns tf fw).2 = false) :
    (followPass ctx ns tf fw).1 = fw
    ∧ ∀ rule, rule ∈ ctx.rules → ∀ i, i < rule.symbols.length →
        StepIncl ctx ns tf fw rule i := by
  obtain ⟨h1, h2⟩ := followRules_fix ctx ns tf ctx.rules fw hkeys hflag
  exact ⟨h1, fun rule hr i hi => h2 rule hr i (List.mem_range.mpr hi)⟩

/-- C7: at any FOLLOW state the pass no longer changes (the state the
`while (changed)` loop of `_computeFollowSets` stops at), the SLR closure
conditions hold: a full pass is the identity on the state; `$end` sits in
FOLLOW(start) (seeded by `followInit` and preserved by every pass); for
every rule `A -> alpha X beta` with `X` a nonterminal, FIRST(beta)
(`computeFirstSeq`) is contained in FOLLOW(X), and FOLLOW(A) is contained
in FOLLOW(X) when `X` is last (beta empty) or beta is nullable; and
`assignItemLookaheads` sets every reduction item's lookahead set to
exactly FOLLOW of its rule's left-hand side. -/
theorem c7_follow_fixpoint_slr (ctx : GenCtx) (ns : NullSt)
    (tf : List (String × List String)) (fw : FollowSt) (states : List St) (fuel : Nat)
    (hstart : ctx.start ∈ ctx.typeNames)
    (hkeys : ∀ s, isType ctx s = true → (alookup fw s).isSome = true)
    (hflag : (followPass ctx ns tf fw).2 = false)
    (hred : ∀ st, st ∈ states → ∀ it, it ∈ st.reductions →
        (alookup fw it.rule.type).isSome = true) :
    "$end" ∈ (alookup (followLoop ctx ns tf fuel (followInit ctx)) ctx.start).getD []
    ∧ (followPass ctx ns tf fw).1 = fw
    ∧ (∀ rule, rule ∈ ctx.rules → ∀ i X, rule.symbols.get? i = some X →
        isType ctx X = true →
        ((i = rule.symbols.length - 1 →
            ∀ x, x ∈ (alookup fw rule.type).getD [] → x ∈ (alookup fw X).getD [])
         ∧ (i ≠ rule.symbols.length - 1 →
            (∀ x, x ∈ computeFirstSeq ctx ns tf (rule.symbols.drop (i + 1)) →
                x ∈ (alookup fw X).getD [])
            ∧ (isNullableSeq ns.typeN (rule.symbols.drop (i + 1)) = true →
                ∀ x, x ∈ (alookup fw rule.type).getD [] → x ∈ (alookup fw X).getD []))))
    ∧ (∀ st, st ∈ assignItemLookaheads fw states → ∀ it, it ∈ st.reductions →
        alookup fw it.rule.type = some it.lookaheads) := by
  obtain ⟨hid, hincl⟩ := followPass_fix ctx ns tf fw hkeys hflag
  refine ⟨?_, hid, ?_, ?_⟩
  · apply followLoop_mono ctx ns tf ctx.start "$end" fuel (followInit ctx)
    have : alookup (followInit ctx) ctx.start = some ["$end"] := by
      simp only [followInit]
      rw [alookup_map_mk ctx.typeNames _ ctx.start hstart, if_pos rfl]
    rw [this]
    simp
  · intro rule hr i X hX htyX
    have hlt : i < rule.symbols.length := by
      by_contra hge
      rw [List.get?_eq_none.mpr (Nat.le_of_not_lt hge)] at hX
      exact Option.noConfusion hX
    exact hincl rule hr i hlt X hX htyX
  · intro st' hst' it hit
    simp only [assignItemLookaheads, List.mem_map] at hst'
    obtain ⟨st0, h0, he⟩ := hst'
    subst he
    simp only [List.mem_map] at hit
    obtain ⟨it0, hit0, he2⟩ := hit
    obtain ⟨fo, hfo⟩ := Option.isSome_iff_exists.mp (hred st0 h0 it0 hit0)
    rw [← he2, hfo]
    exact hfo

def nsD : NullSt := nullableLoop ctxD 50 (nullableInit ctxD)

def tfD : List (String × List String) := (firstLoop ctxD nsD 50 (firstInit ctxD)).typeF

def fwD : FollowSt := followLoop ctxD nsD tfD 50 (followInit ctxD)

def statesD : List St := (buildLRAutomaton ctxD 50 50).states

/-- Witness for C7: the scenario-D pipeline's FOLLOW state after 50
iterations is such a fixed point and the theorem applies to it. -/
theorem c7_witness :
    "$end" ∈ (alookup (followLoop ctxD nsD tfD 50 (followInit ctxD)) ctxD.start).getD []
    ∧ (followPass ctxD nsD tfD fwD).1 = fwD
    ∧ (∀ rule, rule ∈ ctxD.rules → ∀ i X, rule.symbols.get? i = some X →
        isType ctxD X = true →
        ((i = rule.symbols.length - 1 →
            ∀ x, x ∈ (alookup fwD rule.type).getD [] → x ∈ (alookup fwD X).getD [])
         ∧ (i ≠ rule.symbols.length - 1 →
            (∀ x, x ∈ computeFirstSeq ctxD nsD tfD (rule.symbols.drop (i + 1)) →
                x ∈ (alookup fwD X).getD [])
            ∧ (isNullableSeq nsD.typeN (rule.symbols.drop (i + 1)) = true →
                ∀ x, x ∈ (alookup fwD rule.type).getD [] → x ∈ (alookup fwD X).getD []))))
    ∧ (∀ st, st ∈ assignItemLookaheads fwD statesD → ∀ it, it ∈ st.reductions →
        alookup fwD it.rule.type = some it.lookaheads) :=
  c7_follow_fixpoint_slr ctxD nsD tfD fwD statesD 50 (by decide)
    (fun s hty => by
      have hall : ∀ t, t ∈ ctxD.typeNames → (alookup fwD t).isSome = true := by decide
      exact hall s (by
        have h2 := hty
        simp only [isType] at h2
        exact List.elem_iff.mp h2))
    (by decide) (by decide)

/-! ### C9: termination of the NULLABLE / FIRST / FOLLOW fixed points -/

/-- Generic termination of a monotone pass over a finite universe: if an
invariant `I` is preserved, the measure strictly increases on every
changed pass and is bounded on invariant states, then some iterate of the
pass reports no change. -/
theorem pass_terminates {S : Type} (P : S → S × Bool) (m : S → Nat) (B : Nat)
    (I : S → Prop) (s0 : S) (hI0 : I s0)
    (hIstep : ∀ s, I s → I (P s).1)
    (hmono : ∀ s, I s → (P s).2 = true → m s < m (P s).1)
    (hbound : ∀ s, I s → m s ≤ B) :
    ∃ n, (P ((fun s => (P s).1)^[n] s0)).2 = false := by
  by_contra hall
  push_neg at hall
  have hall2 : ∀ n, (P ((fun s => (P s).1)^[n] s0)).2 = true := by
    intro n
    have := hall n
    revert this
    cases (P ((fun s => (P s).1)^[n] s0)).2 <;> simp
  have hInv : ∀ n, I ((fun s => (P s).1)^[n] s0) := by
    intro n
    induction n with
    | zero => exact hI0
    | succ n ih =>
      rw [Function.iterate_succ_apply']
      exact hIstep _ ih
  have hgrow : ∀ n, n ≤ m ((fun s => (P s).1)^[n] s0) := by
    intro n
    induction n with
    | zero => exact Nat.zero_le _
    | succ n ih =>
      rw [Function.iterate_succ_apply']
      have := hmono _ (hInv n) (hall2 n)
      omega
  have h1 := hgrow (B + 1)
  have h2 := hbound _ (hInv (B + 1))
  omega

/-- Count of set `true` flags. -/
def countT (l : List Bool) : Nat := (l.filter id).length

/-- Count of set flags in a keyed flag list. -/
def countT2 (l : List (String × Bool)) : Nat :=
  (l.filter (fun p => p.2)).length

theorem countT_le_len (l : List Bool) : countT l ≤ l.length :=
  List.length_filter_le id l

theorem countT2_le_len (l : List (String × Bool)) : countT2 l ≤ l.length :=
  List.length_filter_le _ l

theorem nullable_rn_facts (tN : List (String × Bool)) :
    ∀ (rules : List Rule) (rb : List Bool),
      countT rb ≤ countT (List.zipWith (fun (r : Rule) (b : Bool) =>
          b || isNullableSeq tN r.symbols) rules rb) + (rb.length - rules.length)
      ∧ (List.zipWith (fun (r : Rule) (b : Bool) =>
            b || isNullableSeq tN r.symbols) rules rb ≠ rb →
          rb.length = rules.length →
          countT rb < countT (List.zipWith (fun (r : Rule) (b : Bool) =>
            b || isNullableSeq tN r.symbols) rules rb)) := by
  intro rules
  induction rules with
  | nil =>
    intro rb
    refine ⟨?_, ?_⟩
    · simp only [List.zipWith_nil_left, countT, List.filter_nil, List.length_nil,
        Nat.zero_add, Nat.sub_zero]
      exact List.length_filter_le id rb
    · intro hne hlen
      exfalso
      rw [List.length_eq_zero.mp hlen] at hne
      exact hne rfl
  | cons r rest ih =>
    intro rb
    match rb with
    | [] =>
      refine ⟨by simp [countT], ?_⟩
      intro hne _
      exact absurd List.zipWith_nil_right hne
    | b :: brest =>
      obtain ⟨ihle, ihlt⟩ := ih brest
      have hlenz : (List.zipWith (fun (r : Rule) (b : Bool) =>
          b || isNullableSeq tN r.symbols) rest brest).length
          = min rest.length brest.length := List.length_zipWith _ _ _
      cases b with
      | true =>
        have hexp : countT (List.zipWith (fun (r : Rule) (b : Bool) =>
            b || isNullableSeq tN r.symbols) (r :: rest) (true :: brest))
            = countT (List.zipWith (fun (r : Rule) (b : Bool) =>
              b || isNullableSeq tN r.symbols) rest brest) + 1 := by
          simp [countT, List.zipWith_cons_cons, List.filter_cons]
        have hexp2 : countT (true :: brest) = countT brest + 1 := by
          simp [countT, List.filter_cons]
        refine ⟨?_, ?_⟩
        · simp only [hexp, hexp2, List.length_cons]
          omega
        · intro hne hlen
          have hne2 : List.zipWith (fun (r : Rule) (b : Bool) =>
              b || isNullableSeq tN r.symbols) rest brest ≠ brest := by
            intro he
            apply hne
            simp only [List.zipWith_cons_cons, Bool.true_or, he]
          have hlen2 : brest.length = rest.length := by
            simpa using hlen
          have := ihlt hne2 hlen2
          simp only [hexp, hexp2]
          omega
      | false =>
        cases hnl : isNullableSeq tN r.symbols with
        | false =>
          have hexp : countT (List.zipWith (fun (r : Rule) (b : Bool) =>
              b || isNullableSeq tN r.symbols) (r :: rest) (false :: brest))
              = countT (List.zipWith (fun (r : Rule) (b : Bool) =>
                b || isNullableSeq tN r.symbols) rest brest) := by
            simp [countT, List.zipWith_cons_cons, List.filter_cons, hnl]
          have hexp2 : countT (false :: brest) = countT brest := by
            simp [countT, List.filter_cons]
          refine ⟨?_, ?_⟩
          · simp only [hexp, hexp2, List.length_cons]
            omega
          · intro hne hlen
            have hne2 : List.zipWith (fun (r : Rule) (b : Bool) =>
                b || isNullableSeq tN r.symbols) rest brest ≠ brest := by
              intro he
              apply hne
              simp only [List.zipWith_cons_cons, hnl, Bool.or_false, he]
            have hlen2 : brest.length = rest.length := by
              simpa using hlen
            have := ihlt hne2 hlen2
            simp only [hexp, hexp2]
            omega
        | true =>
          have hexp : countT (List.zipWith (fun (r : Rule) (b : Bool) =>
              b || isNullableSeq tN r.symbols) (r :: rest) (false :: brest))
              = countT (List.zipWith (fun (r : Rule) (b : Bool) =>
                b || isNullableSeq tN r.symbols) rest brest) + 1 := by
            simp [countT, List.zipWith_cons_cons, List.filter_cons, hnl]
          have hexp2 : countT (false :: brest) = countT brest := by
            simp [countT, List.filter_cons]
          refine ⟨?_, ?_⟩
          · simp only [hexp, hexp2, List.length_cons]
            omega
          · intro _ hlen
            have hlen2 : brest.length = rest.length := by
              simpa using hlen
            have hmono2 := ihle
            simp only [hexp, hexp2]
            rw [hlen2] at hmono2
            omega

theorem nullable_tn_facts (f : (String × Bool) → Bool) :
    ∀ (l : List (String × Bool)),
      countT2 l ≤ countT2 (l.map (fun tb => (tb.1, tb.2 || f tb)))
      ∧ (l.map (fun tb => (tb.1, tb.2 || f tb)) ≠ l →
          countT2 l < countT2 (l.map (fun tb => (tb.1, tb.2 || f tb)))) := by
  intro l
  induction l with
  | nil => exact ⟨Nat.le_refl _, fun hne => absurd rfl hne⟩
  | cons tb rest ih =>
    obtain ⟨ihle, ihlt⟩ := ih
    obtain ⟨k, b⟩ := tb
    cases b with
    | true =>
      have hexp : countT2 ((((k : String), true) :: rest).map
          (fun tb => (tb.1, tb.2 || f tb)))
          = countT2 (rest.map (fun tb => (tb.1, tb.2 || f tb))) + 1 := by
        simp [countT2, List.filter_cons]
      have hexp2 : countT2 (((k : String), true) :: rest) = countT2 rest + 1 := by
        simp [countT2, List.filter_cons]
      refine ⟨?_, ?_⟩
      · simp only [hexp, hexp2]
        omega
      · intro hne
        have hne2 : rest.map (fun tb => (tb.1, tb.2 || f tb)) ≠ rest := by
          intro he
          apply hne
          simp only [List.map_cons, Bool.true_or, he]
        have := ihlt hne2
        simp only [hexp, hexp2]
        omega
    | false =>
      cases hf : f ((k : String), false) with
      | false =>
        have hexp : countT2 ((((k : String), false) :: rest).map
            (fun tb => (tb.1, tb.2 || f tb)))
            = countT2 (rest.map (fun tb => (tb.1, tb.2 || f tb))) := by
          simp [countT2, List.filter_cons, hf]
        have hexp2 : countT2 (((k : String), false) :: rest) = countT2 rest := by
          simp [countT2, List.filter_cons]
        refine ⟨?_, ?_⟩
        · simp only [hexp, hexp2]
          omega
        · intro hne
          have hne2 : rest.map (fun tb => (tb.1, tb.2 || f tb)) ≠ rest := by
            intro he
            apply hne
            simp only [List.map_cons, hf, Bool.or_false, he]
          have := ihlt hne2
          simp only [hexp, hexp2]
          omega
      | true =>
        have hexp : countT2 ((((k : String), false) :: rest).map
            (fun tb => (tb.1, tb.2 || f tb)))
            = countT2 (rest.map (fun tb => (tb.1, tb.2 || f tb))) + 1 := by
          simp [countT2, List.filter_cons, hf]
        have hexp2 : countT2 (((k : String), false) :: rest) = countT2 rest := by
          simp [countT2, List.filter_cons]
        refine ⟨?_, ?_⟩
        · simp only [hexp, hexp2]
          omega
        · intro _
          simp only [hexp, hexp2]
          omega

theorem nullablePass_terminates (ctx : GenCtx) :
    ∃ n, (nullablePass ctx
      ((fun st => (nullablePass ctx st).1)^[n] (nullableInit ctx))).2 = false := by
  apply pass_terminates (nullablePass ctx)
    (fun st => countT st.ruleN + countT2 st.typeN)
    (ctx.rules.length + ctx.typeNames.length)
    (fun st => st.ruleN.length = ctx.rules.length
      ∧ st.typeN.length = ctx.typeNames.length)
  · constructor
    · simp [nullableInit]
    · simp [nullableInit]
  · intro st ⟨h1, h2⟩
    constructor
    · simp only [nullablePass, List.length_zipWith]
      omega
    · simp only [nullablePass, List.length_map]
      exact h2
  · intro st ⟨h1, h2⟩ hch
    simp only [nullablePass, Bool.or_eq_true, decide_eq_true_eq] at hch
    obtain ⟨hle1, hlt1⟩ := nullable_rn_facts st.typeN ctx.rules st.ruleN
    obtain ⟨hle2, hlt2⟩ := nullable_tn_facts
      (fun tb => (ctx.rules.zip (List.zipWith (fun (r : Rule) (b : Bool) =>
        b || isNullableSeq st.typeN r.symbols) ctx.rules st.ruleN)).any
        (fun rb => rb.1.type = tb.1 && rb.2)) st.typeN
    simp only [nullablePass]
    rcases hch with hch | hch
    · have := hlt1 hch h1
      omega
    · have := hlt2 hch
      omega
  · intro st ⟨h1, h2⟩
    have := countT_le_len st.ruleN
    have := countT2_le_len st.typeN
    omega

/-- Total size of all FOLLOW sets. -/
def sumV (l : List (String × List String)) : Nat :=
  l.foldr (fun e acc => e.2.length + acc) 0

theorem sumV_aset (l : List (String × List String)) (k : String)
    (v old : List String) (h : alookup l k = some old) :
    sumV (aset l k v) + old.length = sumV l + v.length := by
  induction l with
  | nil => exact Option.noConfusion h
  | cons hd rest ih =>
    obtain ⟨k0, v0⟩ := hd
    simp only [alookup] at h
    simp only [aset]
    by_cases hk : k0 = k
    · rw [if_pos hk] at h ⊢
      obtain rfl := Option.some.inj h
      simp only [sumV, List.foldr_cons]
      omega
    · rw [if_neg hk] at h ⊢
      have := ih h
      simp only [sumV, List.foldr_cons] at *
      omega

theorem keys_aset (l : List (String × List String)) (k : String)
    (v old : List String) (h : alookup l k = some old) :
    (aset l k v).map (fun e => e.1) = l.map (fun e => e.1) := by
  induction l with
  | nil => exact Option.noConfusion h
  | cons hd rest ih =>
    obtain ⟨k0, v0⟩ := hd
    simp only [alookup] at h
    simp only [aset]
    by_cases hk : k0 = k
    · rw [if_pos hk]
      simp only [List.map_cons]
    · rw [if_neg hk] at h ⊢
      simp only [List.map_cons, ih h]

theorem mem_keys_isSome {β : Type} (l : List (String × β)) (k : String)
    (h : k ∈ l.map (fun e => e.1)) : (alookup l k).isSome = true := by
  induction l with
  | nil => simp at h
  | cons hd rest ih =>
    obtain ⟨k0, v0⟩ := hd
    simp only [List.map_cons, List.mem_cons] at h
    simp only [alookup]
    by_cases hk : k0 = k
    · rw [if_pos hk]; rfl
    · rw [if_neg hk]
      rcases h with h | h
      · exact absurd h.symm hk
      · exact ih h

theorem alookup_mem {β : Type} (l : List (String × β)) (k : String) (v : β)
    (h : alookup l k = some v) : (k, v) ∈ l := by
  induction l with
  | nil => exact Option.noConfusion h
  | cons hd rest ih =>
    obtain ⟨k0, v0⟩ := hd
    simp only [alookup] at h
    by_cases hk : k0 = k
    · rw [if_pos hk] at h
      obtain rfl := Option.some.inj h
      subst hk
      exact List.mem_cons_self _ _
    · rw [if_neg hk] at h
      exact List.mem_cons_of_mem _ (ih h)

theorem mem_aset {β : Type} (l : List (String × β)) (k : String) (v : β) (p : String × β)
    (h : p ∈ aset l k v) : p = (k, v) ∨ p ∈ l := by
  induction l with
  | nil =>
    simp only [aset, List.mem_singleton] at h
    exact Or.inl h
  | cons hd rest ih =>
    obtain ⟨k0, v0⟩ := hd
    simp only [aset] at h
    by_cases hk : k0 = k
    · rw [if_pos hk] at h
      rcases List.mem_cons.mp h with h2 | h2
      · exact Or.inl (by rw [h2, hk])
      · exact Or.inr (List.mem_cons_of_mem _ h2)
    · rw [if_neg hk] at h
      rcases List.mem_cons.mp h with h2 | h2
      · exact Or.inr (h2 ▸ List.mem_cons_self _ _)
      · rcases ih h2 with h3 | h3
        · exact Or.inl h3
        · exact Or.inr (List.mem_cons_of_mem _ h3)

theorem insertNew_nodup (s : List String) (x : String) (h : s.Nodup) :
    (insertNew s x).Nodup := by
  simp only [insertNew]
  split
  · exact h
  · rename_i hx
    simp [List.nodup_append, h, hx]

theorem addAll_nodup (xs : List String) :
    ∀ s : List String, s.Nodup → (addAll s xs).Nodup := by
  induction xs with
  | nil => intro s h; exact h
  | cons x rest ih =>
    intro s h
    exact ih _ (insertNew_nodup s x h)

theorem mem_insertNew_or (s : List String) (y x : String) (h : x ∈ insertNew s y) :
    x ∈ s ∨ x = y := by
  simp only [insertNew] at h
  split at h
  · exact Or.inl h
  · rcases List.mem_append.mp h with h2 | h2
    · exact Or.inl h2
    · exact Or.inr (List.mem_singleton.mp h2)

theorem mem_addAll_or (ys : List String) :
    ∀ (s : List String) (x : String), x ∈ addAll s ys → x ∈ s ∨ x ∈ ys := by
  induction ys with
  | nil => intro s x h; exact Or.inl h
  | cons y rest ih =>
    intro s x h
    rcases ih _ x h with h2 | h2
    · rcases mem_insertNew_or s y x h2 with h3 | h3
      · exact Or.inl h3
      · exact Or.inr (h3 ▸ List.mem_cons_self _ _)
    · exact Or.inr (List.mem_cons_of_mem _ h2)

theorem sumV_le (c : Nat) :
    ∀ l : List (String × List String),
      (∀ e, e ∈ l → e.2.length ≤ c) → sumV l ≤ l.length * c := by
  intro l
  induction l with
  | nil => intro _; simp [sumV]
  | cons e rest ih =>
    intro h
    have h1 := h e (List.mem_cons_self _ _)
    have h2 := ih (fun e2 he2 => h e2 (List.mem_cons_of_mem _ he2))
    simp only [sumV, List.foldr_cons, List.length_cons] at *
    calc e.2.length + sumV rest ≤ c + rest.length * c := by
          exact Nat.add_le_add h1 h2
      _ = (rest.length + 1) * c := by ring

/-- Shape invariant of the FOLLOW state: entries are keyed exactly by the
type names, every set is duplicate-free and drawn from `U`. -/
def FwInv (ctx : GenCtx) (U : List String) (fw : FollowSt) : Prop :=
  fw.map (fun e => e.1) = ctx.typeNames
  ∧ ∀ e, e ∈ fw → e.2.Nodup ∧ ∀ x, x ∈ e.2 → x ∈ U

theorem fwInv_keys (ctx : GenCtx) (U : List String) (fw : FollowSt)
    (h : FwInv ctx U fw) :
    ∀ s, isType ctx s = true → (alookup fw s).isSome = true := by
  intro s hty
  apply mem_keys_isSome
  rw [h.1]
  simp only [isType] at hty
  exact List.elem_iff.mp hty

theorem getD_mem_U (ctx : GenCtx) (U : List String) (fw : FollowSt)
    (hinv : FwInv ctx U fw) (k : String) :
    ∀ x, x ∈ (alookup fw k).getD [] → x ∈ U := by
  intro x hx
  match halk : alookup fw k with
  | none => rw [halk] at hx; exact absurd hx (List.not_mem_nil x)
  | some v =>
    rw [halk] at hx
    exact (hinv.2 (k, v) (alookup_mem fw k v halk)).2 x hx

theorem fAdd_inv (ctx : GenCtx) (U : List String) (fw : FollowSt) (key : String)
    (xs : List String) (hinv : FwInv ctx U fw) (hkey : isType ctx key = true)
    (hxs : ∀ x, x ∈ xs → x ∈ U) : FwInv ctx U (fAdd fw key xs) := by
  obtain ⟨ov, hov⟩ := Option.isSome_iff_exists.mp (fwInv_keys ctx U fw hinv key hkey)
  constructor
  · show (aset fw key _).map (fun e => e.1) = ctx.typeNames
    rw [keys_aset fw key _ ov hov]
    exact hinv.1
  · intro e he
    rcases mem_aset fw key _ e he with h2 | h2
    · subst h2
      have hnd := (hinv.2 (key, ov) (alookup_mem fw key ov hov)).1
      have hovU := (hinv.2 (key, ov) (alookup_mem fw key ov hov)).2
      constructor
      · show (addAll ((alookup fw key).getD []) xs).Nodup
        rw [hov]
        exact addAll_nodup xs ov hnd
      · intro x hx
        simp only [hov, Option.getD_some] at hx
        rcases mem_addAll_or xs ov x hx with h3 | h3
        · exact hovU x h3
        · exact hxs x h3
    · exact hinv.2 e h2

theorem fAdd_sumV (fw : FollowSt) (key : String) (xs ov : List String)
    (hov : alookup fw key = some ov) :
    sumV (fAdd fw key xs) + ov.length = sumV fw + (addAll ov xs).length := by
  simp only [fAdd, hov, Option.getD_some]
  exact sumV_aset fw key (addAll ov xs) ov hov

theorem followStep_meas (ctx : GenCtx) (ns : NullSt) (tf : List (String × List String))
    (rule : Rule) (i : Nat) (fw : FollowSt) (ch : Bool) (U : List String)
    (hinv : FwInv ctx U fw)
    (hCFS : ∀ j x, x ∈ computeFirstSeq ctx ns tf (rule.symbols.drop (j + 1)) → x ∈ U) :
    FwInv ctx U (followStep ctx ns tf rule i (fw, ch)).1
    ∧ sumV fw ≤ sumV (followStep ctx ns tf rule i (fw, ch)).1
    ∧ ((followStep ctx ns tf rule i (fw, ch)).2 = true → ch = false →
        sumV fw < sumV (followStep ctx ns tf rule i (fw, ch)).1) := by
  rcases hget : rule.symbols.get? i with _ | symbol
  · simp only [followStep, hget]
    exact ⟨hinv, Nat.le_refl _, fun h hc => absurd (hc ▸ h) (by simp)⟩
  · by_cases hty : isType ctx symbol
    · obtain ⟨ov, hov⟩ := Option.isSome_iff_exists.mp
        (fwInv_keys ctx U fw hinv symbol hty)
      have hnd := (hinv.2 (symbol, ov) (alookup_mem fw symbol ov hov)).1
      by_cases hlast : i = rule.symbols.length - 1
      · simp only [followStep, hget, hty, if_true, if_pos hlast, hov, Option.getD_some]
        have hTel := fAdd_sumV fw symbol ((alookup fw rule.type).getD []) ov hov
        have hGe := addAll_len_ge ((alookup fw rule.type).getD []) ov
        refine ⟨?_, ?_, ?_⟩
        · exact fAdd_inv ctx U fw symbol _ hinv hty (getD_mem_U ctx U fw hinv rule.type)
        · omega
        · intro h hc
          subst hc
          simp only [Bool.false_or, decide_eq_true_eq, alookup_fAdd_self, hov,
            Option.getD_some] at h
          omega
      · by_cases hnul : isNullableSeq ns.typeN (rule.symbols.drop (i + 1)) = true
        · simp only [followStep, hget, hty, if_true, if_neg hlast, hnul, hov,
            Option.getD_some]
          have hinva : FwInv ctx U (fAdd fw symbol
              (computeFirstSeq ctx ns tf (rule.symbols.drop (i + 1)))) :=
            fAdd_inv ctx U fw symbol _ hinv hty (hCFS i)
          have hova : alookup (fAdd fw symbol
              (computeFirstSeq ctx ns tf (rule.symbols.drop (i + 1)))) symbol
              = some (addAll ov (computeFirstSeq ctx ns tf (rule.symbols.drop (i + 1)))) := by
            rw [alookup_fAdd_self, hov]
            rfl
          have hT1 := fAdd_sumV fw symbol
            (computeFirstSeq ctx ns tf (rule.symbols.drop (i + 1))) ov hov
          have hT2 := fAdd_sumV (fAdd fw symbol
              (computeFirstSeq ctx ns tf (rule.symbols.drop (i + 1)))) symbol
            ((alookup (fAdd fw symbol
              (computeFirstSeq ctx ns tf (rule.symbols.drop (i + 1)))) rule.type).getD [])
            (addAll ov (computeFirstSeq ctx ns tf (rule.symbols.drop (i + 1)))) hova
          have hGe1 := addAll_len_ge
            (computeFirstSeq ctx ns tf (rule.symbols.drop (i + 1))) ov
          have hGe2 := addAll_len_ge
            ((alookup (fAdd fw symbol
              (computeFirstSeq ctx ns tf (rule.symbols.drop (i + 1)))) rule.type).getD [])
            (addAll ov (computeFirstSeq ctx ns tf (rule.symbols.drop (i + 1))))
          refine ⟨?_, ?_, ?_⟩
          · exact fAdd_inv ctx U _ symbol _ hinva hty
              (getD_mem_U ctx U _ hinva rule.type)
          · omega
          · intro h hc
            subst hc
            simp only [Bool.false_or, decide_eq_true_eq, alookup_fAdd_self, hova,
              Option.getD_some] at h
            omega
        · have hnul2 : isNullableSeq ns.typeN (rule.symbols.drop (i + 1)) = false := by
            revert hnul
            cases isNullableSeq ns.typeN (rule.symbols.drop (i + 1)) <;> simp
          simp only [followStep, hget, hty, if_true, if_neg hlast, hnul2,
            Bool.false_eq_true, if_false, hov, Option.getD_some]
          have hTel := fAdd_sumV fw symbol
            (computeFirstSeq ctx ns tf (rule.symbols.drop (i + 1))) ov hov
          have hGe := addAll_len_ge
            (computeFirstSeq ctx ns tf (rule.symbols.drop (i + 1))) ov
          refine ⟨?_, ?_, ?_⟩
          · exact fAdd_inv ctx U fw symbol _ hinv hty (hCFS i)
          · omega
          · intro h hc
            subst hc
            simp only [Bool.false_or, decide_eq_true_eq, alookup_fAdd_self, hov,
              Option.getD_some] at h
            omega
    · have hty2 : isType ctx symbol = false := by
        revert hty
        cases isType ctx symbol <;> simp
      simp only [followStep, hget, hty2, Bool.false_eq_true, if_false]
      exact ⟨hinv, Nat.le_refl _, fun h hc => absurd (hc ▸ h) (by simp)⟩

theorem followRange_meas (ctx : GenCtx) (ns : NullSt) (tf : List (String × List String))
    (rule : Rule) (U : List String)
    (hCFS : ∀ j x, x ∈ computeFirstSeq ctx ns tf (rule.symbols.drop (j + 1)) → x ∈ U) :
    ∀ (rng : List Nat) (p : FollowSt × Bool), FwInv ctx U p.1 →
      FwInv ctx U (rng.foldl (fun p i => followStep ctx ns tf rule i p) p).1
      ∧ sumV p.1 ≤ sumV (rng.foldl (fun p i => followStep ctx ns tf rule i p) p).1
      ∧ ((rng.foldl (fun p i => followStep ctx ns tf rule i p) p).2 = true →
          p.2 = false →
          sumV p.1 < sumV (rng.foldl (fun p i => followStep ctx ns tf rule i p) p).1) := by
  intro rng
  induction rng with
  | nil =>
    intro p hp
    exact ⟨hp, Nat.le_refl _, fun h hc => absurd (hc ▸ h) (by simp)⟩
  | cons j rest ih =>
    intro p hp
    obtain ⟨fw, ch⟩ := p
    obtain ⟨hq1, hq2, hq3⟩ := followStep_meas ctx ns tf rule j fw ch U hp hCFS
    obtain ⟨hf1, hf2, hf3⟩ := ih (followStep ctx ns tf rule j (fw, ch)) hq1
    rw [List.foldl_cons]
    refine ⟨hf1, Nat.le_trans hq2 hf2, ?_⟩
    intro h hc
    subst hc
    by_cases hqf : (followStep ctx ns tf rule j (fw, false)).2 = true
    · exact Nat.lt_of_lt_of_le (hq3 hqf rfl) hf2
    · have hqf2 : (followStep ctx ns tf rule j (fw, false)).2 = false := by
        revert hqf
        cases (followStep ctx ns tf rule j (fw, false)).2 <;> simp
      exact Nat.lt_of_le_of_lt hq2 (hf3 h hqf2)

theorem followRules_meas (ctx : GenCtx) (ns : NullSt) (tf : List (String × List String))
    (U : List String) :
    ∀ (l : List Rule),
      (∀ rule, rule ∈ l → ∀ j x,
        x ∈ computeFirstSeq ctx ns tf (rule.symbols.drop (j + 1)) → x ∈ U) →
      ∀ (p : FollowSt × Bool), FwInv ctx U p.1 →
      FwInv ctx U (l.foldl (fun p rule =>
        (List.range rule.symbols.length).foldl
          (fun p i => followStep ctx ns tf rule i p) p) p).1
      ∧ sumV p.1 ≤ sumV (l.foldl (fun p rule =>
        (List.range rule.symbols.length).foldl
          (fun p i => followStep ctx ns tf rule i p) p) p).1
      ∧ ((l.foldl (fun p rule =>
          (List.range rule.symbols.length).foldl
            (fun p i => followStep ctx ns tf rule i p) p) p).2 = true →
          p.2 = false →
          sumV p.1 < sumV (l.foldl (fun p rule =>
            (List.range rule.symbols.length).foldl
              (fun p i => followStep ctx ns tf rule i p) p) p).1) := by
  intro l
  induction l with
  | nil =>
    intro _ p hp
    exact ⟨hp, Nat.le_refl _, fun h hc => absurd (hc ▸ h) (by simp)⟩
  | cons r rest ih =>
    intro hl p hp
    obtain ⟨hq1, hq2, hq3⟩ := followRange_meas ctx ns tf r U
      (hl r (List.mem_cons_self _ _)) (List.range r.symbols.length) p hp
    obtain ⟨hf1, hf2, hf3⟩ := ih (fun r2 h2 => hl r2 (List.mem_cons_of_mem _ h2))
      ((List.range r.symbols.length).foldl (fun p i => followStep ctx ns tf r i p) p) hq1
    rw [List.foldl_cons]
    refine ⟨hf1, Nat.le_trans hq2 hf2, ?_⟩
    intro h hc
    by_cases hqf : ((List.range r.symbols.length).foldl
        (fun p i => followStep ctx ns tf r i p) p).2 = true
    · exact Nat.lt_of_lt_of_le (hq3 hqf hc) hf2
    · have hqf2 : ((List.range r.symbols.length).foldl
          (fun p i => followStep ctx ns tf r i p) p).2 = false := by
        revert hqf
        cases ((List.range r.symbols.length).foldl
          (fun p i => followStep ctx ns tf r i p) p).2 <;> simp
      exact Nat.lt_of_le_of_lt hq2 (hf3 h hqf2)

theorem followPass_terminates (ctx : GenCtx) (ns : NullSt)
    (tf : List (String × List String)) (U : List String)
    (hCFS : ∀ rule, rule ∈ ctx.rules → ∀ j x,
      x ∈ computeFirstSeq ctx ns tf (rule.symbols.drop (j + 1)) → x ∈ U)
    (hend : "$end" ∈ U) :
    ∃ n, (followPass ctx ns tf
      ((fun fw => (followPass ctx ns tf fw).1)^[n] (followInit ctx))).2 = false := by
  apply pass_terminates (followPass ctx ns tf) sumV
    (ctx.typeNames.length * U.length) (FwInv ctx U)
  · constructor
    · simp only [followInit, List.map_map]
      have : ((fun (e : String × List String) => e.1) ∘
          fun t => (t, if t = ctx.start then ["$end"] else [])) = id := by
        funext t
        rfl
      rw [this, List.map_id]
    · intro e he
      simp only [followInit, List.mem_map] at he
      obtain ⟨t, _, he2⟩ := he
      subst he2
      by_cases hts : t = ctx.start
      · rw [if_pos hts]
        exact ⟨List.nodup_singleton _, fun x hx => (List.mem_singleton.mp hx) ▸ hend⟩
      · rw [if_neg hts]
        exact ⟨List.nodup_nil, fun x hx => absurd hx (List.not_mem_nil x)⟩
  · intro fw hinv
    exact (followRules_meas ctx ns tf U ctx.rules hCFS (fw, false) hinv).1
  · intro fw hinv hch
    exact (followRules_meas ctx ns tf U ctx.rules hCFS (fw, false) hinv).2.2 hch rfl
  · intro fw hinv
    have hlen : fw.length = ctx.typeNames.length := by
      rw [← hinv.1, List.length_map]
    rw [← hlen]
    apply sumV_le
    intro e he
    obtain ⟨hnd, hU⟩ := hinv.2 e he
    exact List.Subperm.length_le (List.subperm_of_subset hnd (fun x hx => hU x hx))

theorem mem_insertNew_self (s : List String) (x : String) : x ∈ insertNew s x := by
  simp only [insertNew]
  split
  · assumption
  · exact List.mem_append_right _ (List.mem_singleton_self x)

theorem mem_addAll_right (ys : List String) :
    ∀ (s : List String) (x : String), x ∈ ys → x ∈ addAll s ys := by
  induction ys with
  | nil => intro s x h; exact absurd h (List.not_mem_nil x)
  | cons y rest ih =>
    intro s x h
    rcases List.mem_cons.mp h with h2 | h2
    · subst h2
      exact mem_addAll_left rest _ x (mem_insertNew_self s x)
    · exact ih _ x h2

/-- `tf ⊑ tf'` for FIRST maps: lookup-wise containment. -/
def TfLe (tf tf' : List (String × List String)) : Prop :=
  ∀ t x, x ∈ (alookup tf t).getD [] → x ∈ (alookup tf' t).getD []

theorem go_subset_mono (ctx : GenCtx) (ns : NullSt)
    (tf tf' : List (String × List String)) (hle : TfLe tf tf') :
    ∀ (syms : List String) (acc acc' : List String),
      (∀ x, x ∈ acc → x ∈ acc') →
      ∀ x, x ∈ computeFirstSeqGo ctx ns tf acc syms →
        x ∈ computeFirstSeqGo ctx ns tf' acc' syms := by
  intro syms
  induction syms with
  | nil => intro acc acc' hs x hx; exact hs x hx
  | cons s rest ih =>
    intro acc acc' hs x hx
    simp only [computeFirstSeqGo] at hx ⊢
    have hstep : ∀ y, y ∈ (if isType ctx s then addAll acc ((alookup tf s).getD [])
        else insertNew acc s) →
        y ∈ (if isType ctx s then addAll acc' ((alookup tf' s).getD [])
        else insertNew acc' s) := by
      intro y hy
      by_cases hty : isType ctx s
      · rw [if_pos hty] at hy ⊢
        rcases mem_addAll_or _ _ y hy with h2 | h2
        · exact mem_addAll_left _ _ y (hs y h2)
        · exact mem_addAll_right _ _ y (hle s y h2)
      · rw [if_neg hty] at hy ⊢
        rcases mem_insertNew_or _ _ y hy with h2 | h2
        · exact mem_insertNew_left _ _ y (hs y h2)
        · subst h2
          exact mem_insertNew_self _ y
    by_cases hnl : isNullableSym ns.typeN s
    · rw [if_pos hnl] at hx ⊢
      exact ih _ _ hstep x hx
    · rw [if_neg hnl] at hx ⊢
      exact hstep x hx

theorem go_elements (ctx : GenCtx) (ns : NullSt) (tf : List (String × List String)) :
    ∀ (syms : List String) (acc : List String) (x : String),
      x ∈ computeFirstSeqGo ctx ns tf acc syms →
      x ∈ acc ∨ ∃ s, s ∈ syms ∧ (x = s ∨ x ∈ (alookup tf s).getD []) := by
  intro syms
  induction syms with
  | nil => intro acc x hx; exact Or.inl hx
  | cons s rest ih =>
    intro acc x hx
    simp only [computeFirstSeqGo] at hx
    have hstep : ∀ y, y ∈ (if isType ctx s then addAll acc ((alookup tf s).getD [])
        else insertNew acc s) →
        y ∈ acc ∨ y = s ∨ y ∈ (alookup tf s).getD [] := by
      intro y hy
      by_cases hty : isType ctx s
      · rw [if_pos hty] at hy
        rcases mem_addAll_or _ _ y hy with h2 | h2
        · exact Or.inl h2
        · exact Or.inr (Or.inr h2)
      · rw [if_neg hty] at hy
        rcases mem_insertNew_or _ _ y hy with h2 | h2
        · exact Or.inl h2
        · exact Or.inr (Or.inl h2)
    by_cases hnl : isNullableSym ns.typeN s
    · rw [if_pos hnl] at hx
      rcases ih _ x hx with h2 | ⟨s2, hs2, h3⟩
      · rcases hstep x h2 with h3 | h3 | h3
        · exact Or.inl h3
        · exact Or.inr ⟨s, List.mem_cons_self _ _, Or.inl h3⟩
        · exact Or.inr ⟨s, List.mem_cons_self _ _, Or.inr h3⟩
      · exact Or.inr ⟨s2, List.mem_cons_of_mem _ hs2, h3⟩
    · rw [if_neg hnl] at hx
      rcases hstep x hx with h2 | h2 | h2
      · exact Or.inl h2
      · exact Or.inr ⟨s, List.mem_cons_self _ _, Or.inl h2⟩
      · exact Or.inr ⟨s, List.mem_cons_self _ _, Or.inr h2⟩

theorem go_nodup (ctx : GenCtx) (ns : NullSt) (tf : List (String × List String)) :
    ∀ (syms : List String) (acc : List String), acc.Nodup →
      (computeFirstSeqGo ctx ns tf acc syms).Nodup := by
  intro syms
  induction syms with
  | nil => intro acc h; exact h
  | cons s rest ih =>
    intro acc h
    simp only [computeFirstSeqGo]
    have hstep : (if isType ctx s then addAll acc ((alookup tf s).getD [])
        else insertNew acc s).Nodup := by
      by_cases hty : isType ctx s
      · rw [if_pos hty]
        exact addAll_nodup _ acc h
      · rw [if_neg hty]
        exact insertNew_nodup acc s h
    by_cases hnl : isNullableSym ns.typeN s
    · rw [if_pos hnl]
      exact ih _ hstep
    · rw [if_neg hnl]
      exact hstep

theorem foldU_mono (l : List (Rule × List String)) :
    ∀ (acc : List String) (x : String), x ∈ acc →
      x ∈ l.foldl (fun acc rb => addAll acc rb.2) acc := by
  induction l with
  | nil => intro acc x h; exact h
  | cons p rest ih =>
    intro acc x h
    exact ih _ x (mem_addAll_left p.2 acc x h)

theorem foldU_nodup (l : List (Rule × List String)) :
    ∀ (acc : List String), acc.Nodup →
      (l.foldl (fun acc rb => addAll acc rb.2) acc).Nodup := by
  induction l with
  | nil => intro acc h; exact h
  | cons p rest ih =>
    intro acc h
    exact ih _ (addAll_nodup p.2 acc h)

theorem foldU_mem_elim (l : List (Rule × List String)) :
    ∀ (acc : List String) (x : String),
      x ∈ l.foldl (fun acc rb => addAll acc rb.2) acc →
      x ∈ acc ∨ ∃ p, p ∈ l ∧ x ∈ p.2 := by
  induction l with
  | nil => intro acc x h; exact Or.inl h
  | cons p rest ih =>
    intro acc x h
    rcases ih _ x h with h2 | ⟨q, hq, h3⟩
    · rcases mem_addAll_or p.2 acc x h2 with h3 | h3
      · exact Or.inl h3
      · exact Or.inr ⟨p, List.mem_cons_self _ _, h3⟩
    · exact Or.inr ⟨q, List.mem_cons_of_mem _ hq, h3⟩

theorem foldU_mem_intro (l : List (Rule × List String)) :
    ∀ (acc : List String) (p : Rule × List String) (x : String),
      p ∈ l → x ∈ p.2 →
      x ∈ l.foldl (fun acc rb => addAll acc rb.2) acc := by
  induction l with
  | nil => intro acc p x h _; exact absurd h (List.not_mem_nil p)
  | cons q rest ih =>
    intro acc p x hp hx
    rcases List.mem_cons.mp hp with h2 | h2
    · subst h2
      exact foldU_mono rest _ x (mem_addAll_right p.2 acc x hx)
    · exact ih _ p x h2 hx

theorem alookup_map_keyfun {β : Type} (S : String → β) :
    ∀ (l : List (String × List String)) (k : String) (v : List String),
      alookup l k = some v →
      alookup (l.map (fun e => (e.1, S e.1))) k = some (S k) := by
  intro l
  induction l with
  | nil => intro k v h; exact Option.noConfusion h
  | cons e rest ih =>
    intro k v h
    obtain ⟨k0, v0⟩ := e
    simp only [alookup, List.map_cons] at h ⊢
    by_cases hk : k0 = k
    · rw [if_pos hk]
      rw [hk]
    · rw [if_neg hk] at h ⊢
      exact ih k v h

/-- Total size of the per-rule FIRST sets. -/
def sumR (l : List (List String)) : Nat :=
  l.foldr (fun x acc => x.length + acc) 0

theorem sumR_facts :
    ∀ (a b : List (List String)),
      (∀ j fa fb, a.get? j = some fa → b.get? j = some fb → fa.length ≤ fb.length) →
      a.length ≤ b.length →
      sumR a ≤ sumR b
      ∧ ((List.zipWith (fun old new => decide (new.length > old.length)) a b).any id
          = true → sumR a < sumR b) := by
  intro a
  induction a with
  | nil =>
    intro b _ _
    constructor
    · exact Nat.zero_le _
    · intro h
      simp at h
  | cons fa resta ih =>
    intro b hpt hlen
    match b with
    | [] => exact absurd hlen (by simp)
    | fb :: restb =>
      have hhead := hpt 0 fa fb rfl rfl
      obtain ⟨ihle, ihlt⟩ := ih restb
        (fun j fa2 fb2 h1 h2 => hpt (j + 1) fa2 fb2 h1 h2)
        (by simpa using hlen)
      refine ⟨?_, ?_⟩
      · simp only [sumR, List.foldr_cons] at *
        omega
      · intro h
        simp only [List.zipWith_cons_cons, List.any_cons, Bool.or_eq_true, id,
          decide_eq_true_eq] at h
        rcases h with h | h
        · simp only [sumR, List.foldr_cons] at *
          omega
        · have := ihlt h
          simp only [sumR, List.foldr_cons] at *
          omega

theorem sumV_map_facts (f : (String × List String) → (String × List String)) :
    ∀ (l : List (String × List String)),
      (∀ e, e ∈ l → e.2.Nodup ∧ ∀ x, x ∈ e.2 → x ∈ (f e).2) →
      sumV l ≤ sumV (l.map f)
      ∧ ((List.zipWith (fun (old new : String × List String) =>
            decide (new.2.length > old.2.length)) l (l.map f)).any id = true →
          sumV l < sumV (l.map f)) := by
  intro l
  induction l with
  | nil =>
    intro _
    exact ⟨Nat.le_refl _, fun h => by simp at h⟩
  | cons e rest ih =>
    intro hsub
    have hhead : e.2.length ≤ (f e).2.length := by
      obtain ⟨hnd, hs⟩ := hsub e (List.mem_cons_self _ _)
      exact List.Subperm.length_le (List.subperm_of_subset hnd (fun x hx => hs x hx))
    obtain ⟨ihle, ihlt⟩ := ih (fun e2 he2 => hsub e2 (List.mem_cons_of_mem _ he2))
    refine ⟨?_, ?_⟩
    · simp only [List.map_cons, sumV, List.foldr_cons] at *
      omega
    · intro h
      simp only [List.map_cons, List.zipWith_cons_cons, List.any_cons, Bool.or_eq_true,
        id, decide_eq_true_eq] at h
      rcases h with h | h
      · simp only [List.map_cons, sumV, List.foldr_cons] at *
        omega
      · have := ihlt h
        simp only [List.map_cons, sumV, List.foldr_cons] at *
        omega

theorem get?_isSome_of_lt {α : Type} (l : List α) (j : Nat) (h : j < l.length) :
    ∃ v, l.get? j = some v := by
  match hg : l.get? j with
  | some v => exact ⟨v, rfl⟩
  | none => exact absurd (List.get?_eq_none.mp hg) (by omega)

/-- Shape invariant of the FIRST state: lengths and keys are fixed, sets
are duplicate-free and drawn from `U`, every stored rule FIRST is
dominated by its recomputation from the current type FIRSTs, and every
type FIRST element comes from one of the type's rules. -/
def FInv (ctx : GenCtx) (ns : NullSt) (U : List String) (st : FirstSt) : Prop :=
  st.ruleF.length = ctx.rules.length
  ∧ st.typeF.map (fun e => e.1) = ctx.typeNames
  ∧ (∀ fo, fo ∈ st.ruleF → fo.Nodup ∧ ∀ x, x ∈ fo → x ∈ U)
  ∧ (∀ e, e ∈ st.typeF → e.2.Nodup ∧ ∀ x, x ∈ e.2 → x ∈ U)
  ∧ (∀ j r fo, ctx.rules.get? j = some r → st.ruleF.get? j = some fo →
      ∀ x, x ∈ fo → x ∈ computeFirstSeq ctx ns st.typeF r.symbols)
  ∧ (∀ e, e ∈ st.typeF → ∀ x, x ∈ e.2 →
      ∃ j r fo, ctx.rules.get? j = some r ∧ st.ruleF.get? j = some fo
        ∧ r.type = e.1 ∧ x ∈ fo)

theorem firstPass_facts (ctx : GenCtx) (ns : NullSt) (U : List String) (st : FirstSt)
    (hSyms : ∀ rule, rule ∈ ctx.rules → ∀ s, s ∈ rule.symbols → s ∈ U)
    (hinv : FInv ctx ns U st) :
    FInv ctx ns U (firstPass ctx ns st).1
    ∧ sumR st.ruleF + sumV st.typeF
        ≤ sumR (firstPass ctx ns st).1.ruleF + sumV (firstPass ctx ns st).1.typeF
    ∧ ((firstPass ctx ns st).2 = true →
        sumR st.ruleF + sumV st.typeF
          < sumR (firstPass ctx ns st).1.ruleF + sumV (firstPass ctx ns st).1.typeF) := by
  obtain ⟨hlenR, hkeysT, hnodR, hnodT, hdom, htdom⟩ := hinv
  have hrfB : ∀ j r, ctx.rules.get? j = some r →
      (List.zipWith (fun (r : Rule) (_old : List String) =>
        computeFirstSeq ctx ns st.typeF r.symbols) ctx.rules st.ruleF).get? j
      = some (computeFirstSeq ctx ns st.typeF r.symbols) := by
    intro j r hr
    obtain ⟨hlt, _⟩ := List.get?_eq_some.mp hr
    obtain ⟨fo, hfo⟩ := get?_isSome_of_lt st.ruleF j (by omega)
    exact (List.get?_zipWith_eq_some _ _ _ _ _).mpr ⟨r, fo, hr, hfo, rfl⟩
  have hrfU : ∀ fo, fo ∈ (List.zipWith (fun (r : Rule) (_old : List String) =>
      computeFirstSeq ctx ns st.typeF r.symbols) ctx.rules st.ruleF) →
      fo.Nodup ∧ ∀ x, x ∈ fo → x ∈ U := by
    intro fo hfo
    obtain ⟨j, hj⟩ := List.mem_iff_get?.mp hfo
    obtain ⟨r, f0, hr, _, he⟩ := (List.get?_zipWith_eq_some _ _ _ _ _).mp hj
    subst he
    constructor
    · exact go_nodup ctx ns st.typeF r.symbols [] List.nodup_nil
    · intro x hx
      rcases go_elements ctx ns st.typeF r.symbols [] x hx with h2 | ⟨s, hs, h3 | h3⟩
      · exact absurd h2 (List.not_mem_nil x)
      · exact h3 ▸ hSyms r (List.get?_mem hr) s hs
      · match halk : alookup st.typeF s with
        | none => rw [halk] at h3; exact absurd h3 (List.not_mem_nil x)
        | some v =>
          rw [halk] at h3
          exact (hnodT (s, v) (alookup_mem _ s v halk)).2 x h3
  have hCp : ∀ e, e ∈ st.typeF → ∀ x, x ∈ e.2 →
      x ∈ ((ctx.rules.zip (List.zipWith (fun (r : Rule) (_old : List String) =>
        computeFirstSeq ctx ns st.typeF r.symbols) ctx.rules st.ruleF)).filter
          (fun rb => rb.1.type = e.1)).foldl (fun acc rb => addAll acc rb.2) [] := by
    intro e he x hx
    obtain ⟨j, r2, fo, hr2, hfo2, hty2, hxfo⟩ := htdom e he x hx
    have hxC := hdom j r2 fo hr2 hfo2 x hxfo
    have hrz : (ctx.rules.zip (List.zipWith (fun (r : Rule) (_old : List String) =>
        computeFirstSeq ctx ns st.typeF r.symbols) ctx.rules st.ruleF)).get? j
        = some (r2, computeFirstSeq ctx ns st.typeF r2.symbols) :=
      (List.get?_zip_eq_some _ _ _ _).mpr ⟨hr2, hrfB j r2 hr2⟩
    apply foldU_mem_intro _ [] (r2, computeFirstSeq ctx ns st.typeF r2.symbols) x
      (List.mem_filter.mpr ⟨List.get?_mem hrz, by simp [hty2]⟩) hxC
  have hTfLe : TfLe st.typeF (st.typeF.map (fun (tl : String × List String) =>
      (tl.1, ((ctx.rules.zip (List.zipWith (fun (r : Rule) (_old : List String) =>
        computeFirstSeq ctx ns st.typeF r.symbols) ctx.rules st.ruleF)).filter
          (fun rb => rb.1.type = tl.1)).foldl (fun acc rb => addAll acc rb.2) []))) := by
    intro t x hx
    match halk : alookup st.typeF t with
    | none => rw [halk] at hx; exact absurd hx (List.not_mem_nil x)
    | some v =>
      rw [halk] at hx
      rw [alookup_map_keyfun (fun t2 => ((ctx.rules.zip (List.zipWith
        (fun (r : Rule) (_old : List String) =>
          computeFirstSeq ctx ns st.typeF r.symbols) ctx.rules st.ruleF)).filter
            (fun rb => rb.1.type = t2)).foldl (fun acc rb => addAll acc rb.2) [])
        st.typeF t v halk]
      exact hCp (t, v) (alookup_mem _ t v halk) x hx
  have htfE : ∀ e2, e2 ∈ (st.typeF.map (fun (tl : String × List String) =>
      (tl.1, ((ctx.rules.zip (List.zipWith (fun (r : Rule) (_old : List String) =>
        computeFirstSeq ctx ns st.typeF r.symbols) ctx.rules st.ruleF)).filter
          (fun rb => rb.1.type = tl.1)).foldl (fun acc rb => addAll acc rb.2) []))) →
      e2.2.Nodup ∧ ∀ x, x ∈ e2.2 → x ∈ U := by
    intro e2 he2
    obtain ⟨e, _, he⟩ := List.mem_map.mp he2
    subst he
    constructor
    · exact foldU_nodup _ [] List.nodup_nil
    · intro x hx
      rcases foldU_mem_elim _ [] x hx with h2 | ⟨p, hp, h3⟩
      · exact absurd h2 (List.not_mem_nil x)
      · have hp2 := List.of_mem_zip (List.mem_of_mem_filter hp)
        exact (hrfU p.2 hp2.2).2 x h3
  refine ⟨⟨?_, ?_, ?_, ?_, ?_, ?_⟩, ?_, ?_⟩
  · simp only [firstPass, List.length_zipWith]
    omega
  · simp only [firstPass, List.map_map]
    have : ((fun (e : String × List String) => e.1) ∘ (fun (tl : String × List String) =>
        (tl.1, ((ctx.rules.zip (List.zipWith (fun (r : Rule) (_old : List String) =>
          computeFirstSeq ctx ns st.typeF r.symbols) ctx.rules st.ruleF)).filter
            (fun rb => rb.1.type = tl.1)).foldl (fun acc rb => addAll acc rb.2) [])))
        = (fun e => e.1) := by
      funext e
      rfl
    rw [this, hkeysT]
  · exact hrfU
  · exact htfE
  · intro j r fo hr hfo hx
    simp only [firstPass] at hfo
    obtain ⟨r2, f0, hr2, _, he⟩ := (List.get?_zipWith_eq_some _ _ _ _ _).mp hfo
    rw [hr] at hr2
    obtain rfl := Option.some.inj hr2
    subst he
    intro hxm
    exact go_subset_mono ctx ns st.typeF _ hTfLe r.symbols [] []
      (fun y hy => hy) _ hxm
  · intro e2 he2 x hx
    simp only [firstPass, List.mem_map] at he2
    obtain ⟨e, he, hee⟩ := he2
    subst hee
    rcases foldU_mem_elim _ [] x hx with h2 | ⟨p, hp, h3⟩
    · exact absurd h2 (List.not_mem_nil x)
    · obtain ⟨j, hj⟩ := List.mem_iff_get?.mp (List.mem_of_mem_filter hp)
      obtain ⟨hr, hrf⟩ := (List.get?_zip_eq_some _ _ _ _).mp hj
      have hty := List.mem_filter.mp hp
      refine ⟨j, p.1, p.2, hr, hrf, ?_, h3⟩
      simpa using hty.2
  · have h1 := sumR_facts st.ruleF (List.zipWith (fun (r : Rule) (_old : List String) =>
        computeFirstSeq ctx ns st.typeF r.symbols) ctx.rules st.ruleF)
      (by
        intro j fa fb hfa hfb
        obtain ⟨hlt, _⟩ := List.get?_eq_some.mp hfa
        obtain ⟨r, hr⟩ := get?_isSome_of_lt ctx.rules j (by omega)
        rw [hrfB j r hr] at hfb
        obtain rfl := Option.some.inj hfb
        have hsub := hdom j r fa hr hfa
        exact List.Subperm.length_le (List.subperm_of_subset
          (hnodR fa (List.get?_mem hfa)).1 (fun x hx => hsub x hx))
      )
      (by simp only [List.length_zipWith]; omega)
    obtain ⟨h2le, h2lt⟩ := sumV_map_facts (fun (tl : String × List String) => (tl.1, ((ctx.rules.zip (List.zipWith (fun (r : Rule) (_old : List String) => computeFirstSeq ctx ns st.typeF r.symbols) ctx.rules st.ruleF)).filter (fun rb => rb.1.type = tl.1)).foldl (fun acc rb => addAll acc rb.2) [])) st.typeF (fun e he => ⟨(hnodT e he).1, fun x hx => hCp e he x hx⟩)
    simp only [firstPass]
    have h1le := h1.1
    omega
  · have h1 := sumR_facts st.ruleF (List.zipWith (fun (r : Rule) (_old : List String) =>
        computeFirstSeq ctx ns st.typeF r.symbols) ctx.rules st.ruleF)
      (by
        intro j fa fb hfa hfb
        obtain ⟨hlt, _⟩ := List.get?_eq_some.mp hfa
        obtain ⟨r, hr⟩ := get?_isSome_of_lt ctx.rules j (by omega)
        rw [hrfB j r hr] at hfb
        obtain rfl := Option.some.inj hfb
        have hsub := hdom j r fa hr hfa
        exact List.Subperm.length_le (List.subperm_of_subset
          (hnodR fa (List.get?_mem hfa)).1 (fun x hx => hsub x hx))
      )
      (by simp only [List.length_zipWith]; omega)
    obtain ⟨h2le, h2lt⟩ := sumV_map_facts (fun (tl : String × List String) => (tl.1, ((ctx.rules.zip (List.zipWith (fun (r : Rule) (_old : List String) => computeFirstSeq ctx ns st.typeF r.symbols) ctx.rules st.ruleF)).filter (fun rb => rb.1.type = tl.1)).foldl (fun acc rb => addAll acc rb.2) [])) st.typeF (fun e he => ⟨(hnodT e he).1, fun x hx => hCp e he x hx⟩)
    intro hch
    simp only [firstPass, Bool.or_eq_true] at hch
    simp only [firstPass]
    obtain ⟨h1le, h1lt⟩ := h1
    rcases hch with hch | hch
    · have := h1lt hch
      omega
    · have := h2lt hch
      omega

theorem sumR_le (c : Nat) :
    ∀ l : List (List String),
      (∀ fo, fo ∈ l → fo.length ≤ c) → sumR l ≤ l.length * c := by
  intro l
  induction l with
  | nil => intro _; simp [sumR]
  | cons fo rest ih =>
    intro h
    have h1 := h fo (List.mem_cons_self _ _)
    have h2 := ih (fun f2 hf2 => h f2 (List.mem_cons_of_mem _ hf2))
    simp only [sumR, List.foldr_cons, List.length_cons] at *
    calc fo.length + sumR rest ≤ c + rest.length * c := Nat.add_le_add h1 h2
      _ = (rest.length + 1) * c := by ring

theorem firstPass_terminates (ctx : GenCtx) (ns : NullSt) (U : List String)
    (hSyms : ∀ rule, rule ∈ ctx.rules → ∀ s, s ∈ rule.symbols → s ∈ U) :
    ∃ n, (firstPass ctx ns
      ((fun st => (firstPass ctx ns st).1)^[n] (firstInit ctx))).2 = false := by
  apply pass_terminates (firstPass ctx ns)
    (fun st => sumR st.ruleF + sumV st.typeF)
    (ctx.rules.length * U.length + ctx.typeNames.length * U.length)
    (FInv ctx ns U)
  · refine ⟨?_, ?_, ?_, ?_, ?_, ?_⟩
    · simp [firstInit]
    · simp only [firstInit, List.map_map]
      have : ((fun (e : String × List String) => e.1) ∘ fun t => (t, ([] : List String)))
          = id := by
        funext t
        rfl
      rw [this, List.map_id]
    · intro fo hfo
      simp only [firstInit, List.mem_map] at hfo
      obtain ⟨r, _, he⟩ := hfo
      subst he
      exact ⟨List.nodup_nil, fun x hx => absurd hx (List.not_mem_nil x)⟩
    · intro e he
      simp only [firstInit, List.mem_map] at he
      obtain ⟨t, _, he2⟩ := he
      subst he2
      exact ⟨List.nodup_nil, fun x hx => absurd hx (List.not_mem_nil x)⟩
    · intro j r fo hr hfo
      simp only [firstInit, List.get?_map] at hfo
      match hg : ctx.rules.get? j with
      | none => rw [hg] at hfo; exact Option.noConfusion hfo
      | some r2 =>
        rw [hg] at hfo
        simp only [Option.map_some'] at hfo
        obtain rfl := Option.some.inj hfo
        intro x hx
        exact absurd hx (List.not_mem_nil x)
    · intro e he x hx
      simp only [firstInit, List.mem_map] at he
      obtain ⟨t, _, he2⟩ := he
      subst he2
      exact absurd hx (List.not_mem_nil x)
  · intro st hinv
    exact (firstPass_facts ctx ns U st hSyms hinv).1
  · intro st hinv hch
    exact (firstPass_facts ctx ns U st hSyms hinv).2.2 hch
  · intro st hinv
    obtain ⟨hlenR, hkeysT, hnodR, hnodT, _, _⟩ := hinv
    have hb1 : sumR st.ruleF ≤ st.ruleF.length * U.length := by
      apply sumR_le
      intro fo hfo
      obtain ⟨hnd, hU⟩ := hnodR fo hfo
      exact List.Subperm.length_le (List.subperm_of_subset hnd (fun x hx => hU x hx))
    have hb2 : sumV st.typeF ≤ st.typeF.length * U.length := by
      apply sumV_le
      intro e he
      obtain ⟨hnd, hU⟩ := hnodT e he
      exact List.Subperm.length_le (List.subperm_of_subset hnd (fun x hx => hU x hx))
    have hl2 : st.typeF.length = ctx.typeNames.length := by
      rw [← hkeysT, List.length_map]
    rw [hlenR] at hb1
    rw [hl2] at hb2
    omega

/-- C9: the three fixed-point loops terminate.  Each pass is monotone (the
count of nullable flags and the total FIRST/FOLLOW set sizes never
decrease), the measures are bounded by the finite universes (`UF` holding
every grammar symbol, `UW` additionally `$end` and the FIRST elements),
and a changed pass strictly increases the measure, so from each loop's
initial state some iterate of the pass reports no change — exactly the
condition on which the source's `while (changed)` loops stop. -/
theorem c9_fixpoint_termination (ctx : GenCtx) (ns : NullSt)
    (tf : List (String × List String)) (UF UW : List String)
    (hSyms : ∀ rule, rule ∈ ctx.rules → ∀ s, s ∈ rule.symbols → s ∈ UF)
    (hCFS : ∀ rule, rule ∈ ctx.rules → ∀ j x,
      x ∈ computeFirstSeq ctx ns tf (rule.symbols.drop (j + 1)) → x ∈ UW)
    (hend : "$end" ∈ UW) :
    (∀ st : NullSt, st.ruleN.length = ctx.rules.length →
      countT st.ruleN + countT2 st.typeN
        ≤ countT (nullablePass ctx st).1.ruleN + countT2 (nullablePass ctx st).1.typeN)
    ∧ (∀ st : FirstSt, FInv ctx ns UF st →
      sumR st.ruleF + sumV st.typeF
        ≤ sumR (firstPass ctx ns st).1.ruleF + sumV (firstPass ctx ns st).1.typeF)
    ∧ (∀ fw : FollowSt, FwInv ctx UW fw → sumV fw ≤ sumV (followPass ctx ns tf fw).1)
    ∧ (∃ n, (nullablePass ctx
        ((fun st => (nullablePass ctx st).1)^[n] (nullableInit ctx))).2 = false)
    ∧ (∃ n, (firstPass ctx ns
        ((fun st => (firstPass ctx ns st).1)^[n] (firstInit ctx))).2 = false)
    ∧ (∃ n, (followPass ctx ns tf
        ((fun fw => (followPass ctx ns tf fw).1)^[n] (followInit ctx))).2 = false) := by
  refine ⟨?_, ?_, ?_, nullablePass_terminates ctx,
    firstPass_terminates ctx ns UF hSyms,
    followPass_terminates ctx ns tf UW hCFS hend⟩
  · intro st hlen
    obtain ⟨hle1, _⟩ := nullable_rn_facts st.typeN ctx.rules st.ruleN
    obtain ⟨hle2, _⟩ := nullable_tn_facts
      (fun tb => (ctx.rules.zip (List.zipWith (fun (r : Rule) (b : Bool) =>
        b || isNullableSeq st.typeN r.symbols) ctx.rules st.ruleN)).any
        (fun rb => rb.1.type = tb.1 && rb.2)) st.typeN
    simp only [nullablePass]
    rw [hlen] at hle1
    omega
  · intro st hinv
    exact (firstPass_facts ctx ns UF st hSyms hinv).2.1
  · intro fw hinv
    exact (followRules_meas ctx ns tf UW ctx.rules hCFS (fw, false) hinv).2.1

def ufD : List String := ctxD.rules.foldr (fun r acc => r.symbols ++ acc) []

def uwD : List String :=
  "$end" :: (ctxD.rules.foldr (fun r acc => r.symbols ++ acc) []
    ++ tfD.foldr (fun e acc => e.2 ++ acc) [])

/-- Witness for C9: the scenario-D generator context with its concrete
universes; every hypothesis is checked by evaluation. -/
theorem c9_witness :
    (∀ st : NullSt, st.ruleN.length = ctxD.rules.length →
      countT st.ruleN + countT2 st.typeN
        ≤ countT (nullablePass ctxD st).1.ruleN + countT2 (nullablePass ctxD st).1.typeN)
    ∧ (∀ st : FirstSt, FInv ctxD nsD ufD st →
      sumR st.ruleF + sumV st.typeF
        ≤ sumR (firstPass ctxD nsD st).1.ruleF + sumV (firstPass ctxD nsD st).1.typeF)
    ∧ (∀ fw : FollowSt, FwInv ctxD uwD fw → sumV fw ≤ sumV (followPass ctxD nsD tfD fw).1)
    ∧ (∃ n, (nullablePass ctxD
        ((fun st => (nullablePass ctxD st).1)^[n] (nullableInit ctxD))).2 = false)
    ∧ (∃ n, (firstPass ctxD nsD
        ((fun st => (firstPass ctxD nsD st).1)^[n] (firstInit ctxD))).2 = false)
    ∧ (∃ n, (followPass ctxD nsD tfD
        ((fun fw => (followPass ctxD nsD tfD fw).1)^[n] (followInit ctxD))).2 = false) :=
  c9_fixpoint_termination ctxD nsD tfD ufD uwD (by decide)
    (fun rule hr j x hx => by
      by_cases hj : rule.symbols.length ≤ j + 1
      · rw [List.drop_eq_nil_of_le hj] at hx
        simp [computeFirstSeq, computeFirstSeqGo] at hx
      · have hb : ∀ rule, rule ∈ ctxD.rules → ∀ j, j ∈ List.range rule.symbols.length →
            ∀ x, x ∈ computeFirstSeq ctxD nsD tfD (rule.symbols.drop (j + 1)) →
              x ∈ uwD := by decide
        exact hb rule hr j (List.mem_range.mpr (by omega)) x hx)
    (by decide)

end Solar
